import Mathlib

/-!
# Cephes special functions: `airy` and `zetac`

A shallow embedding of `src/cephes/bessel/airy.c` and `src/cephes/misc/zetac.c`
(the `UNK` configuration: decimal coefficient tables, `MAXAIRY = 25.77`,
negative cutoff `-170.6243`).

Conventions of the embedding.

* A C `double` is an element of an arbitrary linearly ordered field `α` with a
  floor function; arithmetic is exact.  Decimal literals of the source are read
  as the exact rationals they denote.
* The elementary functions and constants that the source imports from other
  translation units (`sin`, `cos`, `exp`, `sqrt`, `pow`, `gamma`, `PI`,
  `MAXNUM`, `MACHEP`) are the fields of a parameter record `Elem α`.
  `floor` and `fabs` are exact on doubles and are the floor and absolute value
  of `α`.
* `mtherr (name, code)` is the error side channel; a call is recorded by
  appending `code` to the list of reports returned with the value.
* Loops and the recursive call consume fuel; running out is `Fault.fuel`.
  Reading a table outside its bounds is `Fault.bounds`.
-/

namespace Cephes

/-- Error codes handed to `mtherr` by the two source files. -/
inductive MthCode where
  | SING
  | OVERFLOW
  deriving DecidableEq

/-- Ways in which a run of the embedding can fail to produce a result. -/
inductive Fault where
  | fuel
  | bounds
  deriving DecidableEq

/-- External collaborators: the functions and constants declared `extern` in the sources. -/
structure Elem (α : Type) where
  sin : α → α
  cos : α → α
  exp : α → α
  sqrt : α → α
  pow : α → α → α
  gamma : α → α
  PI : α
  MAXNUM : α
  MACHEP : α

variable {α : Type} [LinearOrderedField α]

/-- Read entry `i` of a C array; an index outside the array is a bounds fault. -/
def readTable (t : List α) (i : Int) : Except Fault α :=
  if 0 ≤ i then
    match t[i.toNat]? with
    | some v => .ok v
    | none => .error .bounds
  else .error .bounds

/-- Conversion of a double to a C `int`: truncation toward zero. -/
def truncInt [FloorRing α] (x : α) : Int :=
  if 0 ≤ x then ⌊x⌋ else ⌈x⌉

/-- Modelled from the spec: `polevl.c` is not among the sources.  `polevl x coef N`
evaluates the polynomial of degree `N` whose `N + 1` coefficients are given
highest degree first, by the Horner scheme.  A table shorter than `N + 1` would be
read past its end. -/
def torch_cephes_polevl (x : α) (coef : List α) (N : Nat) : Except Fault α :=
  if N + 1 ≤ coef.length then
    .ok ((coef.take (N + 1)).foldl (fun acc c => acc * x + c) 0)
  else .error .bounds

/-- Modelled from the spec: `polevl.c` is not among the sources.  `p1evl x coef N`
is the same evaluation with an implicit leading coefficient `1` that is absent
from the table, so the table holds `N` coefficients. -/
def torch_cephes_p1evl (x : α) (coef : List α) (N : Nat) : Except Fault α :=
  if N ≤ coef.length then
    .ok ((coef.take N).foldl (fun acc c => acc * x + c) 1)
  else .error .bounds

namespace Zetac

/-- Riemann zeta(x) - 1 for integer arguments between 0 and 30 (`azetac`, zetac.c 60-92). -/
def azetac : List α :=
  [ -1.50000000000000000000E0,
    1.70141183460469231730E38,
    6.44934066848226436472E-1,
    2.02056903159594285400E-1,
    8.23232337111381915160E-2,
    3.69277551433699263314E-2,
    1.73430619844491397145E-2,
    8.34927738192282683980E-3,
    4.07735619794433937869E-3,
    2.00839282608221441785E-3,
    9.94575127818085337146E-4,
    4.94188604119464558702E-4,
    2.46086553308048298638E-4,
    1.22713347578489146752E-4,
    6.12481350587048292585E-5,
    3.05882363070204935517E-5,
    1.52822594086518717326E-5,
    7.63719763789976227360E-6,
    3.81729326499983985646E-6,
    1.90821271655393892566E-6,
    9.53962033872796113152E-7,
    4.76932986787806463117E-7,
    2.38450502727732990004E-7,
    1.19219925965311073068E-7,
    5.96081890512594796124E-8,
    2.98035035146522801861E-8,
    1.49015548283650412347E-8,
    7.45071178983542949198E-9,
    3.72533402478845705482E-9,
    1.86265972351304900640E-9,
    9.31327432419668182872E-10 ]

/-- Numerator table for 2**x (1 - 1/x) (zeta(x) - 1) = P(1/x)/Q(1/x), 1 <= x <= 10. -/
def P : List α :=
  [ 5.85746514569725319540E11,
    2.57534127756102572888E11,
    4.87781159567948256438E10,
    5.15399538023885770696E9,
    3.41646073514754094281E8,
    1.60837006880656492731E7,
    5.92785467342109522998E5,
    1.51129169964938823117E4,
    2.01822444485997955865E2 ]

/-- Denominator table `Q[8]`; the leading coefficient 1 is implicit. -/
def Q : List α :=
  [ 3.90497676373371157516E11,
    5.22858235368272161797E10,
    5.64451517271280543351E9,
    3.39006746015350418834E8,
    1.79410371500126453702E7,
    5.66666825131384797029E5,
    1.60382976810944131506E4,
    1.96436237223387314144E2 ]

/-- Numerator table for log(zeta(x) - 1 - 2**-x), 10 <= x <= 50. -/
def A : List α :=
  [ 8.70728567484590192539E6,
    1.76506865670346462757E8,
    2.60889506707483264896E10,
    5.29806374009894791647E11,
    2.26888156119238241487E13,
    3.31884402932705083599E14,
    5.13778997975868230192E15,
    -1.98123688133907171455E15,
    -9.92763810039983572356E16,
    7.82905376180870586444E16,
    9.26786275768927717187E16 ]

/-- Denominator table `B[10]`; the leading coefficient 1 is implicit. -/
def B : List α :=
  [ -7.92625410563741062861E6,
    -1.60529969932920229676E8,
    -2.37669260975543221788E10,
    -4.80319584350455169857E11,
    -2.07820961754173320170E13,
    -2.96075404507272223680E14,
    -4.86299103694609136686E15,
    5.34589509675789930199E15,
    5.71464111092297631292E16,
    -1.79915597658676556828E16 ]

/-- Numerator table for (1-x) (zeta(x) - 1), 0 <= x <= 1. -/
def R : List α :=
  [ -3.28717474506562731748E-1,
    1.55162528742623950834E1,
    -2.48762831680821954401E2,
    1.01050368053237678329E3,
    1.26726061410235149405E4,
    -1.11578094770515181334E5 ]

/-- Denominator table `S[5]`; the leading coefficient 1 is implicit. -/
def S : List α :=
  [ 1.95107674914060531512E1,
    3.17710311750646984099E2,
    3.03835500874445748734E3,
    2.03665876435770579345E4,
    7.43853965136767874343E4 ]

/-- The constant `MAXL2`. -/
def MAXL2 : α := 127

/-- Result of `zetac`: the returned double and the reports made through `mtherr`. -/
structure ZOut (α : Type) where
  val : α
  errs : List MthCode

/-- The do-while loop of zetac.c 592-600 (basic sum of inverse powers), started
with the current values of `a` and `s`; it returns the final `s`.  One unit of
fuel is one execution of the loop body. -/
def zetacSum (E : Elem α) (x : α) : Nat → α → α → Except Fault α
  | 0, _, _ => .error .fuel
  | n + 1, a, s =>
    let a := a + 2
    let b := E.pow a (-x)
    let s := s + b
    if b / s > E.MACHEP then zetacSum E x n a s else .ok s

/-- The part of `zetac` after the table lookup (zetac.c 557-604). -/
def zetacRest (E : Elem α) (loopFuel : Nat) (x : α) : Except Fault (ZOut α) :=
  if x < 1 then do
    let w := 1 - x
    let p ← torch_cephes_polevl x R 5
    let q ← torch_cephes_p1evl x S 5
    let a := p / (w * q)
    pure ⟨a, []⟩
  else if x = 1 then
    .ok ⟨E.MAXNUM, [MthCode.SING]⟩
  else if x ≤ 10 then do
    let b := E.pow 2 x * (x - 1)
    let w := 1 / x
    let p ← torch_cephes_polevl w P 8
    let q ← torch_cephes_p1evl w Q 8
    let s := (x * p) / (b * q)
    pure ⟨s, []⟩
  else if x ≤ 50 then do
    let b := E.pow 2 (-x)
    let p ← torch_cephes_polevl x A 10
    let q ← torch_cephes_p1evl x B 10
    let w := p / q
    let w := E.exp w + b
    pure ⟨w, []⟩
  else do
    let s ← zetacSum E x loopFuel 1 0
    let b := E.pow 2 (-x)
    let s := (s + b) / (1 - b)
    pure ⟨s, []⟩

/-- The function `torch_cephes_zetac` (zetac.c 512-605).  The first numeric
argument bounds the iterations of the summation loop, the second the depth of
the call stack (1 = a call that makes no recursive call). -/
def torch_cephes_zetac [FloorRing α] (E : Elem α) (loopFuel : Nat) :
    Nat → α → Except Fault (ZOut α)
  | 0, _ => .error .fuel
  | depth + 1, x =>
    if x < 0 then
      if x < -170.6243 then
        .ok ⟨0, [MthCode.OVERFLOW]⟩
      else
        let s := 1 - x
        match torch_cephes_zetac E loopFuel depth s with
        | .error e => .error e
        | .ok r =>
          let w := r.val
          let b := E.sin (0.5 * E.PI * x) * E.pow (2 * E.PI) x * E.gamma s * (1 + w) / E.PI
          .ok ⟨b - 1, r.errs⟩
    else if x ≥ MAXL2 then
      .ok ⟨0, []⟩
    else
      let w : α := (⌊x⌋ : Int)
      if w = x then
        let i := truncInt x
        if i < 31 then
          match readTable azetac i with
          | .ok v => .ok ⟨v, []⟩
          | .error e => .error e
        else zetacRest E loopFuel x
      else zetacRest E loopFuel x

/-- The branches of `torch_cephes_zetac`, in the order of the source. -/
inductive ZetaRegime where
  | overflow
  | reflection
  | zero
  | table
  | rationalRS
  | singular
  | rationalPQ
  | expAB
  | directSum
  deriving DecidableEq

/-- The branch that `torch_cephes_zetac` takes on `x`: the tests of zetac.c
518-580 in their order, with the computations left out. -/
def zetacRegime [FloorRing α] (x : α) : ZetaRegime :=
  if x < 0 then
    if x < -170.6243 then .overflow else .reflection
  else if x ≥ MAXL2 then .zero
  else
    let w : α := (⌊x⌋ : Int)
    if w = x ∧ truncInt x < 31 then .table
    else if x < 1 then .rationalRS
    else if x = 1 then .singular
    else if x ≤ 10 then .rationalPQ
    else if x ≤ 50 then .expAB
    else .directSum

/-- The value returned by the reflection branch (zetac.c 529-535) when the
recursive call on `1 - x` has returned `w`. -/
def reflectValue (E : Elem α) (x w : α) : α :=
  let s := 1 - x
  let b := E.sin (0.5 * E.PI * x) * E.pow (2 * E.PI) x * E.gamma s * (1 + w) / E.PI
  b - 1

/-- The final correction of the direct-summation branch (zetac.c 602-603), applied
to the sum `s` that the loop has produced. -/
def sumCorrection (E : Elem α) (x s : α) : α :=
  let b := E.pow 2 (-x)
  (s + b) / (1 - b)

end Zetac

namespace Airy

/-- The constant `c1` (airy.c 60). -/
def c1 : α := 0.35502805388781723926

/-- The constant `c2` (airy.c 61). -/
def c2 : α := 0.258819403792806798405

/-- The constant `sqrt3` (airy.c 62). -/
def sqrt3 : α := 1.732050807568877293527

/-- The constant `sqpii` (airy.c 63). -/
def sqpii : α := 5.64189583547756286948E-1

/-- The overflow threshold `MAXAIRY` of the `UNK` and `DEC` configurations. -/
def MAXAIRY : α := 25.77

/-- Table `AN[8]`. -/
def AN : List α :=
  [ 3.46538101525629032477E-1,
    1.20075952739645805542E1,
    7.62796053615234516538E1,
    1.68089224934630576269E2,
    1.59756391350164413639E2,
    7.05360906840444183113E1,
    1.40264691163389668864E1,
    9.99999999999999995305E-1 ]

/-- Table `AD[8]`. -/
def AD : List α :=
  [ 5.67594532638770212846E-1,
    1.47562562584847203173E1,
    8.45138970141474626562E1,
    1.77318088145400459522E2,
    1.64234692871529701831E2,
    7.14778400825575695274E1,
    1.40959135607834029598E1,
    1.00000000000000000470E0 ]

/-- Table `APN[8]`. -/
def APN : List α :=
  [ 6.13759184814035759225E-1,
    1.47454670787755323881E1,
    8.20584123476060982430E1,
    1.71184781360976385540E2,
    1.59317847137141783523E2,
    6.99778599330103016170E1,
    1.39470856980481566958E1,
    1.00000000000000000550E0 ]

/-- Table `APD[8]`. -/
def APD : List α :=
  [ 3.34203677749736953049E-1,
    1.11810297306158156705E1,
    7.11727352147859965283E1,
    1.58778084372838313640E2,
    1.53206427475809220834E2,
    6.86752304592780337944E1,
    1.38498634758259442477E1,
    9.99999999999999994502E-1 ]

/-- Table `BN16[5]`. -/
def BN16 : List α :=
  [ -2.53240795869364152689E-1,
    5.75285167332467384228E-1,
    -3.29907036873225371650E-1,
    6.44404068948199951727E-2,
    -3.82519546641336734394E-3 ]

/-- Table `BD16[5]`; the leading coefficient 1 is implicit. -/
def BD16 : List α :=
  [ -7.15685095054035237902E0,
    1.06039580715664694291E1,
    -5.23246636471251500874E0,
    9.57395864378383833152E-1,
    -5.50828147163549611107E-2 ]

/-- Table `BPPN[5]`. -/
def BPPN : List α :=
  [ 4.65461162774651610328E-1,
    -1.08992173800493920734E0,
    6.38800117371827987759E-1,
    -1.26844349553102907034E-1,
    7.62487844342109852105E-3 ]

/-- Table `BPPD[5]`; the leading coefficient 1 is implicit. -/
def BPPD : List α :=
  [ -8.70622787633159124240E0,
    1.38993162704553213172E1,
    -7.14116144616431159572E0,
    1.34008595960680518666E0,
    -7.84273211323341930448E-2 ]

/-- Table `AFN[9]`. -/
def AFN : List α :=
  [ -1.31696323418331795333E-1,
    -6.26456544431912369773E-1,
    -6.93158036036933542233E-1,
    -2.79779981545119124951E-1,
    -4.91900132609500318020E-2,
    -4.06265923594885404393E-3,
    -1.59276496239262096340E-4,
    -2.77649108155232920844E-6,
    -1.67787698489114633780E-8 ]

/-- Table `AFD[9]`; the leading coefficient 1 is implicit. -/
def AFD : List α :=
  [ 1.33560420706553243746E1,
    3.26825032795224613948E1,
    2.67367040941499554804E1,
    9.18707402907259625840E0,
    1.47529146771666414581E0,
    1.15687173795188044134E-1,
    4.40291641615211203805E-3,
    7.54720348287414296618E-5,
    4.51850092970580378464E-7 ]

/-- Table `AGN[11]`. -/
def AGN : List α :=
  [ 1.97339932091685679179E-2,
    3.91103029615688277255E-1,
    1.06579897599595591108E0,
    9.39169229816650230044E-1,
    3.51465656105547619242E-1,
    6.33888919628925490927E-2,
    5.85804113048388458567E-3,
    2.82851600836737019778E-4,
    6.98793669997260967291E-6,
    8.11789239554389293311E-8,
    3.41551784765923618484E-10 ]

/-- Table `AGD[10]`; the leading coefficient 1 is implicit. -/
def AGD : List α :=
  [ 9.30892908077441974853E0,
    1.98352928718312140417E1,
    1.55646628932864612953E1,
    5.47686069422975497931E0,
    9.54293611618961883998E-1,
    8.64580826352392193095E-2,
    4.12656523824222607191E-3,
    1.01259085116509135510E-4,
    1.17166733214413521882E-6,
    4.91834570062930015649E-9 ]

/-- Table `APFN[9]`. -/
def APFN : List α :=
  [ 1.85365624022535566142E-1,
    8.86712188052584095637E-1,
    9.87391981747398547272E-1,
    4.01241082318003734092E-1,
    7.10304926289631174579E-2,
    5.90618657995661810071E-3,
    2.33051409401776799569E-4,
    4.08718778289035454598E-6,
    2.48379932900442457853E-8 ]

/-- Table `APFD[9]`; the leading coefficient 1 is implicit. -/
def APFD : List α :=
  [ 1.47345854687502542552E1,
    3.75423933435489594466E1,
    3.14657751203046424330E1,
    1.09969125207298778536E1,
    1.78885054766999417817E0,
    1.41733275753662636873E-1,
    5.44066067017226003627E-3,
    9.39421290654511171663E-5,
    5.65978713036027009243E-7 ]

/-- Table `APGN[11]`. -/
def APGN : List α :=
  [ -3.55615429033082288335E-2,
    -6.37311518129435504426E-1,
    -1.70856738884312371053E0,
    -1.50221872117316635393E0,
    -5.63606665822102676611E-1,
    -1.02101031120216891789E-1,
    -9.48396695961445269093E-3,
    -4.60325307486780994357E-4,
    -1.14300836484517375919E-5,
    -1.33415518685547420648E-7,
    -5.63803833958893494476E-10 ]

/-- Table `APGD[11]`; the leading coefficient 1 is implicit.  The source declares
eleven elements and gives ten initialisers, so the eleventh element is the
zero that C supplies for a missing initialiser. -/
def APGD : List α :=
  [ 9.85865801696130355144E0,
    2.16401867356585941885E1,
    1.73130776389749389525E1,
    6.17872175280828766327E0,
    1.08848694396321495475E0,
    9.95005543440888479402E-2,
    4.78468199683886610842E-3,
    1.18159633322838625562E-4,
    1.37480673554219441465E-6,
    5.79912514929147598821E-9,
    0 ]

/-- The four cells `*ai`, `*aip`, `*bi`, `*bip` written by `airy`. -/
structure AiryOut (α : Type) where
  ai : α
  aip : α
  bi : α
  bip : α

/-- The local variables that the two power-series loops update. -/
structure Series (α : Type) where
  f : α
  g : α
  t : α
  uf : α
  ug : α
  k : α

/-- Body of the first power-series loop (airy.c 920-932); `z` is `x * x * x`. -/
def seriesStep (z : α) (s : Series α) : Series α :=
  let uf := s.uf * z
  let k := s.k + 1
  let uf := uf / k
  let ug := s.ug * z
  let k := k + 1
  let ug := ug / k
  let uf := uf / k
  let f := s.f + uf
  let k := k + 1
  let ug := ug / k
  let g := s.g + ug
  let t := |uf / f|
  ⟨f, g, t, uf, ug, k⟩

/-- The loop `while (t > MACHEP)` of airy.c 918-932; one unit of fuel is one
execution of the body. -/
def seriesLoop (E : Elem α) (z : α) : Nat → Series α → Except Fault (Series α)
  | 0, s => if s.t > E.MACHEP then .error .fuel else .ok s
  | n + 1, s => if s.t > E.MACHEP then seriesLoop E z n (seriesStep z s) else .ok s

/-- Body of the second power-series loop (airy.c 950-963), for the derivatives. -/
def derivStep (z : α) (s : Series α) : Series α :=
  let uf := s.uf * z
  let ug := s.ug / s.k
  let k := s.k + 1
  let ug := ug * z
  let uf := uf / k
  let f := s.f + uf
  let k := k + 1
  let ug := ug / k
  let uf := uf / k
  let g := s.g + ug
  let k := k + 1
  let t := |ug / g|
  ⟨f, g, t, uf, ug, k⟩

/-- The loop `while (t > MACHEP)` of airy.c 949-963. -/
def derivLoop (E : Elem α) (z : α) : Nat → Series α → Except Fault (Series α)
  | 0, s => if s.t > E.MACHEP then .error .fuel else .ok s
  | n + 1, s => if s.t > E.MACHEP then derivLoop E z n (derivStep z s) else .ok s

/-- The power-series part of `airy` (airy.c 911-971), entered with the region
flags `domflg` and the cells written so far. -/
def airySeries (E : Elem α) (fuel : Nat) (domflg : Nat) (o : AiryOut α) (x : α) :
    Except Fault (Int × AiryOut α) := do
  let z := x * x * x
  let s ← seriesLoop E z fuel ⟨1, x, 1, 1, x, 1⟩
  let uf := c1 * s.f
  let ug := c2 * s.g
  let o := if domflg &&& 1 = 0 then { o with ai := uf - ug } else o
  let o := if domflg &&& 2 = 0 then { o with bi := sqrt3 * (uf + ug) } else o
  let k : α := 4
  let uf := x * x / 2
  let ug := z / 3
  let f := uf
  let g := 1 + ug
  let uf := uf / 3
  let t : α := 1
  let s ← derivLoop E z fuel ⟨f, g, t, uf, ug, k⟩
  let uf := c1 * s.f
  let ug := c2 * s.g
  let o := if domflg &&& 4 = 0 then { o with aip := uf - ug } else o
  let o := if domflg &&& 8 = 0 then { o with bip := sqrt3 * (uf + ug) } else o
  pure (0, o)

/-- The function `torch_cephes_airy` (airy.c 839-972).  `o` holds the contents of
the four output cells before the call; the result is the returned status and the
cells after the call.  `fuel` bounds the iterations of each power-series loop.
The region flags `domflg` are 0 on entry and 5 after the branch `x >= 2.09`; the
value 15 that the branch `x < -2.09` stores is never read, since that branch
returns. -/
def torch_cephes_airy (E : Elem α) (fuel : Nat) (o : AiryOut α) (x : α) :
    Except Fault (Int × AiryOut α) :=
  if x > MAXAIRY then
    let o := { o with ai := 0 }
    let o := { o with aip := 0 }
    let o := { o with bi := E.MAXNUM }
    let o := { o with bip := E.MAXNUM }
    .ok (-1, o)
  else if x < -2.09 then do
    let t := E.sqrt (-x)
    let zeta := -2 * x * t / 3
    let t := E.sqrt t
    let k := sqpii / t
    let z := 1 / zeta
    let zz := z * z
    let pn ← torch_cephes_polevl zz AFN 8
    let pd ← torch_cephes_p1evl zz AFD 9
    let uf := 1 + zz * pn / pd
    let pn ← torch_cephes_polevl zz AGN 10
    let pd ← torch_cephes_p1evl zz AGD 10
    let ug := z * pn / pd
    let theta := zeta + 0.25 * E.PI
    let f := E.sin theta
    let g := E.cos theta
    let o := { o with ai := k * (f * uf - g * ug) }
    let o := { o with bi := k * (g * uf + f * ug) }
    let pn ← torch_cephes_polevl zz APFN 8
    let pd ← torch_cephes_p1evl zz APFD 9
    let uf := 1 + zz * pn / pd
    let pn ← torch_cephes_polevl zz APGN 10
    let pd ← torch_cephes_p1evl zz APGD 10
    let ug := z * pn / pd
    let k := sqpii * t
    let o := { o with aip := -k * (g * uf + f * ug) }
    let o := { o with bip := k * (f * uf - g * ug) }
    pure (0, o)
  else if x ≥ 2.09 then do
    let domflg : Nat := 5
    let t := E.sqrt x
    let zeta := 2 * x * t / 3
    let g := E.exp zeta
    let t := E.sqrt t
    let k := 2 * t * g
    let z := 1 / zeta
    let pn ← torch_cephes_polevl z AN 7
    let pd ← torch_cephes_polevl z AD 7
    let f := pn / pd
    let o := { o with ai := sqpii * f / k }
    let k := -0.5 * sqpii * t / g
    let pn ← torch_cephes_polevl z APN 7
    let pd ← torch_cephes_polevl z APD 7
    let f := pn / pd
    let o := { o with aip := f * k }
    if x > 8.3203353 then do
      let pn ← torch_cephes_polevl z BN16 4
      let pd ← torch_cephes_p1evl z BD16 5
      let f := z * pn / pd
      let k := sqpii * g
      let o := { o with bi := k * (1 + f) / t }
      let pn ← torch_cephes_polevl z BPPN 4
      let pd ← torch_cephes_p1evl z BPPD 5
      let f := z * pn / pd
      let o := { o with bip := k * t * (1 + f) }
      pure (0, o)
    else
      airySeries E fuel domflg o x
  else
    airySeries E fuel 0 o x

/-- The four values computed by the oscillatory asymptotic branch `x < -2.09`
(airy.c 857-880), as a result of their own. -/
def oscillatoryValues (E : Elem α) (x : α) : Except Fault (AiryOut α) := do
  let t := E.sqrt (-x)
  let zeta := -2 * x * t / 3
  let t := E.sqrt t
  let k := sqpii / t
  let z := 1 / zeta
  let zz := z * z
  let pn ← torch_cephes_polevl zz AFN 8
  let pd ← torch_cephes_p1evl zz AFD 9
  let uf := 1 + zz * pn / pd
  let pn ← torch_cephes_polevl zz AGN 10
  let pd ← torch_cephes_p1evl zz AGD 10
  let ug := z * pn / pd
  let theta := zeta + 0.25 * E.PI
  let f := E.sin theta
  let g := E.cos theta
  let ai := k * (f * uf - g * ug)
  let bi := k * (g * uf + f * ug)
  let pn ← torch_cephes_polevl zz APFN 8
  let pd ← torch_cephes_p1evl zz APFD 9
  let uf := 1 + zz * pn / pd
  let pn ← torch_cephes_polevl zz APGN 10
  let pd ← torch_cephes_p1evl zz APGD 10
  let ug := z * pn / pd
  let k := sqpii * t
  let aip := -k * (g * uf + f * ug)
  let bip := k * (f * uf - g * ug)
  pure ⟨ai, aip, bi, bip⟩

/-- The pair (Ai, Aip) computed by the exponential asymptotic branch `x >= 2.09`
(airy.c 885-896). -/
def expAiValues (E : Elem α) (x : α) : Except Fault (α × α) := do
  let t := E.sqrt x
  let zeta := 2 * x * t / 3
  let g := E.exp zeta
  let t := E.sqrt t
  let k := 2 * t * g
  let z := 1 / zeta
  let pn ← torch_cephes_polevl z AN 7
  let pd ← torch_cephes_polevl z AD 7
  let f := pn / pd
  let ai := sqpii * f / k
  let k := -0.5 * sqpii * t / g
  let pn ← torch_cephes_polevl z APN 7
  let pd ← torch_cephes_polevl z APD 7
  let f := pn / pd
  let aip := f * k
  pure (ai, aip)

/-- The pair (Bi, Bip) computed by the sub-branch `x > 8.3203353` (airy.c 898-906). -/
def expBiValues (E : Elem α) (x : α) : Except Fault (α × α) := do
  let t := E.sqrt x
  let zeta := 2 * x * t / 3
  let g := E.exp zeta
  let t := E.sqrt t
  let z := 1 / zeta
  let pn ← torch_cephes_polevl z BN16 4
  let pd ← torch_cephes_p1evl z BD16 5
  let f := z * pn / pd
  let k := sqpii * g
  let bi := k * (1 + f) / t
  let pn ← torch_cephes_polevl z BPPN 4
  let pd ← torch_cephes_p1evl z BPPD 5
  let f := z * pn / pd
  let bip := k * t * (1 + f)
  pure (bi, bip)

/-- The four values that the power-series code (airy.c 911-969) computes from the
final sums of its two loops. -/
def seriesValues (E : Elem α) (fuel : Nat) (x : α) : Except Fault (AiryOut α) := do
  let z := x * x * x
  let s ← seriesLoop E z fuel ⟨1, x, 1, 1, x, 1⟩
  let d ← derivLoop E z fuel ⟨x * x / 2, 1 + z / 3, 1, x * x / 2 / 3, z / 3, 4⟩
  pure ⟨c1 * s.f - c2 * s.g, c1 * d.f - c2 * d.g,
    sqrt3 * (c1 * s.f + c2 * s.g), sqrt3 * (c1 * d.f + c2 * d.g)⟩

/-- Airy with explicit results per branch and no region flags, as the design
notes of the specification describe it: (a) the overflow tuple for x > 25.77,
(b) the four oscillatory values for x < -2.09, (c) the four exponential
asymptotic values for x > 8.3203353, (d) asymptotic Ai, Aip with power-series
Bi, Bip for 2.09 <= x <= 8.3203353, (e) the four power-series values otherwise. -/
def airyExplicit (E : Elem α) (fuel : Nat) (x : α) : Except Fault (Int × AiryOut α) :=
  if x > 25.77 then
    .ok (-1, ⟨0, 0, E.MAXNUM, E.MAXNUM⟩)
  else if x < -2.09 then do
    let v ← oscillatoryValues E x
    pure (0, v)
  else if x > 8.3203353 then do
    let a ← expAiValues E x
    let b ← expBiValues E x
    pure (0, ⟨a.1, a.2, b.1, b.2⟩)
  else if 2.09 ≤ x then do
    let a ← expAiValues E x
    let v ← seriesValues E fuel x
    pure (0, ⟨a.1, a.2, v.bi, v.bip⟩)
  else do
    let v ← seriesValues E fuel x
    pure (0, v)

/-- The paths through `torch_cephes_airy`. -/
inductive AiryPath where
  | overflow
  | oscillatory
  | exponential
  | mixed
  | series
  deriving DecidableEq

/-- The path that `torch_cephes_airy` takes on `x`: the tests of airy.c 846-898 in
their order, with the computations left out.  `mixed` is the path that leaves
the branch `x >= 2.09` with the region flags 5 and continues into the power
series; `series` enters the power series with the flags 0. -/
def airyPath (x : α) : AiryPath :=
  if x > MAXAIRY then .overflow
  else if x < -2.09 then .oscillatory
  else if x ≥ 2.09 then
    if x > 8.3203353 then .exponential else .mixed
  else .series

end Airy

/-- A rational instance of the collaborators on which the embedding can be run:
`MACHEP` is 2^-53, `MAXNUM` the largest finite double, `PI` a decimal
approximation; the functions are low-order stand-ins (Taylor polynomials, one
Newton step for the square root, integer powers, factorials). -/
def ratElem : Elem ℚ where
  sin := fun x => x - x ^ 3 / 6
  cos := fun x => 1 - x ^ 2 / 2
  exp := fun x => 1 + x + x ^ 2 / 2
  sqrt := fun x => (x + 1) / 2
  pow := fun a y => a ^ (⌊y⌋ : Int)
  gamma := fun x => (Nat.factorial ((⌊x⌋ : Int).toNat - 1) : ℚ)
  PI := 3.14159265358979323846
  MAXNUM := 2 ^ 1024 - 2 ^ 971
  MACHEP := 1 / 2 ^ 53

end Cephes

open Cephes Cephes.Zetac Cephes.Airy

section Loops

variable {α : Type} [LinearOrderedField α]

theorem azetac_length : (azetac : List α).length = 31 := by
  simp [azetac]

/-- The summation loop can only fail by running out of fuel. -/
theorem zetacSum_error (E : Elem α) (x : α) (n : Nat) (a s : α) (e : Fault)
    (h : zetacSum E x n a s = .error e) : e = Fault.fuel := by
  induction n generalizing a s with
  | zero =>
    simp only [zetacSum] at h
    exact (Except.error.inj h).symm
  | succ n ih =>
    simp only [zetacSum] at h
    split_ifs at h with hc
    exact ih _ _ h

/-- Outcomes of the part of zetac after the table lookup, for x > 1: a result
carries no error report, and the only fault is fuel exhaustion in the
summation loop, which is entered only for x > 50. -/
theorem zetacRest_gt_one (E : Elem α) (loopFuel : Nat) (x : α) (hx : 1 < x) :
    (∀ r, zetacRest E loopFuel x = .ok r → r.errs = []) ∧
    (∀ e, zetacRest E loopFuel x = .error e →
      e = Fault.fuel ∧ 50 < x ∧ zetacSum E x loopFuel 1 0 = .error Fault.fuel) := by
  have h1 : ¬ x < 1 := not_lt.mpr hx.le
  have h2 : ¬ x = 1 := ne_of_gt hx
  unfold zetacRest
  simp only [h1, h2, if_false]
  split_ifs with h10 h50
  · simp [torch_cephes_polevl, torch_cephes_p1evl, P, Q, bind, Except.bind, pure, Except.pure]
  · simp [torch_cephes_polevl, torch_cephes_p1evl, A, B, bind, Except.bind, pure, Except.pure]
  · have h50' : 50 < x := not_le.mp h50
    cases hs : zetacSum E x loopFuel 1 0 with
    | error e =>
      have he := zetacSum_error E x loopFuel 1 0 e hs
      subst he
      simp [bind, Except.bind, h50']
    | ok s =>
      simp [bind, Except.bind, pure, Except.pure]

end Loops

section ZetacDispatch

variable {α : Type} [LinearOrderedField α] [FloorRing α]

theorem truncInt_intCast (n : Int) : truncInt (n : α) = n := by
  unfold truncInt
  split_ifs <;> simp

/-- Unfolding of `zetac` on a non-negative argument below `MAXL2` that is an
integer smaller than 31: the table entry is returned. -/
theorem zetac_of_int (E : Elem α) (loopFuel depth : Nat) (n : Int) (h0 : 0 ≤ n)
    (h30 : n ≤ 30) (v : α) (hv : (azetac : List α)[n.toNat]? = some v) :
    torch_cephes_zetac E loopFuel (depth + 1) (n : α) = .ok ⟨v, []⟩ := by
  have hx0 : ¬ ((n : α) < 0) := by
    have : (0 : α) ≤ n := by exact_mod_cast h0
    exact not_lt.mpr this
  have hx127 : ¬ ((n : α) ≥ MAXL2) := by
    have : (n : α) < 127 := by
      have : n < 127 := by omega
      exact_mod_cast this
    simpa [MAXL2] using this
  have h31 : n < 31 := by omega
  simp only [torch_cephes_zetac, hx0, hx127, if_false, Int.floor_intCast, if_true,
    truncInt_intCast, h31, readTable, h0, hv]

/-- C2: for every integer n with 0 <= n <= 30, zetac(n) returns exactly entry n
of the 31-entry table azetac and makes no error report, whatever the
collaborators are; in particular zetac(0) = -1.5 and
zetac(10) = 9.94575127818085337146E-4.  The lookup is taken although n also lies
in the range of one of the rational-approximation regimes. -/
theorem zetac_integer_table (E : Elem α) (loopFuel depth : Nat) :
    (azetac : List α).length = 31 ∧
    (∀ n : Int, 0 ≤ n → n ≤ 30 →
      ∃ v : α, (azetac : List α)[n.toNat]? = some v ∧
        torch_cephes_zetac E loopFuel (depth + 1) (n : α) = .ok ⟨v, []⟩) ∧
    torch_cephes_zetac E loopFuel (depth + 1) (0 : α) = .ok ⟨-1.5, []⟩ ∧
    torch_cephes_zetac E loopFuel (depth + 1) (10 : α)
      = .ok ⟨9.94575127818085337146E-4, []⟩ := by
  refine ⟨azetac_length, ?_, ?_, ?_⟩
  · intro n h0 h30
    have hlt : n.toNat < (azetac : List α).length := by
      rw [azetac_length]; omega
    exact ⟨_, List.getElem?_eq_getElem hlt, zetac_of_int E loopFuel depth n h0 h30 _
      (List.getElem?_eq_getElem hlt)⟩
  · have h := zetac_of_int E loopFuel depth 0 (le_refl 0) (by norm_num) (-1.5 : α)
      (by simp [azetac]; norm_num)
    simpa using h
  · have h := zetac_of_int E loopFuel depth 10 (by norm_num) (by norm_num)
      (9.94575127818085337146E-4 : α) (by simp [azetac])
    simpa using h

/-- Witness for C2 on the rational instance: zetac(7) is entry 7 of the table. -/
theorem zetac_integer_table_witness :
    (0 : Int) ≤ 7 ∧ (7 : Int) ≤ 30 ∧
    ∃ v : ℚ, (azetac : List ℚ)[(7 : Int).toNat]? = some v ∧
      torch_cephes_zetac ratElem 0 1 ((7 : Int) : ℚ) = .ok ⟨v, []⟩ :=
  ⟨by decide, by decide, (zetac_integer_table ratElem 0 0).2.1 7 (by decide) (by decide)⟩

/-- C3: at x = 1 the code takes the integer table lookup: it returns entry 1 of
azetac, the constant 1.70141183460469231730E38, and makes no report through
mtherr; the branch that reports SING and returns MAXNUM is not reached. -/
theorem zetac_one_returns_table_entry (E : Elem α) (loopFuel depth : Nat) :
    torch_cephes_zetac E loopFuel (depth + 1) (1 : α)
      = .ok ⟨1.70141183460469231730E38, []⟩ := by
  have h := zetac_of_int E loopFuel depth 1 (by norm_num) (by norm_num)
    (1.70141183460469231730E38 : α) (by simp [azetac])
  simpa using h

/-- C4 (as amended): for every x below the negative cutoff -170.6243, zetac
reports OVERFLOW through mtherr and returns 0. -/
theorem zetac_overflow_returns_zero (E : Elem α) (loopFuel depth : Nat) (x : α)
    (hx : x < -170.6243) :
    torch_cephes_zetac E loopFuel (depth + 1) x = .ok ⟨0, [MthCode.OVERFLOW]⟩ := by
  have h0 : x < 0 := lt_trans hx (by norm_num)
  simp only [torch_cephes_zetac, h0, hx, if_true]

/-- Witness for C4 (as amended) at x = -171 on the rational instance. -/
theorem zetac_overflow_returns_zero_witness :
    (-171 : ℚ) < -170.6243 ∧
    torch_cephes_zetac ratElem 0 1 (-171 : ℚ) = .ok ⟨0, [MthCode.OVERFLOW]⟩ :=
  ⟨by norm_num, zetac_overflow_returns_zero ratElem 0 0 (-171) (by norm_num)⟩

/-- C4 (counterexample): at x = -171, below the cutoff, the value returned is 0,
which is not the maximum representable number. -/
theorem zetac_overflow_not_maxnum :
    torch_cephes_zetac ratElem 0 1 (-171 : ℚ) = .ok ⟨0, [MthCode.OVERFLOW]⟩ ∧
    (0 : ℚ) ≠ ratElem.MAXNUM := by
  refine ⟨?_, ?_⟩
  · have h0 : (-171 : ℚ) < 0 := by norm_num
    have h1 : (-171 : ℚ) < -170.6243 := by norm_num
    simp only [torch_cephes_zetac, h0, h1, if_true]
  · simp only [ratElem]
    norm_num

/-- C5: for every x >= 127, integer-valued or not, zetac(x) returns exactly 0
and makes no error report. -/
theorem zetac_large_returns_zero (E : Elem α) (loopFuel depth : Nat) (x : α)
    (hx : 127 ≤ x) :
    torch_cephes_zetac E loopFuel (depth + 1) x = .ok ⟨0, []⟩ := by
  have h0 : ¬ (x < 0) := not_lt.mpr (le_trans (by norm_num) hx)
  have h1 : x ≥ MAXL2 := by simpa [MAXL2] using hx
  simp only [torch_cephes_zetac, h0, h1, if_true, if_false]

/-- Witness for C5 at the non-integer x = 127.5 on the rational instance. -/
theorem zetac_large_returns_zero_witness :
    (127 : ℚ) ≤ 127.5 ∧ torch_cephes_zetac ratElem 0 1 (127.5 : ℚ) = .ok ⟨0, []⟩ :=
  ⟨by norm_num, zetac_large_returns_zero ratElem 0 0 127.5 (by norm_num)⟩

section Reflection

/-- A call on a non-negative argument makes no recursive call: its result does
not depend on the remaining depth budget. -/
theorem zetac_depth_irrelevant (E : Elem α) (loopFuel depth : Nat) (x : α) (hx : ¬ x < 0) :
    torch_cephes_zetac E loopFuel (depth + 1) x = torch_cephes_zetac E loopFuel 1 x := by
  simp only [torch_cephes_zetac, hx, if_false]

/-- Outcomes of a call of zetac on an argument x > 1: no error report is made,
and the only fault is fuel exhaustion in the summation loop (50 < x < 127). -/
theorem zetac_gt_one (E : Elem α) (loopFuel depth : Nat) (x : α) (hx : 1 < x) :
    (∀ r, torch_cephes_zetac E loopFuel (depth + 1) x = .ok r → r.errs = []) ∧
    (∀ e, torch_cephes_zetac E loopFuel (depth + 1) x = .error e →
      e = Fault.fuel ∧ 50 < x ∧ x < 127 ∧ zetacSum E x loopFuel 1 0 = .error Fault.fuel) := by
  have h0 : ¬ x < 0 := not_lt.mpr (le_trans zero_le_one hx.le)
  have hrest := zetacRest_gt_one E loopFuel x hx
  simp only [torch_cephes_zetac, h0, if_false]
  by_cases h127 : x ≥ MAXL2
  · simp [h127]
  · have hlt : x < 127 := by simpa [MAXL2] using h127
    simp only [h127, if_false]
    by_cases hw : ((⌊x⌋ : Int) : α) = x
    · simp only [hw, if_true]
      by_cases hi : truncInt x < 31
      · simp only [hi, if_true]
        have hx0 : (0 : α) ≤ x := le_trans zero_le_one hx.le
        have hti : truncInt x = ⌊x⌋ := by simp [truncInt, hx0]
        have hfl : 0 ≤ ⌊x⌋ := Int.floor_nonneg.mpr hx0
        have hlen : (⌊x⌋).toNat < (azetac : List α).length := by
          rw [azetac_length]; omega
        simp [readTable, hti, hfl, List.getElem?_eq_getElem hlen]
      · simp only [hi, if_false]
        exact ⟨hrest.1, fun e he => ⟨(hrest.2 e he).1, (hrest.2 e he).2.1, hlt, (hrest.2 e he).2.2⟩⟩
    · simp only [hw, if_false]
      exact ⟨hrest.1, fun e he => ⟨(hrest.2 e he).1, (hrest.2 e he).2.1, hlt, (hrest.2 e he).2.2⟩⟩

/-- C9: for every x with -170.6243 <= x < 0, zetac(x) makes exactly one recursive
call, on 1 - x; when that call returns the value w, zetac(x) reports no error
and returns sin(pi*x/2) * (2*pi)^x * Gamma(1-x) * (1 + w) / pi - 1, with sin, pow,
Gamma and pi the collaborators.  The recursive call itself reports no error, and
it returns unless the summation loop (entered only for 50 < 1 - x < 127) runs out
of fuel. -/
theorem zetac_reflection (E : Elem α) (loopFuel depth : Nat) (x : α)
    (hlo : -170.6243 ≤ x) (hneg : x < 0) :
    (∀ r, torch_cephes_zetac E loopFuel (depth + 1) (1 - x) = .ok r →
      r.errs = [] ∧
      torch_cephes_zetac E loopFuel (depth + 2) x
        = .ok ⟨E.sin (E.PI * x / 2) * E.pow (2 * E.PI) x * E.gamma (1 - x)
                * (1 + r.val) / E.PI - 1, []⟩) ∧
    (∀ e, torch_cephes_zetac E loopFuel (depth + 1) (1 - x) = .error e →
      e = Fault.fuel ∧ 50 < 1 - x ∧ 1 - x < 127 ∧
      zetacSum E (1 - x) loopFuel 1 0 = .error Fault.fuel) := by
  have hs : 1 < 1 - x := by linarith
  have hcut : ¬ x < -170.6243 := not_lt.mpr hlo
  have hrec := zetac_gt_one E loopFuel depth (1 - x) hs
  refine ⟨fun r hr => ⟨hrec.1 r hr, ?_⟩, hrec.2⟩
  have herr := hrec.1 r hr
  have harg : (0.5 : α) * E.PI * x = E.PI * x / 2 := by ring
  rw [torch_cephes_zetac]
  simp only [hneg, hcut, if_true, if_false, hr, herr, harg]

/-- Witness for C9 at x = -1 on the rational instance: the recursive call is
zetac(2), served by the table with the value 0.644934066848226436472. -/
theorem zetac_reflection_witness :
    (-170.6243 : ℚ) ≤ -1 ∧ (-1 : ℚ) < 0 ∧
    torch_cephes_zetac ratElem 0 1 (1 - (-1 : ℚ)) = .ok ⟨0.644934066848226436472, []⟩ ∧
    torch_cephes_zetac ratElem 0 2 (-1 : ℚ)
      = .ok ⟨ratElem.sin (ratElem.PI * (-1) / 2) * ratElem.pow (2 * ratElem.PI) (-1)
              * ratElem.gamma (1 - (-1)) * (1 + 0.644934066848226436472) / ratElem.PI - 1, []⟩ := by
  have hrec : torch_cephes_zetac ratElem 0 1 (1 - (-1 : ℚ))
      = .ok ⟨0.644934066848226436472, []⟩ := by
    have e : (1 - (-1) : ℚ) = ((2 : Int) : ℚ) := by norm_num
    rw [e]
    exact zetac_of_int ratElem 0 0 2 (by decide) (by decide) _ (by simp [azetac])
  exact ⟨by norm_num, by norm_num, hrec,
    ((zetac_reflection ratElem 0 0 (-1 : ℚ) (by norm_num) (by norm_num)).1 _ hrec).2⟩

end Reflection

end ZetacDispatch

section AiryDispatch

variable {α : Type} [LinearOrderedField α]

/-- A loop whose guard is false on entry returns its state unchanged. -/
theorem seriesLoop_exit (E : Elem α) (z : α) (n : Nat) (s : Series α)
    (h : ¬ s.t > E.MACHEP) : seriesLoop E z n s = .ok s := by
  cases n <;> simp [seriesLoop, h]

/-- A loop whose guard is false on entry returns its state unchanged. -/
theorem derivLoop_exit (E : Elem α) (z : α) (n : Nat) (s : Series α)
    (h : ¬ s.t > E.MACHEP) : derivLoop E z n s = .ok s := by
  cases n <;> simp [derivLoop, h]

/-- At x = 0 the first loop ends after at most one pass with f = 1 and g = 0. -/
theorem seriesLoop_at_zero (E : Elem α) (hM : 0 ≤ E.MACHEP) (fuel : Nat) :
    ∃ s, seriesLoop E (0 * 0 * 0) (fuel + 1) ⟨1, 0, 1, 1, 0, 1⟩ = .ok s ∧ s.f = 1 ∧ s.g = 0 := by
  by_cases h : (1 : α) > E.MACHEP
  · have hexit : ¬ (seriesStep (0 * 0 * 0) (⟨1, 0, 1, 1, 0, 1⟩ : Series α)).t > E.MACHEP := by
      simp [seriesStep, hM]
    refine ⟨seriesStep (0 * 0 * 0) ⟨1, 0, 1, 1, 0, 1⟩, ?_, ?_, ?_⟩
    · simp only [seriesLoop, h, if_true]
      exact seriesLoop_exit E _ fuel _ hexit
    · simp [seriesStep]
    · simp [seriesStep]
  · exact ⟨⟨1, 0, 1, 1, 0, 1⟩, by simp [seriesLoop, h], rfl, rfl⟩

/-- At x = 0 the second loop ends after at most one pass with f = 0 and g = 1. -/
theorem derivLoop_at_zero (E : Elem α) (hM : 0 ≤ E.MACHEP) (fuel : Nat) :
    ∃ s, derivLoop E (0 * 0 * 0) (fuel + 1)
        ⟨0 * 0 / 2, 1 + 0 * 0 * 0 / 3, 1, 0 * 0 / 2 / 3, 0 * 0 * 0 / 3, 4⟩ = .ok s
      ∧ s.f = 0 ∧ s.g = 1 := by
  by_cases h : (1 : α) > E.MACHEP
  · have hexit : ¬ (derivStep (0 * 0 * 0)
        (⟨0 * 0 / 2, 1 + 0 * 0 * 0 / 3, 1, 0 * 0 / 2 / 3, 0 * 0 * 0 / 3, 4⟩ : Series α)).t
          > E.MACHEP := by
      simp [derivStep, hM]
    refine ⟨derivStep (0 * 0 * 0) ⟨0 * 0 / 2, 1 + 0 * 0 * 0 / 3, 1, 0 * 0 / 2 / 3,
      0 * 0 * 0 / 3, 4⟩, ?_, ?_, ?_⟩
    · simp only [derivLoop, h, if_true]
      exact derivLoop_exit E _ fuel _ hexit
    · simp [derivStep]
    · simp [derivStep]
  · exact ⟨⟨0 * 0 / 2, 1 + 0 * 0 * 0 / 3, 1, 0 * 0 / 2 / 3, 0 * 0 * 0 / 3, 4⟩,
      by simp [derivLoop, h], by simp, by simp⟩

/-- Value of airy at the origin: status 0 and the cells (c1, -c2, sqrt3*c1, sqrt3*c2). -/
theorem airy_at_zero (E : Elem α) (hM : 0 ≤ E.MACHEP) (fuel : Nat) (o : AiryOut α) :
    torch_cephes_airy E (fuel + 1) o 0 = .ok (0, ⟨c1, -c2, sqrt3 * c1, sqrt3 * c2⟩) := by
  obtain ⟨s1, hs1, hf1, hg1⟩ := seriesLoop_at_zero E hM fuel
  obtain ⟨s2, hs2, hf2, hg2⟩ := derivLoop_at_zero E hM fuel
  have h1 : ¬ ((0 : α) > MAXAIRY) := by simp [MAXAIRY]; norm_num
  have h2 : ¬ ((0 : α) < -2.09) := by norm_num
  have h3 : ¬ ((0 : α) ≥ 2.09) := by norm_num
  simp only [torch_cephes_airy, h1, h2, h3, if_false, airySeries, hs1, hs2, bind, Except.bind,
    pure, Except.pure, hf1, hg1, hf2, hg2]
  simp

/-- C6 (as amended): airy(0) returns status 0 and the outputs
(Ai, Aip, Bi, Bip) = (c1, -c2, sqrt3*c1, sqrt3*c2); rounded to fifteen decimals
these are 0.355028053887817, -0.258819403792807, 0.614926627446001 and
0.448288357353826, so Aip is the negative of the listed value. -/
theorem airy_origin_values (E : Elem α) (hM : 0 ≤ E.MACHEP) (fuel : Nat) (o : AiryOut α) :
    torch_cephes_airy E (fuel + 1) o 0 = .ok (0, ⟨c1, -c2, sqrt3 * c1, sqrt3 * c2⟩) ∧
    |(c1 : α) - 0.355028053887817| ≤ 5e-16 ∧
    |(-c2 : α) - (-0.258819403792807)| ≤ 5e-16 ∧
    |(sqrt3 * c1 : α) - 0.614926627446001| ≤ 5e-16 ∧
    |(sqrt3 * c2 : α) - 0.448288357353826| ≤ 5e-16 := by
  refine ⟨airy_at_zero E hM fuel o, ?_, ?_, ?_, ?_⟩ <;>
    · rw [abs_le]
      constructor <;> norm_num [c1, c2, sqrt3]

/-- Witness for C6 (as amended) on the rational instance. -/
theorem airy_origin_values_witness :
    (0 : ℚ) ≤ ratElem.MACHEP ∧
    torch_cephes_airy ratElem 1 ⟨0, 0, 0, 0⟩ (0 : ℚ)
      = .ok (0, ⟨c1, -c2, sqrt3 * c1, sqrt3 * c2⟩) :=
  ⟨by norm_num [ratElem],
    (airy_origin_values ratElem (by norm_num [ratElem]) 0 ⟨0, 0, 0, 0⟩).1⟩

/-- C6 (counterexample): the Aip returned by airy(0) is -c2, a negative number; it
does not agree with the listed positive value 0.258819403792807. -/
theorem airy_origin_aip_negative :
    torch_cephes_airy ratElem 1 ⟨0, 0, 0, 0⟩ (0 : ℚ)
      = .ok (0, ⟨c1, -c2, sqrt3 * c1, sqrt3 * c2⟩) ∧
    ¬ (|(-c2 : ℚ) - 0.258819403792807| ≤ 5e-16) := by
  refine ⟨airy_at_zero ratElem (by norm_num [ratElem]) 0 ⟨0, 0, 0, 0⟩, ?_⟩
  rw [abs_le]
  norm_num [c2]

/-- C8: Wronskian identity at the origin.  With the four outputs of airy(0)
computed in exact arithmetic from c1, c2 and sqrt3,
|Ai*Bip - Aip*Bi - 1/pi| < 1e-13. -/
theorem airy_origin_wronskian (E : Elem ℝ) (hM : 0 ≤ E.MACHEP) (fuel : Nat) (o : AiryOut ℝ) :
    ∃ r : AiryOut ℝ, torch_cephes_airy E (fuel + 1) o 0 = .ok (0, r) ∧
      |r.ai * r.bip - r.aip * r.bi - 1 / Real.pi| < 1e-13 := by
  refine ⟨_, airy_at_zero E hM fuel o, ?_⟩
  have hlo : (0.3183098861837 : ℝ) < 1 / Real.pi :=
    lt_trans (by norm_num) (one_div_lt_one_div_of_lt Real.pi_pos Real.pi_lt_d20)
  have hhi : (1 : ℝ) / Real.pi < 0.3183098861838 :=
    lt_trans (one_div_lt_one_div_of_lt (by norm_num) Real.pi_gt_d20) (by norm_num)
  simp only [c1, c2, sqrt3]
  rw [abs_lt]
  constructor
  · norm_num at hlo hhi ⊢
    linarith
  · norm_num at hlo hhi ⊢
    linarith

/-- Witness for C8 with the real elementary functions as collaborators. -/
theorem airy_origin_wronskian_witness :
    ∃ r : AiryOut ℝ,
      torch_cephes_airy (⟨Real.sin, Real.cos, Real.exp, Real.sqrt, fun a y => a ^ y,
        Real.Gamma, Real.pi, 2 ^ 1024 - 2 ^ 971, 1 / 2 ^ 53⟩ : Elem ℝ) 1 ⟨0, 0, 0, 0⟩ 0
          = .ok (0, r) ∧
      |r.ai * r.bip - r.aip * r.bi - 1 / Real.pi| < 1e-13 :=
  airy_origin_wronskian ⟨Real.sin, Real.cos, Real.exp, Real.sqrt, fun a y => a ^ y,
    Real.Gamma, Real.pi, 2 ^ 1024 - 2 ^ 971, 1 / 2 ^ 53⟩ (by positivity) 0 ⟨0, 0, 0, 0⟩

/-- C7: zetac(2) is the table constant 0.644934066848226436472, and this constant
differs from the real number pi^2/6 - 1 by less than 1e-15. -/
theorem zetac_two_basel (E : Elem ℝ) (loopFuel depth : Nat) :
    torch_cephes_zetac E loopFuel (depth + 1) (2 : ℝ)
      = .ok ⟨0.644934066848226436472, []⟩ ∧
    |(0.644934066848226436472 : ℝ) - (Real.pi ^ 2 / 6 - 1)| < 1e-15 := by
  constructor
  · have h := zetac_of_int E loopFuel depth 2 (by norm_num) (by norm_num)
      (0.644934066848226436472 : ℝ) (by simp [azetac])
    simpa using h
  · have h1 := Real.pi_gt_d20
    have h2 := Real.pi_lt_d20
    have hp := Real.pi_pos
    have hlo : (3.14159265358979323846 : ℝ) ^ 2 < Real.pi ^ 2 :=
      pow_lt_pow_left₀ h1 (by norm_num) (by norm_num)
    have hhi : Real.pi ^ 2 < (3.14159265358979323847 : ℝ) ^ 2 :=
      pow_lt_pow_left₀ h2 hp.le (by norm_num)
    rw [abs_lt]
    constructor
    · norm_num at hhi ⊢
      linarith
    · norm_num at hlo ⊢
      linarith

end AiryDispatch

section AiryStatus

variable {α : Type} [LinearOrderedField α]

theorem polevl_ok (x : α) (coef : List α) (N : Nat) (h : N + 1 ≤ coef.length) :
    torch_cephes_polevl x coef N
      = .ok ((coef.take (N + 1)).foldl (fun acc c => acc * x + c) 0) := by
  simp [torch_cephes_polevl, h]

theorem p1evl_ok (x : α) (coef : List α) (N : Nat) (h : N ≤ coef.length) :
    torch_cephes_p1evl x coef N
      = .ok ((coef.take N).foldl (fun acc c => acc * x + c) 1) := by
  simp [torch_cephes_p1evl, h]

/-- The first series loop can only fail by running out of fuel. -/
theorem seriesLoop_error (E : Elem α) (z : α) (n : Nat) (s : Series α) (e : Fault)
    (h : seriesLoop E z n s = .error e) : e = Fault.fuel := by
  induction n generalizing s with
  | zero =>
    simp only [seriesLoop] at h
    split_ifs at h
    exact (Except.error.inj h).symm
  | succ n ih =>
    simp only [seriesLoop] at h
    split_ifs at h
    exact ih _ h

/-- The second series loop can only fail by running out of fuel. -/
theorem derivLoop_error (E : Elem α) (z : α) (n : Nat) (s : Series α) (e : Fault)
    (h : derivLoop E z n s = .error e) : e = Fault.fuel := by
  induction n generalizing s with
  | zero =>
    simp only [derivLoop] at h
    split_ifs at h
    exact (Except.error.inj h).symm
  | succ n ih =>
    simp only [derivLoop] at h
    split_ifs at h
    exact ih _ h

/-- Outcomes of the power-series part: a fuel fault, or status 0. -/
theorem airySeries_outcome (E : Elem α) (fuel domflg : Nat) (o : AiryOut α) (x : α) :
    airySeries E fuel domflg o x = .error Fault.fuel ∨
    ∃ r, airySeries E fuel domflg o x = .ok (0, r) := by
  cases h1 : seriesLoop E (x * x * x) fuel ⟨1, x, 1, 1, x, 1⟩ with
  | error e =>
    left
    have he := seriesLoop_error E _ _ _ e h1
    subst he
    simp only [airySeries, h1, bind, Except.bind]
  | ok s1 =>
    cases h2 : derivLoop E (x * x * x) fuel
        ⟨x * x / 2, 1 + x * x * x / 3, 1, x * x / 2 / 3, x * x * x / 3, 4⟩ with
    | error e =>
      left
      have he := derivLoop_error E _ _ _ e h2
      subst he
      simp only [airySeries, h1, h2, bind, Except.bind]
    | ok s2 =>
      right
      simp only [airySeries, h1, h2, bind, Except.bind]
      exact ⟨_, rfl⟩

/-- When both loops return, the power-series part returns status 0. -/
theorem airySeries_ok (E : Elem α) (fuel domflg : Nat) (o : AiryOut α) (x : α)
    (s1 s2 : Series α)
    (h1 : seriesLoop E (x * x * x) fuel ⟨1, x, 1, 1, x, 1⟩ = .ok s1)
    (h2 : derivLoop E (x * x * x) fuel
        ⟨x * x / 2, 1 + x * x * x / 3, 1, x * x / 2 / 3, x * x * x / 3, 4⟩ = .ok s2) :
    ∃ r, airySeries E fuel domflg o x = .ok (0, r) := by
  unfold airySeries
  simp only [h1, h2, bind, Except.bind]
  exact ⟨_, rfl⟩

/-- Above MAXAIRY: status -1 and the sentinel outputs. -/
theorem airy_overflow (E : Elem α) (fuel : Nat) (o : AiryOut α) (x : α) (hx : MAXAIRY < x) :
    torch_cephes_airy E fuel o x = .ok (-1, ⟨0, 0, E.MAXNUM, E.MAXNUM⟩) := by
  have h : x > MAXAIRY := hx
  simp only [torch_cephes_airy, h, if_true]

/-- Not above MAXAIRY and outside [-2.09, 8.3203353]: one of the two asymptotic
branches returns status 0 without entering a loop. -/
theorem airy_asymptotic_status (E : Elem α) (fuel : Nat) (o : AiryOut α) (x : α)
    (hx : x ≤ MAXAIRY) (hout : x < -2.09 ∨ 8.3203353 < x) :
    ∃ r, torch_cephes_airy E fuel o x = .ok (0, r) := by
  have h1 : ¬ x > MAXAIRY := not_lt.mpr hx
  rcases hout with hneg | hpos
  · simp only [torch_cephes_airy, h1, hneg, if_true, if_false,
      polevl_ok _ AFN 8 (by simp [AFN]), p1evl_ok _ AFD 9 (by simp [AFD]),
      polevl_ok _ AGN 10 (by simp [AGN]), p1evl_ok _ AGD 10 (by simp [AGD]),
      polevl_ok _ APFN 8 (by simp [APFN]), p1evl_ok _ APFD 9 (by simp [APFD]),
      polevl_ok _ APGN 10 (by simp [APGN]), p1evl_ok _ APGD 10 (by simp [APGD]),
      bind, Except.bind, pure, Except.pure]
    exact ⟨_, rfl⟩
  · have h2 : ¬ x < -2.09 := not_lt.mpr (le_trans (by norm_num) hpos.le)
    have h3 : x ≥ 2.09 := le_trans (by norm_num) hpos.le
    have h4 : x > 8.3203353 := hpos
    simp only [torch_cephes_airy, h1, h2, h3, h4, if_true, if_false,
      polevl_ok _ AN 7 (by simp [AN]), polevl_ok _ AD 7 (by simp [AD]),
      polevl_ok _ APN 7 (by simp [APN]), polevl_ok _ APD 7 (by simp [APD]),
      polevl_ok _ BN16 4 (by simp [BN16]), p1evl_ok _ BD16 5 (by simp [BD16]),
      polevl_ok _ BPPN 4 (by simp [BPPN]), p1evl_ok _ BPPD 5 (by simp [BPPD]),
      bind, Except.bind, pure, Except.pure]
    exact ⟨_, rfl⟩

/-- Inside [-2.09, 8.3203353] the call continues into the power-series part. -/
theorem airy_series_region (E : Elem α) (o : AiryOut α) (x : α)
    (hlo : -2.09 ≤ x) (hhi : x ≤ 8.3203353) :
    ∃ (domflg : Nat) (o1 : AiryOut α), ∀ fuel,
      torch_cephes_airy E fuel o x = airySeries E fuel domflg o1 x := by
  have h1 : ¬ x > MAXAIRY := by
    have : x ≤ MAXAIRY := le_trans hhi (by norm_num [MAXAIRY])
    exact not_lt.mpr this
  have h2 : ¬ x < -2.09 := not_lt.mpr hlo
  have h4 : ¬ x > 8.3203353 := not_lt.mpr hhi
  by_cases h3 : x ≥ 2.09
  · refine ⟨5,
      ⟨sqpii * ((AN.take (7 + 1)).foldl (fun acc c => acc * (1 / (2 * x * E.sqrt x / 3)) + c) 0
          / (AD.take (7 + 1)).foldl (fun acc c => acc * (1 / (2 * x * E.sqrt x / 3)) + c) 0)
          / (2 * E.sqrt (E.sqrt x) * E.exp (2 * x * E.sqrt x / 3)),
        (APN.take (7 + 1)).foldl (fun acc c => acc * (1 / (2 * x * E.sqrt x / 3)) + c) 0
          / (APD.take (7 + 1)).foldl (fun acc c => acc * (1 / (2 * x * E.sqrt x / 3)) + c) 0
          * (-0.5 * sqpii * E.sqrt (E.sqrt x) / E.exp (2 * x * E.sqrt x / 3)),
        o.bi, o.bip⟩, fun fuel => ?_⟩
    simp only [torch_cephes_airy, h1, h2, h3, h4, if_true, if_false,
      polevl_ok _ AN 7 (by simp [AN]), polevl_ok _ AD 7 (by simp [AD]),
      polevl_ok _ APN 7 (by simp [APN]), polevl_ok _ APD 7 (by simp [APD]),
      bind, Except.bind, pure, Except.pure]
  · refine ⟨0, o, fun fuel => ?_⟩
    simp only [torch_cephes_airy, h1, h2, h3, if_false]

/-- The asymptotic branches use no fuel. -/
theorem airy_asymptotic_fuel (E : Elem α) (fuel : Nat) (o : AiryOut α) (x : α)
    (hx : x ≤ MAXAIRY) (hout : x < -2.09 ∨ 8.3203353 < x) :
    torch_cephes_airy E fuel o x = torch_cephes_airy E 0 o x := by
  have h1 : ¬ x > MAXAIRY := not_lt.mpr hx
  rcases hout with hneg | hpos
  · simp only [torch_cephes_airy, h1, hneg, if_true, if_false]
  · have h2 : ¬ x < -2.09 := not_lt.mpr (le_trans (by norm_num) hpos.le)
    have h3 : x ≥ 2.09 := le_trans (by norm_num) hpos.le
    have h4 : x > 8.3203353 := hpos
    simp only [torch_cephes_airy, h1, h2, h3, h4, if_true, if_false]

/-- If the loop started after one more pass returns for all large fuel, so does
the loop started now. -/
theorem seriesLoop_returns_of_step (E : Elem α) (z : α) (s : Series α)
    (h : ∃ n r, ∀ fuel, n ≤ fuel → seriesLoop E z fuel (seriesStep z s) = .ok r) :
    ∃ n r, ∀ fuel, n ≤ fuel → seriesLoop E z fuel s = .ok r := by
  by_cases hg : s.t > E.MACHEP
  · obtain ⟨n, r, hr⟩ := h
    refine ⟨n + 1, r, fun fuel hf => ?_⟩
    obtain ⟨m, rfl⟩ : ∃ m, fuel = m + 1 := ⟨fuel - 1, by omega⟩
    simp only [seriesLoop, hg, if_true]
    exact hr m (by omega)
  · exact ⟨0, s, fun fuel _ => seriesLoop_exit E z fuel s hg⟩

/-- If the loop started after one more pass returns for all large fuel, so does
the loop started now. -/
theorem derivLoop_returns_of_step (E : Elem α) (z : α) (s : Series α)
    (h : ∃ n r, ∀ fuel, n ≤ fuel → derivLoop E z fuel (derivStep z s) = .ok r) :
    ∃ n r, ∀ fuel, n ≤ fuel → derivLoop E z fuel s = .ok r := by
  by_cases hg : s.t > E.MACHEP
  · obtain ⟨n, r, hr⟩ := h
    refine ⟨n + 1, r, fun fuel hf => ?_⟩
    obtain ⟨m, rfl⟩ : ∃ m, fuel = m + 1 := ⟨fuel - 1, by omega⟩
    simp only [derivLoop, hg, if_true]
    exact hr m (by omega)
  · exact ⟨0, s, fun fuel _ => derivLoop_exit E z fuel s hg⟩

/-- One pass of the first loop, for z >= 0: the term uf stays non-negative, the
sum f stays >= 1, the counter grows by 3, the guard value is |uf / f|, and the
term at least halves once 2 z <= k. -/
theorem seriesStep_spec (z : α) (hz : 0 ≤ z) (s : Series α)
    (huf : 0 ≤ s.uf) (hf : 1 ≤ s.f) (hk : 1 ≤ s.k) :
    0 ≤ (seriesStep z s).uf ∧ 1 ≤ (seriesStep z s).f ∧ (seriesStep z s).k = s.k + 3 ∧
    (seriesStep z s).t = |(seriesStep z s).uf / (seriesStep z s).f| ∧
    (2 * z ≤ s.k → (seriesStep z s).uf ≤ s.uf / 2) := by
  have hk1 : 0 < s.k + 1 := by linarith
  have hk2 : 0 < s.k + 1 + 1 := by linarith
  have h0 : 0 ≤ s.uf * z / (s.k + 1) / (s.k + 1 + 1) :=
    div_nonneg (div_nonneg (mul_nonneg huf hz) hk1.le) hk2.le
  refine ⟨h0, ?_, ?_, rfl, ?_⟩
  · show 1 ≤ s.f + s.uf * z / (s.k + 1) / (s.k + 1 + 1)
    linarith
  · show s.k + 1 + 1 + 1 = s.k + 3
    ring
  · intro h2
    show s.uf * z / (s.k + 1) / (s.k + 1 + 1) ≤ s.uf / 2
    rw [div_div, div_le_div_iff₀ (mul_pos hk1 hk2) (by norm_num)]
    have : z * 2 ≤ (s.k + 1) * (s.k + 1 + 1) := by nlinarith
    calc s.uf * z * 2 = s.uf * (z * 2) := by ring
      _ ≤ s.uf * ((s.k + 1) * (s.k + 1 + 1)) := mul_le_mul_of_nonneg_left this huf

/-- One pass of the second loop, for z >= 0: the analogue of seriesStep_spec for
the term ug and the sum g. -/
theorem derivStep_spec (z : α) (hz : 0 ≤ z) (s : Series α)
    (hug : 0 ≤ s.ug) (hg : 1 ≤ s.g) (hk : 1 ≤ s.k) :
    0 ≤ (derivStep z s).ug ∧ 1 ≤ (derivStep z s).g ∧ (derivStep z s).k = s.k + 3 ∧
    (derivStep z s).t = |(derivStep z s).ug / (derivStep z s).g| ∧
    (2 * z ≤ s.k → (derivStep z s).ug ≤ s.ug / 2) := by
  have hk0 : 0 < s.k := by linarith
  have hk2 : 0 < s.k + 1 + 1 := by linarith
  have h0 : 0 ≤ s.ug / s.k * z / (s.k + 1 + 1) :=
    div_nonneg (mul_nonneg (div_nonneg hug hk0.le) hz) hk2.le
  refine ⟨h0, ?_, ?_, rfl, ?_⟩
  · show 1 ≤ s.g + s.ug / s.k * z / (s.k + 1 + 1)
    linarith
  · show s.k + 1 + 1 + 1 = s.k + 3
    ring
  · intro h2
    show s.ug / s.k * z / (s.k + 1 + 1) ≤ s.ug / 2
    have e : s.ug / s.k * z / (s.k + 1 + 1) = s.ug * z / (s.k * (s.k + 1 + 1)) := by
      field_simp
    rw [e, div_le_div_iff₀ (mul_pos hk0 hk2) (by norm_num)]
    have : z * 2 ≤ s.k * (s.k + 1 + 1) := by nlinarith
    calc s.ug * z * 2 = s.ug * (z * 2) := by ring
      _ ≤ s.ug * (s.k * (s.k + 1 + 1)) := mul_le_mul_of_nonneg_left this hug

/-- Termination of the first loop once the terms halve at every pass. -/
theorem seriesLoop_returns_contracting (E : Elem α) (z : α) (hz : 0 ≤ z) (m : Nat) :
    ∀ s : Series α, 0 ≤ s.uf → 1 ≤ s.f → 1 ≤ s.k → s.t = |s.uf / s.f| → 2 * z ≤ s.k →
      s.uf ≤ E.MACHEP * 2 ^ m →
      ∃ n r, ∀ fuel, n ≤ fuel → seriesLoop E z fuel s = .ok r := by
  induction m with
  | zero =>
    intro s huf hf hk ht _ hsmall
    have hle : s.t ≤ E.MACHEP := by
      rw [ht, abs_of_nonneg (div_nonneg huf (by linarith))]
      calc s.uf / s.f ≤ s.uf / 1 := div_le_div_of_nonneg_left huf (by norm_num) hf
        _ = s.uf := div_one _
        _ ≤ E.MACHEP := by simpa using hsmall
    exact ⟨0, s, fun fuel _ => seriesLoop_exit E z fuel s (not_lt.mpr hle)⟩
  | succ m ih =>
    intro s huf hf hk ht h2 hsmall
    obtain ⟨a, b, c, d, e⟩ := seriesStep_spec z hz s huf hf hk
    apply seriesLoop_returns_of_step
    apply ih _ a b (by rw [c]; linarith) d (by rw [c]; linarith)
    have := e h2
    have hpow : E.MACHEP * 2 ^ (m + 1) = 2 * (E.MACHEP * 2 ^ m) := by ring
    linarith

/-- Termination of the second loop once the terms halve at every pass. -/
theorem derivLoop_returns_contracting (E : Elem α) (z : α) (hz : 0 ≤ z) (m : Nat) :
    ∀ s : Series α, 0 ≤ s.ug → 1 ≤ s.g → 1 ≤ s.k → s.t = |s.ug / s.g| → 2 * z ≤ s.k →
      s.ug ≤ E.MACHEP * 2 ^ m →
      ∃ n r, ∀ fuel, n ≤ fuel → derivLoop E z fuel s = .ok r := by
  induction m with
  | zero =>
    intro s hug hg hk ht _ hsmall
    have hle : s.t ≤ E.MACHEP := by
      rw [ht, abs_of_nonneg (div_nonneg hug (by linarith))]
      calc s.ug / s.g ≤ s.ug / 1 := div_le_div_of_nonneg_left hug (by norm_num) hg
        _ = s.ug := div_one _
        _ ≤ E.MACHEP := by simpa using hsmall
    exact ⟨0, s, fun fuel _ => derivLoop_exit E z fuel s (not_lt.mpr hle)⟩
  | succ m ih =>
    intro s hug hg hk ht h2 hsmall
    obtain ⟨a, b, c, d, e⟩ := derivStep_spec z hz s hug hg hk
    apply derivLoop_returns_of_step
    apply ih _ a b (by rw [c]; linarith) d (by rw [c]; linarith)
    have := e h2
    have hpow : E.MACHEP * 2 ^ (m + 1) = 2 * (E.MACHEP * 2 ^ m) := by ring
    linarith

variable [Archimedean α]

/-- Termination of the first loop for every z >= 0 and MACHEP > 0. -/
theorem seriesLoop_returns (E : Elem α) (hM : 0 < E.MACHEP) (z : α) (hz : 0 ≤ z) (j : Nat) :
    ∀ s : Series α, 0 ≤ s.uf → 1 ≤ s.f → 1 ≤ s.k → s.t = |s.uf / s.f| → 2 * z ≤ s.k + 3 * j →
      ∃ n r, ∀ fuel, n ≤ fuel → seriesLoop E z fuel s = .ok r := by
  induction j with
  | zero =>
    intro s huf hf hk ht h2
    obtain ⟨m, hm⟩ := pow_unbounded_of_one_lt (s.uf / E.MACHEP) (one_lt_two : (1 : α) < 2)
    have hsmall : s.uf ≤ E.MACHEP * 2 ^ m := by
      have := (div_lt_iff₀ hM).mp hm
      linarith
    exact seriesLoop_returns_contracting E z hz m s huf hf hk ht (by simpa using h2) hsmall
  | succ j ih =>
    intro s huf hf hk ht h2
    obtain ⟨a, b, c, d, _⟩ := seriesStep_spec z hz s huf hf hk
    apply seriesLoop_returns_of_step
    apply ih _ a b (by rw [c]; linarith) d
    rw [c]
    push_cast at h2
    linarith

/-- Termination of the second loop for every z >= 0 and MACHEP > 0. -/
theorem derivLoop_returns (E : Elem α) (hM : 0 < E.MACHEP) (z : α) (hz : 0 ≤ z) (j : Nat) :
    ∀ s : Series α, 0 ≤ s.ug → 1 ≤ s.g → 1 ≤ s.k → s.t = |s.ug / s.g| → 2 * z ≤ s.k + 3 * j →
      ∃ n r, ∀ fuel, n ≤ fuel → derivLoop E z fuel s = .ok r := by
  induction j with
  | zero =>
    intro s hug hg hk ht h2
    obtain ⟨m, hm⟩ := pow_unbounded_of_one_lt (s.ug / E.MACHEP) (one_lt_two : (1 : α) < 2)
    have hsmall : s.ug ≤ E.MACHEP * 2 ^ m := by
      have := (div_lt_iff₀ hM).mp hm
      linarith
    exact derivLoop_returns_contracting E z hz m s hug hg hk ht (by simpa using h2) hsmall
  | succ j ih =>
    intro s hug hg hk ht h2
    obtain ⟨a, b, c, d, _⟩ := derivStep_spec z hz s hug hg hk
    apply derivLoop_returns_of_step
    apply ih _ a b (by rw [c]; linarith) d
    rw [c]
    push_cast at h2
    linarith

/-- For x >= 0 and MACHEP > 0 both power-series loops of airy terminate: with
enough fuel the power-series part returns status 0. -/
theorem airySeries_returns (E : Elem α) (hM : 0 < E.MACHEP) (domflg : Nat) (o : AiryOut α)
    (x : α) (hx : 0 ≤ x) :
    ∃ n r, ∀ fuel, n ≤ fuel → airySeries E fuel domflg o x = .ok (0, r) := by
  have hz : 0 ≤ x * x * x := mul_nonneg (mul_nonneg hx hx) hx
  obtain ⟨j, hj⟩ := exists_nat_ge (2 * (x * x * x))
  have hj1 : 2 * (x * x * x) ≤ 1 + 3 * (j : α) := by
    have : (0 : α) ≤ j := Nat.cast_nonneg j
    linarith
  obtain ⟨n1, r1, h1⟩ := seriesLoop_returns E hM (x * x * x) hz j ⟨1, x, 1, 1, x, 1⟩
    (by norm_num) (le_refl _) (le_refl _) (by simp) hj1
  have hstep := derivStep_spec (x * x * x) hz
    ⟨x * x / 2, 1 + x * x * x / 3, 1, x * x / 2 / 3, x * x * x / 3, 4⟩
    (by positivity) (by show (1 : α) ≤ 1 + x * x * x / 3; linarith [div_nonneg hz (by norm_num : (0:α) ≤ 3)])
    (by norm_num)
  obtain ⟨a, b, c, d, _⟩ := hstep
  obtain ⟨n2, r2, h2⟩ := derivLoop_returns_of_step E (x * x * x) _
    (derivLoop_returns E hM (x * x * x) hz j _ a b (by rw [c]; norm_num) d
      (by rw [c]; show 2 * (x * x * x) ≤ (4 : α) + 3 + 3 * j; linarith))
  obtain ⟨r, hr⟩ := airySeries_ok E (max n1 n2) domflg o x r1 r2
    (h1 _ (le_max_left _ _)) (h2 _ (le_max_right _ _))
  refine ⟨max n1 n2, r, fun fuel hf => ?_⟩
  have e1 := h1 fuel (le_trans (le_max_left _ _) hf)
  have e2 := h2 fuel (le_trans (le_max_right _ _) hf)
  rw [← hr]
  simp only [airySeries, e1, e2, h1 _ (le_max_left _ _), h2 _ (le_max_right _ _)]

/-- Status of airy in exact arithmetic.  The call returns status -1 with outputs
(0, 0, MAXNUM, MAXNUM) exactly when x > MAXAIRY = 25.77.  For x <= MAXAIRY no run
returns another status than 0 and no run reads outside a table; the call returns
status 0 with the same outputs for all sufficiently large fuel when x < -2.09 or
x > 8.3203353 (no loop is entered) and when 0 <= x and MACHEP > 0 (both
power-series loops terminate); in particular x = 25.77 itself returns status 0.
For -2.09 <= x < 0 this is a statement about the runs that return only: in exact
arithmetic the guard of a power-series loop need not fall below MACHEP near a
zero of its sum, and the loops of the source end there through rounding. -/
theorem airy_overflow_status (E : Elem α) (o : AiryOut α) (x : α) :
    (MAXAIRY < x →
      ∀ fuel, torch_cephes_airy E fuel o x = .ok (-1, ⟨0, 0, E.MAXNUM, E.MAXNUM⟩)) ∧
    (x ≤ MAXAIRY →
      ∀ fuel, torch_cephes_airy E fuel o x = .error Fault.fuel ∨
        ∃ r, torch_cephes_airy E fuel o x = .ok (0, r)) ∧
    (x ≤ MAXAIRY → (x < -2.09 ∨ 8.3203353 < x ∨ (0 ≤ x ∧ 0 < E.MACHEP)) →
      ∃ n r, ∀ fuel, n ≤ fuel → torch_cephes_airy E fuel o x = .ok (0, r)) ∧
    (∃ r, ∀ fuel, torch_cephes_airy E fuel o (25.77 : α) = .ok (0, r)) := by
  have hasym : ∀ y : α, y ≤ MAXAIRY → (y < -2.09 ∨ 8.3203353 < y) →
      ∃ r, ∀ fuel, torch_cephes_airy E fuel o y = .ok (0, r) := by
    intro y hy hout
    obtain ⟨r, hr⟩ := airy_asymptotic_status E 0 o y hy hout
    exact ⟨r, fun fuel => by rw [airy_asymptotic_fuel E fuel o y hy hout, hr]⟩
  refine ⟨fun hx fuel => airy_overflow E fuel o x hx, ?_, ?_, ?_⟩
  · intro hx fuel
    by_cases hout : x < -2.09 ∨ 8.3203353 < x
    · obtain ⟨r, hr⟩ := hasym x hx hout
      exact Or.inr ⟨r, hr fuel⟩
    · rw [not_or, not_lt, not_lt] at hout
      obtain ⟨d, o1, h⟩ := airy_series_region E o x hout.1 hout.2
      rw [h fuel]
      exact airySeries_outcome E fuel d o1 x
  · intro hx hreg
    by_cases hout : x < -2.09 ∨ 8.3203353 < x
    · obtain ⟨r, hr⟩ := hasym x hx hout
      exact ⟨0, r, fun fuel _ => hr fuel⟩
    · rw [not_or, not_lt, not_lt] at hout
      rcases hreg with h | h | ⟨h0, hM⟩
      · exact absurd h (not_lt.mpr hout.1)
      · exact absurd h (not_lt.mpr hout.2)
      · obtain ⟨d, o1, h⟩ := airy_series_region E o x hout.1 hout.2
        obtain ⟨n, r, hr⟩ := airySeries_returns E hM d o1 x h0
        exact ⟨n, r, fun fuel hf => by rw [h fuel, hr fuel hf]⟩
  · exact hasym 25.77 (by norm_num [MAXAIRY]) (Or.inr (by norm_num))

/-- On the rational instance 26 > MAXAIRY gives the overflow tuple, and
25.77 <= MAXAIRY gives status 0. -/
theorem airy_overflow_status_witness :
    (MAXAIRY : ℚ) < 26 ∧
    torch_cephes_airy ratElem 0 ⟨1, 1, 1, 1⟩ (26 : ℚ)
      = .ok (-1, ⟨0, 0, ratElem.MAXNUM, ratElem.MAXNUM⟩) ∧
    (25.77 : ℚ) ≤ MAXAIRY ∧
    ∃ n r, ∀ fuel, n ≤ fuel →
      torch_cephes_airy ratElem fuel ⟨1, 1, 1, 1⟩ (25.77 : ℚ) = .ok (0, r) :=
  ⟨by norm_num [MAXAIRY],
    (airy_overflow_status ratElem ⟨1, 1, 1, 1⟩ 26).1 (by norm_num [MAXAIRY]) 0,
    by norm_num [MAXAIRY],
    (airy_overflow_status ratElem ⟨1, 1, 1, 1⟩ 25.77).2.2.1 (by norm_num [MAXAIRY])
      (Or.inr (Or.inl (by norm_num)))⟩

end AiryStatus

section ZetacTotal

/-- For a base c >= 3 with 3 / M <= c and an exponent x >= 1, the guard value
c^(-x) / s of the summation loop is at most M as soon as s >= 3^(-x). -/
theorem zetacSum_guard_small (x M c s : ℝ) (hx : 1 ≤ x) (hM : 0 < M) (hc3 : 3 ≤ c)
    (hcM : 3 / M ≤ c) (hs : (3 : ℝ) ^ (-x) ≤ s) : c ^ (-x) / s ≤ M := by
  have hc : 0 < c := by linarith
  have h3 : 0 < (3 : ℝ) ^ (-x) := Real.rpow_pos_of_pos (by norm_num) _
  have hspos : 0 < s := lt_of_lt_of_le h3 hs
  have hb : 0 < c ^ (-x) := Real.rpow_pos_of_pos hc _
  have hmono : c ^ (-x + 1) ≤ (3 : ℝ) ^ (-x + 1) :=
    Real.rpow_le_rpow_of_exponent_nonpos (by norm_num) hc3 (by linarith)
  rw [Real.rpow_add_one hc.ne', Real.rpow_add_one (by norm_num)] at hmono
  have h3M : 3 ≤ M * c := by
    have := (div_le_iff₀ hM).mp hcM
    linarith
  rw [div_le_iff₀ hspos]
  have h1 : c ^ (-x) * c ≤ (M * (3 : ℝ) ^ (-x)) * c := by
    calc c ^ (-x) * c ≤ (3 : ℝ) ^ (-x) * 3 := hmono
      _ ≤ (3 : ℝ) ^ (-x) * (M * c) := mul_le_mul_of_nonneg_left h3M h3.le
      _ = (M * (3 : ℝ) ^ (-x)) * c := by ring
  have h2 : c ^ (-x) ≤ M * (3 : ℝ) ^ (-x) := le_of_mul_le_mul_right h1 hc
  calc c ^ (-x) ≤ M * (3 : ℝ) ^ (-x) := h2
    _ ≤ M * s := mul_le_mul_of_nonneg_left hs hM.le

/-- With the real power function and MACHEP > 0 the summation loop terminates
for every x >= 1, started from any state reached from a = 1, s = 0. -/
theorem zetacSum_returns (E : Elem ℝ) (hpow : ∀ a y : ℝ, 0 < a → E.pow a y = a ^ y)
    (hM : 0 < E.MACHEP) (x : ℝ) (hx : 1 ≤ x) (m : Nat) :
    ∀ a s : ℝ, 1 ≤ a → (3 : ℝ) ^ (-x) ≤ s + (a + 2) ^ (-x) → 3 / E.MACHEP ≤ a + 2 + 2 * m →
      ∃ n r, ∀ fuel, n ≤ fuel → zetacSum E x fuel a s = .ok r := by
  induction m with
  | zero =>
    intro a s ha hs hbig
    have hsmall : ¬ E.pow (a + 2) (-x) / (s + E.pow (a + 2) (-x)) > E.MACHEP := by
      rw [hpow _ _ (by linarith)]
      exact not_lt.mpr (zetacSum_guard_small x _ (a + 2) _ hx hM (by linarith)
        (by simpa using hbig) hs)
    refine ⟨1, s + E.pow (a + 2) (-x), fun fuel hf => ?_⟩
    obtain ⟨k, rfl⟩ : ∃ k, fuel = k + 1 := ⟨fuel - 1, by omega⟩
    simp only [zetacSum, hsmall, if_false]
  | succ m ih =>
    intro a s ha hs hbig
    by_cases hg : E.pow (a + 2) (-x) / (s + E.pow (a + 2) (-x)) > E.MACHEP
    · have hb : 0 < (a + 2 + 2 : ℝ) ^ (-x) := Real.rpow_pos_of_pos (by linarith) _
      obtain ⟨n, r, hr⟩ := ih (a + 2) (s + (a + 2) ^ (-x)) (by linarith) (by linarith)
        (by push_cast at hbig; linarith)
      refine ⟨n + 1, r, fun fuel hf => ?_⟩
      obtain ⟨k, rfl⟩ : ∃ k, fuel = k + 1 := ⟨fuel - 1, by omega⟩
      simp only [zetacSum, hg, if_true]
      rw [hpow _ _ (by linarith)]
      exact hr k (by omega)
    · refine ⟨1, s + E.pow (a + 2) (-x), fun fuel hf => ?_⟩
      obtain ⟨k, rfl⟩ : ∃ k, fuel = k + 1 := ⟨fuel - 1, by omega⟩
      simp only [zetacSum, hg, if_false]

/-- Below or at 50 the part of zetac after the table lookup enters no loop: it
returns the same result for every fuel. -/
theorem zetacRest_no_loop {α : Type} [LinearOrderedField α] (E : Elem α) (x : α)
    (hx : x ≤ 50) : ∃ r, ∀ fuel, zetacRest E fuel x = .ok r := by
  have hfuel : ∀ fuel, zetacRest E fuel x = zetacRest E 0 x := by
    intro fuel
    unfold zetacRest
    split_ifs <;> rfl
  have h0 : ∃ r, zetacRest E 0 x = .ok r := by
    unfold zetacRest
    split_ifs
    · simp only [polevl_ok _ R 5 (by simp [R]), p1evl_ok _ S 5 (by simp [S]),
        bind, Except.bind, pure, Except.pure]
      exact ⟨_, rfl⟩
    · exact ⟨_, rfl⟩
    · simp only [polevl_ok _ P 8 (by simp [P]), p1evl_ok _ Q 8 (by simp [Q]),
        bind, Except.bind, pure, Except.pure]
      exact ⟨_, rfl⟩
    · simp only [polevl_ok _ A 10 (by simp [A]), p1evl_ok _ B 10 (by simp [B]),
        bind, Except.bind, pure, Except.pure]
      exact ⟨_, rfl⟩
  obtain ⟨r, hr⟩ := h0
  exact ⟨r, fun fuel => by rw [hfuel fuel, hr]⟩

/-- Above 50 the part of zetac after the table lookup is the summation loop
followed by the final correction. -/
theorem zetacRest_loop {α : Type} [LinearOrderedField α] (E : Elem α) (fuel : Nat) (x s : α)
    (hx : 50 < x) (hs : zetacSum E x fuel 1 0 = .ok s) :
    zetacRest E fuel x = .ok ⟨(s + E.pow 2 (-x)) / (1 - E.pow 2 (-x)), []⟩ := by
  have h1 : ¬ x < 1 := not_lt.mpr (le_trans (by norm_num) hx.le)
  have h2 : ¬ x = 1 := ne_of_gt (lt_trans (by norm_num) hx)
  have h3 : ¬ x ≤ 10 := not_le.mpr (lt_trans (by norm_num) hx)
  have h4 : ¬ x ≤ 50 := not_le.mpr hx
  simp only [zetacRest, h1, h2, h3, h4, if_false, hs, bind, Except.bind, pure, Except.pure]

/-- A call of zetac on x >= 0 either returns a result that depends on neither
fuel nor depth (zero, or a table entry), or it is the part after the table lookup. -/
theorem zetac_nonneg_cases {α : Type} [LinearOrderedField α] [FloorRing α] (E : Elem α)
    (x : α) (hx : 0 ≤ x) :
    (∃ r, ∀ fuel depth, torch_cephes_zetac E fuel (depth + 1) x = .ok r) ∨
    (∀ fuel depth, torch_cephes_zetac E fuel (depth + 1) x = zetacRest E fuel x) := by
  have h0 : ¬ x < 0 := not_lt.mpr hx
  by_cases h127 : x ≥ MAXL2
  · left
    exact ⟨⟨0, []⟩, fun fuel depth => by simp only [torch_cephes_zetac, h0, h127, if_true, if_false]⟩
  · by_cases hw : ((⌊x⌋ : Int) : α) = x
    · by_cases hi : truncInt x < 31
      · left
        have hti : truncInt x = ⌊x⌋ := by simp [truncInt, hx]
        have hfl : 0 ≤ ⌊x⌋ := Int.floor_nonneg.mpr hx
        have h30 : ⌊x⌋ ≤ 30 := by omega
        have hlen : (⌊x⌋).toNat < (azetac : List α).length := by
          rw [azetac_length]; omega
        refine ⟨⟨(azetac : List α)[(⌊x⌋).toNat], []⟩, fun fuel depth => ?_⟩
        have h := zetac_of_int E fuel depth ⌊x⌋ hfl h30 _ (List.getElem?_eq_getElem hlen)
        rw [hw] at h
        exact h
      · right
        intro fuel depth
        simp only [torch_cephes_zetac, h0, h127, hw, hi, if_true, if_false]
    · right
      intro fuel depth
      simp only [torch_cephes_zetac, h0, h127, hw, if_false]

/-- With the real power function and MACHEP > 0, a call of zetac on x >= 0
returns for all sufficiently large loop fuel, whatever the depth budget. -/
theorem zetac_nonneg_returns (E : Elem ℝ) (hpow : ∀ a y : ℝ, 0 < a → E.pow a y = a ^ y)
    (hM : 0 < E.MACHEP) (x : ℝ) (hx : 0 ≤ x) :
    ∃ n r, ∀ fuel depth, n ≤ fuel → torch_cephes_zetac E fuel (depth + 1) x = .ok r := by
  rcases zetac_nonneg_cases E x hx with ⟨r, hr⟩ | hrest
  · exact ⟨0, r, fun fuel depth _ => hr fuel depth⟩
  · by_cases h50 : x ≤ 50
    · obtain ⟨r, hr⟩ := zetacRest_no_loop E x h50
      exact ⟨0, r, fun fuel depth _ => by rw [hrest fuel depth, hr fuel]⟩
    · have h50 : 50 < x := not_le.mp h50
      obtain ⟨m, hm⟩ := exists_nat_ge (3 / E.MACHEP)
      obtain ⟨n, s, hs⟩ := zetacSum_returns E hpow hM x (by linarith) m 1 0 (le_refl _)
        (by norm_num) (by
          have : (0 : ℝ) ≤ m := Nat.cast_nonneg m
          linarith)
      exact ⟨n, _, fun fuel depth hf => by
        rw [hrest fuel depth, zetacRest_loop E fuel x s h50 (hs fuel hf)]⟩

/-- C10: the recursion in zetac has depth exactly 1.  For every x < 0 that is not
below the overflow cutoff the recursive argument 1 - x is >= 1, so the recursive
call does not enter the x < 0 branch (its result is that of a call with a depth
budget of one frame), while x itself needs a second frame.  With the real power
function and MACHEP > 0, zetac is total on the reals: for every x and all
sufficiently large loop fuel it returns within two frames. -/
theorem zetac_recursion_depth_one (E : Elem ℝ) (hpow : ∀ a y : ℝ, 0 < a → E.pow a y = a ^ y)
    (hM : 0 < E.MACHEP) :
    (∀ x : ℝ, -170.6243 ≤ x → x < 0 →
      1 ≤ 1 - x ∧ ¬ (1 - x < 0) ∧
      (∀ fuel depth, torch_cephes_zetac E fuel (depth + 1) (1 - x)
          = torch_cephes_zetac E fuel 1 (1 - x)) ∧
      (∀ fuel, torch_cephes_zetac E fuel 1 x = .error Fault.fuel)) ∧
    (∀ x : ℝ, ∃ n r, ∀ fuel, n ≤ fuel → torch_cephes_zetac E fuel 2 x = .ok r) := by
  constructor
  · intro x hlo hneg
    have hs : ¬ (1 - x < 0) := by linarith
    refine ⟨by linarith, hs, fun fuel depth => zetac_depth_irrelevant E fuel depth (1 - x) hs, ?_⟩
    intro fuel
    have hcut : ¬ x < -170.6243 := not_lt.mpr hlo
    simp only [torch_cephes_zetac, hneg, hcut, if_true, if_false]
  · intro x
    by_cases hneg : x < 0
    · by_cases hcut : x < -170.6243
      · exact ⟨0, _, fun fuel _ => zetac_overflow_returns_zero E fuel 1 x hcut⟩
      · obtain ⟨n, r, hr⟩ := zetac_nonneg_returns E hpow hM (1 - x) (by linarith)
        refine ⟨n, ⟨E.sin (0.5 * E.PI * x) * E.pow (2 * E.PI) x * E.gamma (1 - x)
          * (1 + r.val) / E.PI - 1, r.errs⟩, fun fuel hf => ?_⟩
        have h1 := hr fuel 0 hf
        simp only [torch_cephes_zetac, hneg, hcut, if_true, if_false] at h1 ⊢
        simp only [h1]
    · obtain ⟨n, r, hr⟩ := zetac_nonneg_returns E hpow hM x (not_lt.mp hneg)
      exact ⟨n, r, fun fuel hf => hr fuel 1 hf⟩

/-- Witness for C10 at x = -2.5 with the real elementary functions as
collaborators: one frame is not enough, two frames are. -/
theorem zetac_recursion_depth_one_witness :
    (0 : ℝ) < 1 / 2 ^ 53 ∧ (-170.6243 : ℝ) ≤ -2.5 ∧ (-2.5 : ℝ) < 0 ∧
    (∀ fuel, torch_cephes_zetac (⟨Real.sin, Real.cos, Real.exp, Real.sqrt, fun a y => a ^ y,
        Real.Gamma, Real.pi, 2 ^ 1024 - 2 ^ 971, 1 / 2 ^ 53⟩ : Elem ℝ) fuel 1 (-2.5)
          = .error Fault.fuel) ∧
    (∃ n r, ∀ fuel, n ≤ fuel →
      torch_cephes_zetac (⟨Real.sin, Real.cos, Real.exp, Real.sqrt, fun a y => a ^ y,
        Real.Gamma, Real.pi, 2 ^ 1024 - 2 ^ 971, 1 / 2 ^ 53⟩ : Elem ℝ) fuel 2 (-2.5) = .ok r) :=
  ⟨by positivity, by norm_num, by norm_num,
    ((zetac_recursion_depth_one ⟨Real.sin, Real.cos, Real.exp, Real.sqrt, fun a y => a ^ y,
      Real.Gamma, Real.pi, 2 ^ 1024 - 2 ^ 971, 1 / 2 ^ 53⟩ (fun _ _ _ => rfl)
      (by positivity)).1 (-2.5) (by norm_num) (by norm_num)).2.2.2,
    (zetac_recursion_depth_one ⟨Real.sin, Real.cos, Real.exp, Real.sqrt, fun a y => a ^ y,
      Real.Gamma, Real.pi, 2 ^ 1024 - 2 ^ 971, 1 / 2 ^ 53⟩ (fun _ _ _ => rfl)
      (by positivity)).2 (-2.5)⟩

end ZetacTotal

section AiryRegimes

variable {α : Type} [LinearOrderedField α]

/-- The power-series part writes, of the four power-series values, exactly those
whose region flag is clear, and leaves the other cells as they were. -/
theorem airySeries_eq (E : Elem α) (fuel domflg : Nat) (o : AiryOut α) (x : α) :
    airySeries E fuel domflg o x
      = (do
          let v ← seriesValues E fuel x
          pure (0, ⟨if domflg &&& 1 = 0 then v.ai else o.ai,
                    if domflg &&& 4 = 0 then v.aip else o.aip,
                    if domflg &&& 2 = 0 then v.bi else o.bi,
                    if domflg &&& 8 = 0 then v.bip else o.bip⟩)) := by
  cases h1 : seriesLoop E (x * x * x) fuel ⟨1, x, 1, 1, x, 1⟩ with
  | error e => simp only [airySeries, seriesValues, h1, bind, Except.bind]
  | ok s1 =>
    cases h2 : derivLoop E (x * x * x) fuel
        ⟨x * x / 2, 1 + x * x * x / 3, 1, x * x / 2 / 3, x * x * x / 3, 4⟩ with
    | error e => simp only [airySeries, seriesValues, h1, h2, bind, Except.bind]
    | ok s2 =>
      simp only [airySeries, seriesValues, h1, h2, bind, Except.bind, pure, Except.pure]
      split_ifs <;> rfl

/-- Branch x < -2.09 of airy: status 0 and the four oscillatory values. -/
theorem airy_oscillatory (E : Elem α) (fuel : Nat) (o : AiryOut α) (x : α)
    (hx : x < -2.09) :
    torch_cephes_airy E fuel o x
      = (do
          let v ← oscillatoryValues E x
          pure (0, v)) := by
  have h1 : ¬ x > MAXAIRY := by
    have : x < MAXAIRY := lt_trans hx (by norm_num [MAXAIRY])
    exact not_lt.mpr this.le
  simp only [torch_cephes_airy, oscillatoryValues, h1, hx, if_true, if_false,
    polevl_ok _ AFN 8 (by simp [AFN]), p1evl_ok _ AFD 9 (by simp [AFD]),
    polevl_ok _ AGN 10 (by simp [AGN]), p1evl_ok _ AGD 10 (by simp [AGD]),
    polevl_ok _ APFN 8 (by simp [APFN]), p1evl_ok _ APFD 9 (by simp [APFD]),
    polevl_ok _ APGN 10 (by simp [APGN]), p1evl_ok _ APGD 10 (by simp [APGD]),
    bind, Except.bind, pure, Except.pure]

/-- Branch 8.3203353 < x <= MAXAIRY of airy: status 0 and the four exponential
asymptotic values. -/
theorem airy_exponential (E : Elem α) (fuel : Nat) (o : AiryOut α) (x : α)
    (hlo : 8.3203353 < x) (hhi : x ≤ MAXAIRY) :
    torch_cephes_airy E fuel o x
      = (do
          let a ← expAiValues E x
          let b ← expBiValues E x
          pure (0, ⟨a.1, a.2, b.1, b.2⟩)) := by
  have h1 : ¬ x > MAXAIRY := not_lt.mpr hhi
  have h2 : ¬ x < -2.09 := not_lt.mpr (le_trans (by norm_num) hlo.le)
  have h3 : x ≥ 2.09 := le_trans (by norm_num) hlo.le
  have h4 : x > 8.3203353 := hlo
  simp only [torch_cephes_airy, expAiValues, expBiValues, h1, h2, h3, h4, if_true, if_false,
    polevl_ok _ AN 7 (by simp [AN]), polevl_ok _ AD 7 (by simp [AD]),
    polevl_ok _ APN 7 (by simp [APN]), polevl_ok _ APD 7 (by simp [APD]),
    polevl_ok _ BN16 4 (by simp [BN16]), p1evl_ok _ BD16 5 (by simp [BD16]),
    polevl_ok _ BPPN 4 (by simp [BPPN]), p1evl_ok _ BPPD 5 (by simp [BPPD]),
    bind, Except.bind, pure, Except.pure]

/-- Branch 2.09 <= x <= 8.3203353 of airy: status 0, Ai and Aip from the
exponential asymptotic form, Bi and Bip from the power series. -/
theorem airy_mixed (E : Elem α) (fuel : Nat) (o : AiryOut α) (x : α)
    (hlo : 2.09 ≤ x) (hhi : x ≤ 8.3203353) :
    torch_cephes_airy E fuel o x
      = (do
          let a ← expAiValues E x
          let v ← seriesValues E fuel x
          pure (0, ⟨a.1, a.2, v.bi, v.bip⟩)) := by
  have h1 : ¬ x > MAXAIRY := by
    have : x ≤ MAXAIRY := le_trans hhi (by norm_num [MAXAIRY])
    exact not_lt.mpr this
  have h2 : ¬ x < -2.09 := not_lt.mpr (le_trans (by norm_num) hlo)
  have h3 : x ≥ 2.09 := hlo
  have h4 : ¬ x > 8.3203353 := not_lt.mpr hhi
  simp only [torch_cephes_airy, expAiValues, h1, h2, h3, h4, if_true, if_false,
    polevl_ok _ AN 7 (by simp [AN]), polevl_ok _ AD 7 (by simp [AD]),
    polevl_ok _ APN 7 (by simp [APN]), polevl_ok _ APD 7 (by simp [APD]),
    bind, Except.bind, pure, Except.pure, airySeries_eq]
  have b1 : (5 &&& 1 : Nat) = 1 := by decide
  have b2 : (5 &&& 2 : Nat) = 0 := by decide
  have b4 : (5 &&& 4 : Nat) = 4 := by decide
  have b8 : (5 &&& 8 : Nat) = 0 := by decide
  cases seriesValues E fuel x <;> simp [b1, b2, b4, b8]

/-- Branch -2.09 <= x < 2.09 of airy: status 0 and the four power-series values. -/
theorem airy_power_series (E : Elem α) (fuel : Nat) (o : AiryOut α) (x : α)
    (hlo : -2.09 ≤ x) (hhi : x < 2.09) :
    torch_cephes_airy E fuel o x
      = (do
          let v ← seriesValues E fuel x
          pure (0, v)) := by
  have h1 : ¬ x > MAXAIRY := by
    have : x < MAXAIRY := lt_trans hhi (by norm_num [MAXAIRY])
    exact not_lt.mpr this.le
  have h2 : ¬ x < -2.09 := not_lt.mpr hlo
  have h3 : ¬ x ≥ 2.09 := not_le.mpr hhi
  simp only [torch_cephes_airy, h1, h2, h3, if_false, airySeries_eq]
  cases seriesValues E fuel x <;> simp [bind, Except.bind, pure, Except.pure]

end AiryRegimes

section AiryRefinement

variable {α : Type} [LinearOrderedField α]

/-- C20: the region-bitmask implementation of airy returns, for every x, every
fuel and every prior content of the output cells, exactly the result of the
implementation with explicit per-branch results (same status, same four
outputs, same fault when a loop runs out of fuel).  In case (d),
2.09 <= x <= 8.3203353, the Ai and Aip of every returned result are the values
written by the asymptotic branch. -/
theorem airy_refines_explicit (E : Elem α) (fuel : Nat) (o : AiryOut α) (x : α) :
    torch_cephes_airy E fuel o x = airyExplicit E fuel x ∧
    (2.09 ≤ x → x ≤ 8.3203353 →
      ∃ a, expAiValues E x = .ok a ∧
        ∀ status r, torch_cephes_airy E fuel o x = .ok (status, r) →
          r.ai = a.1 ∧ r.aip = a.2) := by
  constructor
  · unfold airyExplicit
    by_cases h1 : x > 25.77
    · rw [if_pos h1]
      exact airy_overflow E fuel o x (by simpa [MAXAIRY] using h1)
    · have hM : x ≤ MAXAIRY := by simpa [MAXAIRY] using not_lt.mp h1
      rw [if_neg h1]
      by_cases h2 : x < -2.09
      · rw [if_pos h2]
        exact airy_oscillatory E fuel o x h2
      · rw [if_neg h2]
        by_cases h3 : x > 8.3203353
        · rw [if_pos h3]
          exact airy_exponential E fuel o x h3 hM
        · rw [if_neg h3]
          by_cases h4 : 2.09 ≤ x
          · rw [if_pos h4]
            exact airy_mixed E fuel o x h4 (not_lt.mp h3)
          · rw [if_neg h4]
            exact airy_power_series E fuel o x (not_lt.mp h2) (not_le.mp h4)
  · intro hlo hhi
    have ha : ∃ a, expAiValues E x = .ok a := by
      simp only [expAiValues, polevl_ok _ AN 7 (by simp [AN]), polevl_ok _ AD 7 (by simp [AD]),
        polevl_ok _ APN 7 (by simp [APN]), polevl_ok _ APD 7 (by simp [APD]),
        bind, Except.bind, pure, Except.pure]
      exact ⟨_, rfl⟩
    obtain ⟨a, ha⟩ := ha
    refine ⟨a, ha, fun status r hr => ?_⟩
    rw [airy_mixed E fuel o x hlo hhi, ha] at hr
    cases hv : seriesValues E fuel x with
    | error e => simp [hv, bind, Except.bind] at hr
    | ok v =>
      simp only [hv, bind, Except.bind, pure, Except.pure, Except.ok.injEq, Prod.mk.injEq] at hr
      rw [← hr.2]
      exact ⟨rfl, rfl⟩

/-- Witness for C20 at x = 3 (case (d)) on the rational instance. -/
theorem airy_refines_explicit_witness :
    torch_cephes_airy ratElem 0 ⟨7, 7, 7, 7⟩ (3 : ℚ) = airyExplicit ratElem 0 3 :=
  (airy_refines_explicit ratElem 0 ⟨7, 7, 7, 7⟩ 3).1

/-- Every x lies in one of the five ranges, and the range fixes the path. -/
theorem airyPath_cases (x : α) :
    (25.77 < x ∧ airyPath x = AiryPath.overflow) ∨
    (x < -2.09 ∧ airyPath x = AiryPath.oscillatory) ∨
    ((-2.09 ≤ x ∧ x < 2.09) ∧ airyPath x = AiryPath.series) ∨
    ((2.09 ≤ x ∧ x ≤ 8.3203353) ∧ airyPath x = AiryPath.mixed) ∨
    ((8.3203353 < x ∧ x ≤ 25.77) ∧ airyPath x = AiryPath.exponential) := by
  unfold airyPath
  by_cases h1 : x > MAXAIRY
  · exact Or.inl ⟨by simpa [MAXAIRY] using h1, by rw [if_pos h1]⟩
  · have hM : x ≤ 25.77 := by simpa [MAXAIRY] using not_lt.mp h1
    rw [if_neg h1]
    by_cases h2 : x < -2.09
    · exact Or.inr (Or.inl ⟨h2, by rw [if_pos h2]⟩)
    · rw [if_neg h2]
      by_cases h3 : x ≥ 2.09
      · rw [if_pos h3]
        by_cases h4 : x > 8.3203353
        · exact Or.inr (Or.inr (Or.inr (Or.inr ⟨⟨h4, hM⟩, by rw [if_pos h4]⟩)))
        · exact Or.inr (Or.inr (Or.inr (Or.inl ⟨⟨h3, not_lt.mp h4⟩, by rw [if_neg h4]⟩)))
      · exact Or.inr (Or.inr (Or.inl ⟨⟨not_lt.mp h2, not_le.mp h3⟩, by rw [if_neg h3]⟩))

/-- C11: airy regime selection is disjoint and exhaustive.  The path taken on x
is overflow exactly for x > 25.77, oscillatory exactly for x < -2.09, the power
series for all four outputs exactly for -2.09 <= x < 2.09, the exponential form
for Ai, Aip with the power series for Bi, Bip exactly for 2.09 <= x <= 8.3203353,
and the asymptotic forms for all four outputs exactly for 8.3203353 < x <= 25.77;
the result of airy is the one of that path.  The boundary values -2.09, 2.09,
8.3203353 and 25.77 belong to the series, mixed, mixed and exponential path. -/
theorem airy_regime_selection (E : Elem α) (fuel : Nat) (o : AiryOut α) (x : α) :
    (airyPath x = AiryPath.overflow ↔ 25.77 < x) ∧
    (airyPath x = AiryPath.oscillatory ↔ x < -2.09) ∧
    (airyPath x = AiryPath.series ↔ -2.09 ≤ x ∧ x < 2.09) ∧
    (airyPath x = AiryPath.mixed ↔ 2.09 ≤ x ∧ x ≤ 8.3203353) ∧
    (airyPath x = AiryPath.exponential ↔ 8.3203353 < x ∧ x ≤ 25.77) ∧
    torch_cephes_airy E fuel o x
      = (match airyPath x with
          | AiryPath.overflow => .ok (-1, ⟨0, 0, E.MAXNUM, E.MAXNUM⟩)
          | AiryPath.oscillatory => do
              let v ← oscillatoryValues E x
              pure (0, v)
          | AiryPath.series => do
              let v ← seriesValues E fuel x
              pure (0, v)
          | AiryPath.mixed => do
              let a ← expAiValues E x
              let v ← seriesValues E fuel x
              pure (0, ⟨a.1, a.2, v.bi, v.bip⟩)
          | AiryPath.exponential => do
              let a ← expAiValues E x
              let b ← expBiValues E x
              pure (0, ⟨a.1, a.2, b.1, b.2⟩)) ∧
    airyPath (-2.09 : α) = AiryPath.series ∧
    airyPath (2.09 : α) = AiryPath.mixed ∧
    airyPath (8.3203353 : α) = AiryPath.mixed ∧
    airyPath (25.77 : α) = AiryPath.exponential := by
  have hb : airyPath (-2.09 : α) = AiryPath.series ∧ airyPath (2.09 : α) = AiryPath.mixed ∧
      airyPath (8.3203353 : α) = AiryPath.mixed ∧
      airyPath (25.77 : α) = AiryPath.exponential := by
    refine ⟨?_, ?_, ?_, ?_⟩ <;>
      · unfold airyPath
        norm_num [MAXAIRY]
  rcases airyPath_cases x with ⟨hr, hp⟩ | ⟨hr, hp⟩ | ⟨hr, hp⟩ | ⟨hr, hp⟩ | ⟨hr, hp⟩
  · refine ⟨?_, ?_, ?_, ?_, ?_, ?_, hb⟩
    · simp [hp, hr]
    · simp only [hp, reduceCtorEq, false_iff, not_lt]; linarith
    · simp only [hp, reduceCtorEq, false_iff, not_and, not_lt]; intro _; linarith
    · simp only [hp, reduceCtorEq, false_iff, not_and, not_le]; intro _; linarith
    · simp only [hp, reduceCtorEq, false_iff, not_and, not_le]; intro _; linarith
    · rw [hp]
      exact airy_overflow E fuel o x (by simpa [MAXAIRY] using hr)
  · refine ⟨?_, ?_, ?_, ?_, ?_, ?_, hb⟩
    · simp only [hp, reduceCtorEq, false_iff, not_lt]; linarith
    · simp [hp, hr]
    · simp only [hp, reduceCtorEq, false_iff, not_and, not_lt]; intro h; linarith
    · simp only [hp, reduceCtorEq, false_iff, not_and, not_le]; intro h; linarith
    · simp only [hp, reduceCtorEq, false_iff, not_and, not_le]; intro h; linarith
    · rw [hp]
      exact airy_oscillatory E fuel o x hr
  · refine ⟨?_, ?_, ?_, ?_, ?_, ?_, hb⟩
    · simp only [hp, reduceCtorEq, false_iff, not_lt]; linarith [hr.2]
    · simp only [hp, reduceCtorEq, false_iff, not_lt]; exact hr.1
    · simp [hp, hr]
    · simp only [hp, reduceCtorEq, false_iff, not_and, not_le]; intro h; linarith [hr.2]
    · simp only [hp, reduceCtorEq, false_iff, not_and, not_le]; intro h; linarith [hr.2]
    · rw [hp]
      exact airy_power_series E fuel o x hr.1 hr.2
  · refine ⟨?_, ?_, ?_, ?_, ?_, ?_, hb⟩
    · simp only [hp, reduceCtorEq, false_iff, not_lt]; linarith [hr.2]
    · simp only [hp, reduceCtorEq, false_iff, not_lt]; linarith [hr.1]
    · simp only [hp, reduceCtorEq, false_iff, not_and, not_lt]; intro _; exact hr.1
    · simp [hp, hr]
    · simp only [hp, reduceCtorEq, false_iff, not_and, not_le]; intro h; linarith [hr.2]
    · rw [hp]
      exact airy_mixed E fuel o x hr.1 hr.2
  · refine ⟨?_, ?_, ?_, ?_, ?_, ?_, hb⟩
    · simp only [hp, reduceCtorEq, false_iff, not_lt]; exact hr.2
    · simp only [hp, reduceCtorEq, false_iff, not_lt]; linarith [hr.1]
    · simp only [hp, reduceCtorEq, false_iff, not_and, not_lt]; intro _; linarith [hr.1]
    · simp only [hp, reduceCtorEq, false_iff, not_and, not_le]; intro _; exact hr.1
    · simp [hp, hr]
    · rw [hp]
      exact airy_exponential E fuel o x hr.1 (by simpa [MAXAIRY] using hr.2)

/-- Witness for C11 on the rational instance: the boundary value 2.09 takes the
mixed path. -/
theorem airy_regime_selection_witness :
    ((2.09 : ℚ) ≤ 2.09 ∧ (2.09 : ℚ) ≤ 8.3203353) ∧
    airyPath (2.09 : ℚ) = AiryPath.mixed :=
  ⟨⟨le_refl _, by norm_num⟩,
    (airy_regime_selection ratElem 0 ⟨0, 0, 0, 0⟩ (2.09 : ℚ)).2.2.2.1.mpr
      ⟨le_refl _, by norm_num⟩⟩

end AiryRefinement

section AiryFormulas

variable {α : Type} [LinearOrderedField α]

/-- C14: for every x < -2.09, with t = sqrt(-x), zeta = -2*x*t/3, z = 1/zeta,
uf = 1 + z^2*polevl(z^2, AFN, 8)/p1evl(z^2, AFD, 9),
ug = z*polevl(z^2, AGN, 10)/p1evl(z^2, AGD, 10), f = sin(zeta + pi/4),
g = cos(zeta + pi/4) and k = sqpii/sqrt(t), airy returns status 0 with
Ai = k*(f*uf - g*ug) and Bi = k*(g*uf + f*ug); the four polynomial evaluations
stay inside their tables. -/
theorem airy_oscillatory_value_pair (E : Elem α) (fuel : Nat) (o : AiryOut α) (x : α)
    (hx : x < -2.09) :
    let t := E.sqrt (-x)
    let zeta := -2 * x * t / 3
    let z := 1 / zeta
    let f := E.sin (zeta + E.PI / 4)
    let g := E.cos (zeta + E.PI / 4)
    let k := sqpii / E.sqrt t
    ∃ pf qf pg qg : α,
      torch_cephes_polevl (z ^ 2) AFN 8 = .ok pf ∧
      torch_cephes_p1evl (z ^ 2) AFD 9 = .ok qf ∧
      torch_cephes_polevl (z ^ 2) AGN 10 = .ok pg ∧
      torch_cephes_p1evl (z ^ 2) AGD 10 = .ok qg ∧
      ∃ r : AiryOut α, torch_cephes_airy E fuel o x = .ok (0, r) ∧
        r.ai = k * (f * (1 + z ^ 2 * pf / qf) - g * (z * pg / qg)) ∧
        r.bi = k * (g * (1 + z ^ 2 * pf / qf) + f * (z * pg / qg)) := by
  have hq : (0.25 : α) * E.PI = E.PI / 4 := by ring
  dsimp only
  simp only [sq]
  refine ⟨_, _, _, _, polevl_ok _ AFN 8 (by simp [AFN]), p1evl_ok _ AFD 9 (by simp [AFD]),
    polevl_ok _ AGN 10 (by simp [AGN]), p1evl_ok _ AGD 10 (by simp [AGD]), ?_⟩
  rw [airy_oscillatory E fuel o x hx]
  simp only [oscillatoryValues, hq,
    polevl_ok _ AFN 8 (by simp [AFN]), p1evl_ok _ AFD 9 (by simp [AFD]),
    polevl_ok _ AGN 10 (by simp [AGN]), p1evl_ok _ AGD 10 (by simp [AGD]),
    polevl_ok _ APFN 8 (by simp [APFN]), p1evl_ok _ APFD 9 (by simp [APFD]),
    polevl_ok _ APGN 10 (by simp [APGN]), p1evl_ok _ APGD 10 (by simp [APGD]),
    bind, Except.bind, pure, Except.pure]
  exact ⟨_, rfl, rfl, rfl⟩

/-- Witness for C14 at x = -3 on the rational instance. -/
theorem airy_oscillatory_value_pair_witness :
    (-3 : ℚ) < -2.09 ∧
    (let t := ratElem.sqrt (-(-3 : ℚ))
     let zeta := -2 * (-3 : ℚ) * t / 3
     let z := 1 / zeta
     let f := ratElem.sin (zeta + ratElem.PI / 4)
     let g := ratElem.cos (zeta + ratElem.PI / 4)
     let k := sqpii / ratElem.sqrt t
     ∃ pf qf pg qg : ℚ,
       torch_cephes_polevl (z ^ 2) AFN 8 = .ok pf ∧
       torch_cephes_p1evl (z ^ 2) AFD 9 = .ok qf ∧
       torch_cephes_polevl (z ^ 2) AGN 10 = .ok pg ∧
       torch_cephes_p1evl (z ^ 2) AGD 10 = .ok qg ∧
       ∃ r : AiryOut ℚ, torch_cephes_airy ratElem 0 ⟨0, 0, 0, 0⟩ (-3) = .ok (0, r) ∧
         r.ai = k * (f * (1 + z ^ 2 * pf / qf) - g * (z * pg / qg)) ∧
         r.bi = k * (g * (1 + z ^ 2 * pf / qf) + f * (z * pg / qg))) :=
  ⟨by norm_num, airy_oscillatory_value_pair ratElem 0 ⟨0, 0, 0, 0⟩ (-3) (by norm_num)⟩

/-- C15 (as amended): for every x < -2.09, with t = sqrt(-x), zeta = -2*x*t/3,
z = 1/zeta, f = sin(zeta + pi/4), g = cos(zeta + pi/4),
uf = 1 + z^2*polevl(z^2, APFN, 8)/p1evl(z^2, APFD, 9),
ug = z*polevl(z^2, APGN, 10)/p1evl(z^2, APGD, 10) and k = sqpii*sqrt(t), airy
returns status 0 with Aip = -k*(g*uf + f*ug) and Bip = k*(f*uf - g*ug): the
derivative pair uses the second polynomial pair, the fourth root of -x in k, and
the two combinations of the value pair exchanged. -/
theorem airy_oscillatory_derivative_pair (E : Elem α) (fuel : Nat) (o : AiryOut α) (x : α)
    (hx : x < -2.09) :
    let t := E.sqrt (-x)
    let zeta := -2 * x * t / 3
    let z := 1 / zeta
    let f := E.sin (zeta + E.PI / 4)
    let g := E.cos (zeta + E.PI / 4)
    let k := sqpii * E.sqrt t
    ∃ pf qf pg qg : α,
      torch_cephes_polevl (z ^ 2) APFN 8 = .ok pf ∧
      torch_cephes_p1evl (z ^ 2) APFD 9 = .ok qf ∧
      torch_cephes_polevl (z ^ 2) APGN 10 = .ok pg ∧
      torch_cephes_p1evl (z ^ 2) APGD 10 = .ok qg ∧
      ∃ r : AiryOut α, torch_cephes_airy E fuel o x = .ok (0, r) ∧
        r.aip = -k * (g * (1 + z ^ 2 * pf / qf) + f * (z * pg / qg)) ∧
        r.bip = k * (f * (1 + z ^ 2 * pf / qf) - g * (z * pg / qg)) := by
  have hq : (0.25 : α) * E.PI = E.PI / 4 := by ring
  dsimp only
  simp only [sq]
  refine ⟨_, _, _, _, polevl_ok _ APFN 8 (by simp [APFN]), p1evl_ok _ APFD 9 (by simp [APFD]),
    polevl_ok _ APGN 10 (by simp [APGN]), p1evl_ok _ APGD 10 (by simp [APGD]), ?_⟩
  rw [airy_oscillatory E fuel o x hx]
  simp only [oscillatoryValues, hq,
    polevl_ok _ AFN 8 (by simp [AFN]), p1evl_ok _ AFD 9 (by simp [AFD]),
    polevl_ok _ AGN 10 (by simp [AGN]), p1evl_ok _ AGD 10 (by simp [AGD]),
    polevl_ok _ APFN 8 (by simp [APFN]), p1evl_ok _ APFD 9 (by simp [APFD]),
    polevl_ok _ APGN 10 (by simp [APGN]), p1evl_ok _ APGD 10 (by simp [APGD]),
    bind, Except.bind, pure, Except.pure]
  exact ⟨_, rfl, rfl, rfl⟩

/-- Witness for C15 (as amended) at x = -3 on the rational instance. -/
theorem airy_oscillatory_derivative_pair_witness :
    (-3 : ℚ) < -2.09 ∧
    (let t := ratElem.sqrt (-(-3 : ℚ))
     let zeta := -2 * (-3 : ℚ) * t / 3
     let z := 1 / zeta
     let f := ratElem.sin (zeta + ratElem.PI / 4)
     let g := ratElem.cos (zeta + ratElem.PI / 4)
     let k := sqpii * ratElem.sqrt t
     ∃ pf qf pg qg : ℚ,
       torch_cephes_polevl (z ^ 2) APFN 8 = .ok pf ∧
       torch_cephes_p1evl (z ^ 2) APFD 9 = .ok qf ∧
       torch_cephes_polevl (z ^ 2) APGN 10 = .ok pg ∧
       torch_cephes_p1evl (z ^ 2) APGD 10 = .ok qg ∧
       ∃ r : AiryOut ℚ, torch_cephes_airy ratElem 0 ⟨0, 0, 0, 0⟩ (-3) = .ok (0, r) ∧
         r.aip = -k * (g * (1 + z ^ 2 * pf / qf) + f * (z * pg / qg)) ∧
         r.bip = k * (f * (1 + z ^ 2 * pf / qf) - g * (z * pg / qg))) :=
  ⟨by norm_num, airy_oscillatory_derivative_pair ratElem 0 ⟨0, 0, 0, 0⟩ (-3) (by norm_num)⟩

end AiryFormulas

section OscillatoryCounterexample

/-- Two sign-separated combinations differ. -/
theorem oscillatory_combinations_differ (k1 k2 f g U V : ℝ) (hk1 : 0 < k1) (hk2 : 0 < k2)
    (hf : f < -0.1) (hg0 : 0 < g) (hg1 : g ≤ 1) (hU : 1 ≤ U) (hV0 : V < 0) (hV1 : -0.1 < V) :
    -k1 * (g * U + f * V) ≠ -k2 * (f * U - g * V) := by
  have h1 : 0 < g * U + f * V := by nlinarith
  have h2 : f * U - g * V < 0 := by nlinarith
  have h3 : -k1 * (g * U + f * V) < 0 := by nlinarith
  have h4 : 0 < -k2 * (f * U - g * V) := by nlinarith
  exact ne_of_lt (lt_trans h3 h4)

/-- Bounds on sin and cos at 16/3 + pi/4. -/
theorem sin_cos_at_theta :
    Real.sin (16 / 3 + Real.pi / 4) < -0.1 ∧ 0 < Real.cos (16 / 3 + Real.pi / 4) ∧
    Real.cos (16 / 3 + Real.pi / 4) ≤ 1 := by
  have hp1 := Real.pi_gt_d4
  have hp2 := Real.pi_lt_d4
  have hu0 : 0 < 7 * Real.pi / 4 - 16 / 3 := by norm_num at hp1 ⊢; linarith
  have hu1 : 7 * Real.pi / 4 - 16 / 3 ≤ 1 := by norm_num at hp2 ⊢; linarith
  have hs : Real.sin (16 / 3 + Real.pi / 4) = -Real.sin (7 * Real.pi / 4 - 16 / 3) := by
    rw [← Real.sin_neg, ← Real.sin_sub_two_pi]
    congr 1
    ring
  have hc : Real.cos (16 / 3 + Real.pi / 4) = Real.cos (7 * Real.pi / 4 - 16 / 3) := by
    rw [← Real.cos_neg (7 * Real.pi / 4 - 16 / 3), ← Real.cos_sub_two_pi]
    congr 1
    ring
  refine ⟨?_, ?_, Real.cos_le_one _⟩
  · rw [hs]
    have h := Real.sin_gt_sub_cube hu0 hu1
    have hlo : (0.16 : ℝ) < 7 * Real.pi / 4 - 16 / 3 := by norm_num at hp1 ⊢; linarith
    have hhi : 7 * Real.pi / 4 - 16 / 3 < 0.17 := by norm_num at hp2 ⊢; linarith
    have hcube : (7 * Real.pi / 4 - 16 / 3) ^ 3 < 0.17 ^ 3 :=
      pow_lt_pow_left₀ hhi hu0.le (by norm_num)
    norm_num at hcube hlo ⊢
    linarith
  · rw [hc]
    apply Real.cos_pos_of_mem_Ioo
    constructor <;> linarith

/-- C15 (counterexample): at x = -4 with the real elementary functions, the Aip
returned by airy is negative while the value the claim gives for it,
-(sqpii*t)*(f*uf - g*ug) with t = sqrt(-x), is positive. -/
theorem airy_oscillatory_aip_differs :
    (-4 : ℝ) < -2.09 ∧
    (let t := Real.sqrt (-(-4 : ℝ))
     let zeta := -2 * (-4 : ℝ) * t / 3
     let z := 1 / zeta
     let f := Real.sin (zeta + Real.pi / 4)
     let g := Real.cos (zeta + Real.pi / 4)
     ∃ pf qf pg qg : ℝ,
       torch_cephes_polevl (z ^ 2) APFN 8 = .ok pf ∧
       torch_cephes_p1evl (z ^ 2) APFD 9 = .ok qf ∧
       torch_cephes_polevl (z ^ 2) APGN 10 = .ok pg ∧
       torch_cephes_p1evl (z ^ 2) APGD 10 = .ok qg ∧
       ∃ r : AiryOut ℝ,
         torch_cephes_airy (⟨Real.sin, Real.cos, Real.exp, Real.sqrt, fun a y => a ^ y,
           Real.Gamma, Real.pi, 2 ^ 1024 - 2 ^ 971, 1 / 2 ^ 53⟩ : Elem ℝ) 0 ⟨0, 0, 0, 0⟩ (-4)
             = .ok (0, r) ∧
         r.aip ≠ -(sqpii * t) * (f * (1 + z ^ 2 * pf / qf) - g * (z * pg / qg))) := by
  have h4 : Real.sqrt 4 = 2 := by
    rw [show (4 : ℝ) = 2 ^ 2 by norm_num]
    exact Real.sqrt_sq (by norm_num)
  have hz : (-2 : ℝ) * -4 * 2 / 3 = 16 / 3 := by norm_num
  have hq : (0.25 : ℝ) * Real.pi = Real.pi / 4 := by ring
  refine ⟨by norm_num, ?_⟩
  dsimp only
  simp only [sq, neg_neg, h4, hz]
  refine ⟨_, _, _, _, @polevl_ok ℝ _ _ APFN 8 (by simp [APFN]),
    @p1evl_ok ℝ _ _ APFD 9 (by simp [APFD]), @polevl_ok ℝ _ _ APGN 10 (by simp [APGN]),
    @p1evl_ok ℝ _ _ APGD 10 (by simp [APGD]), ?_⟩
  rw [airy_oscillatory _ 0 ⟨0, 0, 0, 0⟩ (-4) (by norm_num)]
  simp only [oscillatoryValues]
  simp only [@polevl_ok ℝ _ _ AFN 8 (by simp [AFN]), @p1evl_ok ℝ _ _ AFD 9 (by simp [AFD]),
    @polevl_ok ℝ _ _ AGN 10 (by simp [AGN]), @p1evl_ok ℝ _ _ AGD 10 (by simp [AGD]),
    @polevl_ok ℝ _ _ APFN 8 (by simp [APFN]), @p1evl_ok ℝ _ _ APFD 9 (by simp [APFD]),
    @polevl_ok ℝ _ _ APGN 10 (by simp [APGN]), @p1evl_ok ℝ _ _ APGD 10 (by simp [APGD])]
  simp only [bind, Except.bind, pure, Except.pure, neg_neg, h4, hz, hq]
  refine ⟨_, rfl, ?_⟩
  obtain ⟨hf, hg0, hg1⟩ := sin_cos_at_theta
  have hs2 : 0 < Real.sqrt 2 := Real.sqrt_pos.mpr (by norm_num)
  have hsq : (0 : ℝ) < sqpii := by norm_num [sqpii]
  refine oscillatory_combinations_differ _ _ _ _ _ _ (mul_pos hsq hs2) (mul_pos hsq (by norm_num))
    hf hg0 hg1 ?_ ?_ ?_
  · simp only [APFN, APFD, List.take, List.foldl]
    norm_num
  · simp only [APGN, APGD, List.take, List.foldl]
    norm_num
  · simp only [APGN, APGD, List.take, List.foldl]
    norm_num

end OscillatoryCounterexample

section ExponentialAi

variable {α : Type} [LinearOrderedField α]

/-- The pair (Ai, Aip) of the exponential branch, spelled out. -/
theorem expAiValues_eq (E : Elem α) (x : α) :
    expAiValues E x
      = .ok (sqpii * ((AN.take (7 + 1)).foldl (fun acc c => acc * (1 / (2 * x * E.sqrt x / 3)) + c) 0
              / (AD.take (7 + 1)).foldl (fun acc c => acc * (1 / (2 * x * E.sqrt x / 3)) + c) 0)
              / (2 * E.sqrt (E.sqrt x) * E.exp (2 * x * E.sqrt x / 3)),
            (APN.take (7 + 1)).foldl (fun acc c => acc * (1 / (2 * x * E.sqrt x / 3)) + c) 0
              / (APD.take (7 + 1)).foldl (fun acc c => acc * (1 / (2 * x * E.sqrt x / 3)) + c) 0
              * (-0.5 * sqpii * E.sqrt (E.sqrt x) / E.exp (2 * x * E.sqrt x / 3))) := by
  simp only [expAiValues, polevl_ok _ AN 7 (by simp [AN]), polevl_ok _ AD 7 (by simp [AD]),
    polevl_ok _ APN 7 (by simp [APN]), polevl_ok _ APD 7 (by simp [APD]),
    bind, Except.bind, pure, Except.pure]

/-- The pair (Bi, Bip) of the exponential branch is always produced. -/
theorem expBiValues_ok (E : Elem α) (x : α) : ∃ b, expBiValues E x = .ok b := by
  simp only [expBiValues, polevl_ok _ BN16 4 (by simp [BN16]), p1evl_ok _ BD16 5 (by simp [BD16]),
    polevl_ok _ BPPN 4 (by simp [BPPN]), p1evl_ok _ BPPD 5 (by simp [BPPD]),
    bind, Except.bind, pure, Except.pure]
  exact ⟨_, rfl⟩

variable [Archimedean α]

/-- For x >= 0 and MACHEP > 0 both power-series loops return, with the same final
states for all sufficiently large fuel. -/
theorem seriesLoops_return (E : Elem α) (hM : 0 < E.MACHEP) (x : α) (hx : 0 ≤ x) :
    ∃ n s d, ∀ fuel, n ≤ fuel →
      seriesLoop E (x * x * x) fuel ⟨1, x, 1, 1, x, 1⟩ = .ok s ∧
      derivLoop E (x * x * x) fuel
        ⟨x * x / 2, 1 + x * x * x / 3, 1, x * x / 2 / 3, x * x * x / 3, 4⟩ = .ok d := by
  have hz : 0 ≤ x * x * x := mul_nonneg (mul_nonneg hx hx) hx
  obtain ⟨j, hj⟩ := exists_nat_ge (2 * (x * x * x))
  have hj1 : 2 * (x * x * x) ≤ 1 + 3 * (j : α) := by
    have : (0 : α) ≤ j := Nat.cast_nonneg j
    linarith
  obtain ⟨n1, r1, h1⟩ := seriesLoop_returns E hM (x * x * x) hz j ⟨1, x, 1, 1, x, 1⟩
    (by norm_num) (le_refl _) (le_refl _) (by simp) hj1
  obtain ⟨a, b, c, d, _⟩ := derivStep_spec (x * x * x) hz
    ⟨x * x / 2, 1 + x * x * x / 3, 1, x * x / 2 / 3, x * x * x / 3, 4⟩
    (by positivity)
    (by show (1 : α) ≤ 1 + x * x * x / 3; linarith [div_nonneg hz (by norm_num : (0:α) ≤ 3)])
    (by norm_num)
  obtain ⟨n2, r2, h2⟩ := derivLoop_returns_of_step E (x * x * x) _
    (derivLoop_returns E hM (x * x * x) hz j _ a b (by rw [c]; norm_num) d
      (by rw [c]; show 2 * (x * x * x) ≤ (4 : α) + 3 + 3 * j; linarith))
  exact ⟨max n1 n2, r1, r2, fun fuel hf =>
    ⟨h1 fuel (le_trans (le_max_left _ _) hf), h2 fuel (le_trans (le_max_right _ _) hf)⟩⟩

/-- For x >= 0 and MACHEP > 0 the four power-series values are produced, the
same for all sufficiently large fuel. -/
theorem seriesValues_returns (E : Elem α) (hM : 0 < E.MACHEP) (x : α) (hx : 0 ≤ x) :
    ∃ n v, ∀ fuel, n ≤ fuel → seriesValues E fuel x = .ok v := by
  obtain ⟨n, s, d, h⟩ := seriesLoops_return E hM x hx
  refine ⟨n, ⟨c1 * s.f - c2 * s.g, c1 * d.f - c2 * d.g,
    sqrt3 * (c1 * s.f + c2 * s.g), sqrt3 * (c1 * d.f + c2 * d.g)⟩, fun fuel hf => ?_⟩
  simp only [seriesValues, (h fuel hf).1, (h fuel hf).2, bind, Except.bind, pure, Except.pure]

/-- C16 (as amended): for every x with 2.09 <= x <= 25.77, with t = sqrt(x),
zeta = (2/3)*x*t, g = exp(zeta), z = 1/zeta and
f = polevl(z, AN, 7)/polevl(z, AD, 7), airy sets Ai = sqpii*f/(2*sqrt(t)*g): the
denominator holds the fourth root sqrt(sqrt(x)), since the code replaces t by
sqrt(t) before it forms k = 2*t*g.  Every returned result carries this Ai, and
with MACHEP > 0 the call returns status 0 for all sufficiently large fuel. -/
theorem airy_exponential_ai (E : Elem α) (o : AiryOut α) (x : α)
    (hlo : 2.09 ≤ x) (hhi : x ≤ 25.77) :
    let t := E.sqrt x
    let zeta := 2 / 3 * x * t
    let g := E.exp zeta
    let z := 1 / zeta
    ∃ pn pd : α,
      torch_cephes_polevl z AN 7 = .ok pn ∧
      torch_cephes_polevl z AD 7 = .ok pd ∧
      (∀ fuel status r, torch_cephes_airy E fuel o x = .ok (status, r) →
        r.ai = sqpii * (pn / pd) / (2 * E.sqrt t * g)) ∧
      (0 < E.MACHEP →
        ∃ n r, ∀ fuel, n ≤ fuel → torch_cephes_airy E fuel o x = .ok (0, r)) := by
  have hzeta : 2 / 3 * x * E.sqrt x = 2 * x * E.sqrt x / 3 := by ring
  have hx0 : 0 ≤ x := le_trans (by norm_num) hlo
  dsimp only
  simp only [hzeta]
  refine ⟨_, _, polevl_ok _ AN 7 (by simp [AN]), polevl_ok _ AD 7 (by simp [AD]), ?_, ?_⟩
  · intro fuel status r hr
    by_cases h8 : x > 8.3203353
    · obtain ⟨b, hb⟩ := expBiValues_ok E x
      rw [airy_exponential E fuel o x h8 (by simpa [MAXAIRY] using hhi), expAiValues_eq, hb] at hr
      simp only [bind, Except.bind, pure, Except.pure, Except.ok.injEq, Prod.mk.injEq] at hr
      rw [← hr.2]
    · rw [airy_mixed E fuel o x hlo (not_lt.mp h8), expAiValues_eq] at hr
      cases hv : seriesValues E fuel x with
      | error e => simp [hv, bind, Except.bind] at hr
      | ok v =>
        simp only [hv, bind, Except.bind, pure, Except.pure, Except.ok.injEq,
          Prod.mk.injEq] at hr
        rw [← hr.2]
  · intro hM
    obtain ⟨a, ha⟩ : ∃ a, expAiValues E x = .ok a := ⟨_, expAiValues_eq E x⟩
    by_cases h8 : x > 8.3203353
    · obtain ⟨b, hb⟩ := expBiValues_ok E x
      refine ⟨0, ⟨a.1, a.2, b.1, b.2⟩, fun fuel _ => ?_⟩
      rw [airy_exponential E fuel o x h8 (by simpa [MAXAIRY] using hhi), ha, hb]
      rfl
    · obtain ⟨n, v, hv⟩ := seriesValues_returns E hM x hx0
      refine ⟨n, ⟨a.1, a.2, v.bi, v.bip⟩, fun fuel hf => ?_⟩
      rw [airy_mixed E fuel o x hlo (not_lt.mp h8), ha, hv fuel hf]
      rfl

end ExponentialAi

section ExponentialAiInstances

/-- Witness for C16 (as amended) at x = 9 on the rational instance. -/
theorem airy_exponential_ai_witness :
    (2.09 : ℚ) ≤ 9 ∧ (9 : ℚ) ≤ 25.77 ∧
    (let t := ratElem.sqrt (9 : ℚ)
     let zeta := 2 / 3 * (9 : ℚ) * t
     let g := ratElem.exp zeta
     let z := 1 / zeta
     ∃ pn pd : ℚ,
       torch_cephes_polevl z AN 7 = .ok pn ∧
       torch_cephes_polevl z AD 7 = .ok pd ∧
       (∀ fuel status r, torch_cephes_airy ratElem fuel ⟨0, 0, 0, 0⟩ 9 = .ok (status, r) →
         r.ai = sqpii * (pn / pd) / (2 * ratElem.sqrt t * g)) ∧
       (0 < ratElem.MACHEP →
         ∃ n r, ∀ fuel, n ≤ fuel →
           torch_cephes_airy ratElem fuel ⟨0, 0, 0, 0⟩ 9 = .ok (0, r))) :=
  ⟨by norm_num, by norm_num,
    airy_exponential_ai ratElem ⟨0, 0, 0, 0⟩ 9 (by norm_num) (by norm_num)⟩

/-- C16 (counterexample): at x = 16 with the real elementary functions, sqrt(x) = 4
and the Ai returned by airy has the denominator 2*sqrt(4)*g = 4*g, not 2*t*g = 8*g
with t = sqrt(x). -/
theorem airy_exponential_ai_differs :
    ((2.09 : ℝ) ≤ 16 ∧ (16 : ℝ) ≤ 25.77) ∧
    (let t := Real.sqrt 16
     let zeta := 2 / 3 * (16 : ℝ) * t
     let g := Real.exp zeta
     let z := 1 / zeta
     ∃ pn pd : ℝ,
       torch_cephes_polevl z AN 7 = .ok pn ∧
       torch_cephes_polevl z AD 7 = .ok pd ∧
       ∃ r : AiryOut ℝ,
         torch_cephes_airy (⟨Real.sin, Real.cos, Real.exp, Real.sqrt, fun a y => a ^ y,
           Real.Gamma, Real.pi, 2 ^ 1024 - 2 ^ 971, 1 / 2 ^ 53⟩ : Elem ℝ) 0 ⟨0, 0, 0, 0⟩ 16
             = .ok (0, r) ∧
         r.ai ≠ sqpii * (pn / pd) / (2 * t * g)) := by
  have h16 : Real.sqrt 16 = 4 := by
    rw [show (16 : ℝ) = 4 ^ 2 by norm_num]
    exact Real.sqrt_sq (by norm_num)
  have h4 : Real.sqrt 4 = 2 := by
    rw [show (4 : ℝ) = 2 ^ 2 by norm_num]
    exact Real.sqrt_sq (by norm_num)
  have hz1 : (2 : ℝ) / 3 * 16 * 4 = 128 / 3 := by norm_num
  have hz2 : (2 : ℝ) * 16 * 4 / 3 = 128 / 3 := by norm_num
  refine ⟨⟨by norm_num, by norm_num⟩, ?_⟩
  dsimp only
  simp only [h16, hz1]
  refine ⟨_, _, @polevl_ok ℝ _ _ AN 7 (by simp [AN]), @polevl_ok ℝ _ _ AD 7 (by simp [AD]), ?_⟩
  obtain ⟨b, hb⟩ := expBiValues_ok (⟨Real.sin, Real.cos, Real.exp, Real.sqrt, fun a y => a ^ y,
    Real.Gamma, Real.pi, 2 ^ 1024 - 2 ^ 971, 1 / 2 ^ 53⟩ : Elem ℝ) 16
  rw [airy_exponential _ 0 ⟨0, 0, 0, 0⟩ 16 (by norm_num) (by norm_num [MAXAIRY]),
    expAiValues_eq, hb]
  simp only [bind, Except.bind, pure, Except.pure, h16, h4, hz2]
  refine ⟨_, rfl, ?_⟩
  have he : 0 < Real.exp (128 / 3) := Real.exp_pos _
  have hc : 0 < sqpii * ((AN.take (7 + 1)).foldl (fun acc c => acc * (1 / (128 / 3 : ℝ)) + c) 0
      / (AD.take (7 + 1)).foldl (fun acc c => acc * (1 / (128 / 3 : ℝ)) + c) 0) := by
    simp only [AN, AD, sqpii, List.take, List.foldl]
    norm_num
  intro h
  rw [div_eq_div_iff (by positivity) (by positivity)] at h
  nlinarith [mul_pos hc he]

end ExponentialAiInstances

section PowerSeriesValues

variable {α : Type} [LinearOrderedField α] [Archimedean α]

/-- Values of the power-series branch in exact arithmetic.  For every x with
-2.09 <= x < 2.09, when the first power-series loop ends with the sums f, g and
the second with the sums f1, g1, airy returns status 0 with Ai = c1*f - c2*g,
Bi = sqrt3*(c1*f + c2*g), Aip = c1*f1 - c2*g1 and Bip = sqrt3*(c1*f1 + c2*g1).
The call can fail only by a loop running out of fuel, and for 0 <= x with
MACHEP > 0 both loops end, so that the call returns these values for all
sufficiently large fuel.  For -2.09 <= x < 0 the end of the loops is a hypothesis:
in exact arithmetic it does not hold near a zero of a sum. -/
theorem airy_power_series_values (E : Elem α) (fuel : Nat) (o : AiryOut α) (x : α)
    (hlo : -2.09 ≤ x) (hhi : x < 2.09) :
    (∀ s d : Series α,
      seriesLoop E (x * x * x) fuel ⟨1, x, 1, 1, x, 1⟩ = .ok s →
      derivLoop E (x * x * x) fuel
        ⟨x * x / 2, 1 + x * x * x / 3, 1, x * x / 2 / 3, x * x * x / 3, 4⟩ = .ok d →
      ∃ r : AiryOut α, torch_cephes_airy E fuel o x = .ok (0, r) ∧
        r.ai = c1 * s.f - c2 * s.g ∧ r.bi = sqrt3 * (c1 * s.f + c2 * s.g) ∧
        r.aip = c1 * d.f - c2 * d.g ∧ r.bip = sqrt3 * (c1 * d.f + c2 * d.g)) ∧
    (∀ e, torch_cephes_airy E fuel o x = .error e → e = Fault.fuel) ∧
    (0 ≤ x → 0 < E.MACHEP →
      ∃ n, ∃ s d : Series α, ∀ fuel1, n ≤ fuel1 →
        seriesLoop E (x * x * x) fuel1 ⟨1, x, 1, 1, x, 1⟩ = .ok s ∧
        derivLoop E (x * x * x) fuel1
          ⟨x * x / 2, 1 + x * x * x / 3, 1, x * x / 2 / 3, x * x * x / 3, 4⟩ = .ok d ∧
        torch_cephes_airy E fuel1 o x
          = .ok (0, ⟨c1 * s.f - c2 * s.g, c1 * d.f - c2 * d.g,
                     sqrt3 * (c1 * s.f + c2 * s.g), sqrt3 * (c1 * d.f + c2 * d.g)⟩)) := by
  have hval : ∀ (fl : Nat) (s d : Series α),
      seriesLoop E (x * x * x) fl ⟨1, x, 1, 1, x, 1⟩ = .ok s →
      derivLoop E (x * x * x) fl
        ⟨x * x / 2, 1 + x * x * x / 3, 1, x * x / 2 / 3, x * x * x / 3, 4⟩ = .ok d →
      torch_cephes_airy E fl o x
        = .ok (0, ⟨c1 * s.f - c2 * s.g, c1 * d.f - c2 * d.g,
                   sqrt3 * (c1 * s.f + c2 * s.g), sqrt3 * (c1 * d.f + c2 * d.g)⟩) := by
    intro fl s d hs hd
    rw [airy_power_series E fl o x hlo hhi]
    simp only [seriesValues, hs, hd, bind, Except.bind, pure, Except.pure]
  refine ⟨fun s d hs hd => ⟨_, hval fuel s d hs hd, rfl, rfl, rfl, rfl⟩, ?_, ?_⟩
  · intro e he
    obtain ⟨dflg, o1, h⟩ := airy_series_region E o x hlo (le_trans hhi.le (by norm_num))
    rw [h fuel] at he
    rcases airySeries_outcome E fuel dflg o1 x with h1 | ⟨r, h1⟩
    · rw [h1] at he
      exact (Except.error.inj he).symm
    · rw [h1] at he
      exact absurd he (by simp)
  · intro hx hM
    obtain ⟨n, s, d, h⟩ := seriesLoops_return E hM x hx
    exact ⟨n, s, d, fun fuel1 hf =>
      ⟨(h fuel1 hf).1, (h fuel1 hf).2, hval fuel1 s d (h fuel1 hf).1 (h fuel1 hf).2⟩⟩

/-- The values of the power-series branch at x = 1 on the rational instance. -/
theorem airy_power_series_values_witness :
    (-2.09 : ℚ) ≤ 1 ∧ (1 : ℚ) < 2.09 ∧ (0 : ℚ) ≤ 1 ∧ 0 < ratElem.MACHEP ∧
    ∃ n, ∃ s d : Series ℚ, ∀ fuel1, n ≤ fuel1 →
      seriesLoop ratElem ((1 : ℚ) * 1 * 1) fuel1 ⟨1, 1, 1, 1, 1, 1⟩ = .ok s ∧
      derivLoop ratElem ((1 : ℚ) * 1 * 1) fuel1
        ⟨1 * 1 / 2, 1 + 1 * 1 * 1 / 3, 1, 1 * 1 / 2 / 3, 1 * 1 * 1 / 3, 4⟩ = .ok d ∧
      torch_cephes_airy ratElem fuel1 ⟨0, 0, 0, 0⟩ 1
        = .ok (0, ⟨c1 * s.f - c2 * s.g, c1 * d.f - c2 * d.g,
                   sqrt3 * (c1 * s.f + c2 * s.g), sqrt3 * (c1 * d.f + c2 * d.g)⟩) :=
  ⟨by norm_num, by norm_num, by norm_num, by norm_num [ratElem],
    (airy_power_series_values ratElem 0 ⟨0, 0, 0, 0⟩ 1 (by norm_num) (by norm_num)).2.2
      (by norm_num) (by norm_num [ratElem])⟩

end PowerSeriesValues

section ZetaRegimes

variable {α : Type} [LinearOrderedField α] [FloorRing α]

/-- An argument in [0, 127) that is not an integer below 31 reaches the part of
zetac after the table lookup. -/
theorem zetac_falls_through (E : Elem α) (loopFuel depth : Nat) (x : α)
    (h0 : ¬ x < 0) (h127 : ¬ x ≥ MAXL2)
    (ht : ¬ (((⌊x⌋ : Int) : α) = x ∧ truncInt x < 31)) :
    torch_cephes_zetac E loopFuel (depth + 1) x = zetacRest E loopFuel x := by
  by_cases hw : ((⌊x⌋ : Int) : α) = x
  · have hi : ¬ truncInt x < 31 := fun h => ht ⟨hw, h⟩
    simp only [torch_cephes_zetac, h0, h127, hw, hi, if_true, if_false]
  · simp only [torch_cephes_zetac, h0, h127, hw, if_false]

/-- For x >= 0 the table test of the source holds exactly for the integers 0..30. -/
theorem table_test_iff (x : α) (h0 : 0 ≤ x) :
    (((⌊x⌋ : Int) : α) = x ∧ truncInt x < 31) ↔ (((⌊x⌋ : Int) : α) = x ∧ x ≤ 30) := by
  have hti : truncInt x = ⌊x⌋ := by simp [truncInt, h0]
  rw [hti]
  constructor
  · rintro ⟨hw, hi⟩
    refine ⟨hw, ?_⟩
    rw [← hw]
    have : ⌊x⌋ ≤ 30 := by omega
    exact_mod_cast this
  · rintro ⟨hw, h30⟩
    refine ⟨hw, ?_⟩
    have : ((⌊x⌋ : Int) : α) ≤ (30 : Int) := by rw [hw]; exact_mod_cast h30
    have : ⌊x⌋ ≤ 30 := by exact_mod_cast this
    omega

/-- Every x lies in one of eight ranges, and the range fixes the branch. -/
theorem zetacRegime_cases (x : α) :
    (x < -170.6243 ∧ zetacRegime x = ZetaRegime.overflow) ∨
    ((-170.6243 ≤ x ∧ x < 0) ∧ zetacRegime x = ZetaRegime.reflection) ∨
    (127 ≤ x ∧ zetacRegime x = ZetaRegime.zero) ∨
    ((((⌊x⌋ : Int) : α) = x ∧ 0 ≤ x ∧ x ≤ 30) ∧ zetacRegime x = ZetaRegime.table) ∨
    ((0 < x ∧ x < 1) ∧ zetacRegime x = ZetaRegime.rationalRS) ∨
    ((1 < x ∧ x ≤ 10 ∧ ((⌊x⌋ : Int) : α) ≠ x) ∧ zetacRegime x = ZetaRegime.rationalPQ) ∨
    ((10 < x ∧ x ≤ 50 ∧ (((⌊x⌋ : Int) : α) = x → 30 < x)) ∧
      zetacRegime x = ZetaRegime.expAB) ∨
    ((50 < x ∧ x < 127) ∧ zetacRegime x = ZetaRegime.directSum) := by
  unfold zetacRegime
  by_cases hneg : x < 0
  · rw [if_pos hneg]
    by_cases hcut : x < -170.6243
    · exact Or.inl ⟨hcut, by rw [if_pos hcut]⟩
    · exact Or.inr (Or.inl ⟨⟨not_lt.mp hcut, hneg⟩, by rw [if_neg hcut]⟩)
  · rw [if_neg hneg]
    have h0 : 0 ≤ x := not_lt.mp hneg
    by_cases h127 : x ≥ MAXL2
    · exact Or.inr (Or.inr (Or.inl ⟨by simpa [MAXL2] using h127, by rw [if_pos h127]⟩))
    · rw [if_neg h127]
      have hlt : x < 127 := by simpa [MAXL2] using h127
      by_cases ht : ((⌊x⌋ : Int) : α) = x ∧ truncInt x < 31
      · have ht2 := (table_test_iff x h0).mp ht
        exact Or.inr (Or.inr (Or.inr (Or.inl ⟨⟨ht2.1, h0, ht2.2⟩, by simp only [ht, and_self, if_true]⟩)))
      · have hnt : ¬ (((⌊x⌋ : Int) : α) = x ∧ x ≤ 30) := fun h => ht ((table_test_iff x h0).mpr h)
        simp only [ht, if_false]
        by_cases h1 : x < 1
        · have hpos : 0 < x := by
            rcases eq_or_lt_of_le h0 with h | h
            · exfalso
              apply hnt
              rw [← h]
              simp
            · exact h
          exact Or.inr (Or.inr (Or.inr (Or.inr (Or.inl ⟨⟨hpos, h1⟩, by rw [if_pos h1]⟩))))
        · rw [if_neg h1]
          have hne1 : ¬ x = 1 := by
            intro h
            apply hnt
            rw [h]
            simp
          rw [if_neg hne1]
          have hgt1 : 1 < x := lt_of_le_of_ne (not_lt.mp h1) (Ne.symm hne1)
          by_cases h10 : x ≤ 10
          · have hni : ((⌊x⌋ : Int) : α) ≠ x := fun h => hnt ⟨h, le_trans h10 (by norm_num)⟩
            exact Or.inr (Or.inr (Or.inr (Or.inr (Or.inr (Or.inl
              ⟨⟨hgt1, h10, hni⟩, by rw [if_pos h10]⟩)))))
          · rw [if_neg h10]
            by_cases h50 : x ≤ 50
            · have hint : ((⌊x⌋ : Int) : α) = x → 30 < x := fun h =>
                not_le.mp (fun h30 => hnt ⟨h, h30⟩)
              exact Or.inr (Or.inr (Or.inr (Or.inr (Or.inr (Or.inr (Or.inl
                ⟨⟨not_le.mp h10, h50, hint⟩, by rw [if_pos h50]⟩))))))
            · exact Or.inr (Or.inr (Or.inr (Or.inr (Or.inr (Or.inr (Or.inr
                ⟨⟨not_le.mp h50, hlt⟩, by rw [if_neg h50]⟩))))))

/-- No integer lies strictly between 0 and 1. -/
theorem no_integer_in_unit (x : α) (hw : ((⌊x⌋ : Int) : α) = x) (h0 : 0 < x) (h1 : x < 1) :
    False := by
  have hf : ⌊x⌋ = 0 := Int.floor_eq_zero_iff.mpr ⟨h0.le, h1⟩
  rw [hf] at hw
  simp at hw
  exact absurd hw.symm (ne_of_gt h0)

/-- Each of the eight ranges fixes the branch. -/
theorem zetacRegime_of_range (x : α) :
    (x < -170.6243 → zetacRegime x = ZetaRegime.overflow) ∧
    (-170.6243 ≤ x ∧ x < 0 → zetacRegime x = ZetaRegime.reflection) ∧
    (127 ≤ x → zetacRegime x = ZetaRegime.zero) ∧
    (((⌊x⌋ : Int) : α) = x ∧ 0 ≤ x ∧ x ≤ 30 → zetacRegime x = ZetaRegime.table) ∧
    (0 < x ∧ x < 1 → zetacRegime x = ZetaRegime.rationalRS) ∧
    (1 < x ∧ x ≤ 10 ∧ ((⌊x⌋ : Int) : α) ≠ x → zetacRegime x = ZetaRegime.rationalPQ) ∧
    (10 < x ∧ x ≤ 50 ∧ (((⌊x⌋ : Int) : α) = x → 30 < x) →
      zetacRegime x = ZetaRegime.expAB) ∧
    (50 < x ∧ x < 127 → zetacRegime x = ZetaRegime.directSum) := by
  refine ⟨?_, ?_, ?_, ?_, ?_, ?_, ?_, ?_⟩
  all_goals
    intro hR
    rcases zetacRegime_cases x with ⟨hr, hp⟩ | ⟨hr, hp⟩ | ⟨hr, hp⟩ | ⟨hr, hp⟩ | ⟨hr, hp⟩ |
      ⟨hr, hp⟩ | ⟨hr, hp⟩ | ⟨hr, hp⟩
  all_goals first
    | exact hp
    | (exfalso; linarith [hR.1, hr.1])
    | (exfalso; linarith [hR, hr.1])
    | (exfalso; linarith [hR.1, hr])
    | (exfalso; linarith [hR, hr])
    | (exfalso; exact hR.2.2 hr.1)
    | (exfalso; exact hr.2.2 hR.1)
    | (exfalso; linarith [hR.2.2 hr.1, hr.2.2])
    | (exfalso; linarith [hr.2.2 hR.1, hR.2.2])
    | (exfalso; exact no_integer_in_unit x hR.1 hr.1 hr.2)
    | (exfalso; exact no_integer_in_unit x hr.1 hR.1 hR.2)

/-- The branch fixes the range, and the singular branch is never taken. -/
theorem zetacRegime_range (x : α) :
    (zetacRegime x = ZetaRegime.overflow → x < -170.6243) ∧
    (zetacRegime x = ZetaRegime.reflection → -170.6243 ≤ x ∧ x < 0) ∧
    (zetacRegime x = ZetaRegime.zero → 127 ≤ x) ∧
    (zetacRegime x = ZetaRegime.table → ((⌊x⌋ : Int) : α) = x ∧ 0 ≤ x ∧ x ≤ 30) ∧
    (zetacRegime x = ZetaRegime.rationalRS → 0 < x ∧ x < 1) ∧
    (zetacRegime x = ZetaRegime.rationalPQ → 1 < x ∧ x ≤ 10 ∧ ((⌊x⌋ : Int) : α) ≠ x) ∧
    (zetacRegime x = ZetaRegime.expAB →
      10 < x ∧ x ≤ 50 ∧ (((⌊x⌋ : Int) : α) = x → 30 < x)) ∧
    (zetacRegime x = ZetaRegime.directSum → 50 < x ∧ x < 127) ∧
    zetacRegime x ≠ ZetaRegime.singular := by
  refine ⟨?_, ?_, ?_, ?_, ?_, ?_, ?_, ?_, ?_⟩
  all_goals
    intro h
    rcases zetacRegime_cases x with ⟨hr, hp⟩ | ⟨hr, hp⟩ | ⟨hr, hp⟩ | ⟨hr, hp⟩ | ⟨hr, hp⟩ |
      ⟨hr, hp⟩ | ⟨hr, hp⟩ | ⟨hr, hp⟩
  all_goals first
    | exact hr
    | (rw [hp] at h; exact absurd h (by decide))

/-- The result of zetac, branch by branch. -/
theorem zetac_eq_by_regime (E : Elem α) (loopFuel depth : Nat) (x : α) :
    torch_cephes_zetac E loopFuel (depth + 1) x
      = (match zetacRegime x with
          | ZetaRegime.overflow => .ok ⟨0, [MthCode.OVERFLOW]⟩
          | ZetaRegime.reflection =>
              (torch_cephes_zetac E loopFuel depth (1 - x)).map (fun r =>
                ⟨E.sin (0.5 * E.PI * x) * E.pow (2 * E.PI) x * E.gamma (1 - x)
                  * (1 + r.val) / E.PI - 1, r.errs⟩)
          | ZetaRegime.zero => .ok ⟨0, []⟩
          | ZetaRegime.table => (readTable azetac (truncInt x)).map (fun v => ⟨v, []⟩)
          | ZetaRegime.rationalRS => do
              let p ← torch_cephes_polevl x R 5
              let q ← torch_cephes_p1evl x S 5
              pure ⟨p / ((1 - x) * q), []⟩
          | ZetaRegime.singular => .ok ⟨E.MAXNUM, [MthCode.SING]⟩
          | ZetaRegime.rationalPQ => do
              let p ← torch_cephes_polevl (1 / x) P 8
              let q ← torch_cephes_p1evl (1 / x) Q 8
              pure ⟨(x * p) / (E.pow 2 x * (x - 1) * q), []⟩
          | ZetaRegime.expAB => do
              let p ← torch_cephes_polevl x A 10
              let q ← torch_cephes_p1evl x B 10
              pure ⟨E.exp (p / q) + E.pow 2 (-x), []⟩
          | ZetaRegime.directSum => do
              let s ← zetacSum E x loopFuel 1 0
              pure ⟨(s + E.pow 2 (-x)) / (1 - E.pow 2 (-x)), []⟩) := by
  rcases zetacRegime_cases x with ⟨hr, hp⟩ | ⟨hr, hp⟩ | ⟨hr, hp⟩ | ⟨hr, hp⟩ | ⟨hr, hp⟩ |
    ⟨hr, hp⟩ | ⟨hr, hp⟩ | ⟨hr, hp⟩
  · rw [hp]
    have h0 : x < 0 := lt_trans hr (by norm_num)
    simp only [torch_cephes_zetac, h0, hr, if_true]
  · rw [hp]
    have hcut : ¬ x < -170.6243 := not_lt.mpr hr.1
    simp only [torch_cephes_zetac, hr.2, hcut, if_true, if_false]
    cases torch_cephes_zetac E loopFuel depth (1 - x) <;> rfl
  · rw [hp]
    have h0 : ¬ x < 0 := not_lt.mpr (le_trans (by norm_num) hr)
    have h1 : x ≥ MAXL2 := by simpa [MAXL2] using hr
    simp only [torch_cephes_zetac, h0, h1, if_true, if_false]
  · rw [hp]
    have h0 : ¬ x < 0 := not_lt.mpr hr.2.1
    have h1 : ¬ x ≥ MAXL2 := by
      have : x < 127 := lt_of_le_of_lt hr.2.2 (by norm_num)
      simpa [MAXL2] using this
    have ht := (table_test_iff x hr.2.1).mpr ⟨hr.1, hr.2.2⟩
    simp only [torch_cephes_zetac, h0, h1, ht.1, ht.2, if_true, if_false]
    cases readTable (azetac : List α) (truncInt x) <;> rfl
  · rw [hp]
    have h0 : ¬ x < 0 := not_lt.mpr hr.1.le
    have h1 : ¬ x ≥ MAXL2 := by
      have : x < 127 := lt_trans hr.2 (by norm_num)
      simpa [MAXL2] using this
    have ht : ¬ (((⌊x⌋ : Int) : α) = x ∧ truncInt x < 31) := fun h =>
      no_integer_in_unit x h.1 hr.1 hr.2
    rw [zetac_falls_through E loopFuel depth x h0 h1 ht]
    simp only [zetacRest, hr.2, if_true]
  · rw [hp]
    have hx0 : 0 ≤ x := le_trans zero_le_one hr.1.le
    have h0 : ¬ x < 0 := not_lt.mpr hx0
    have h1 : ¬ x ≥ MAXL2 := by
      have : x < 127 := lt_of_le_of_lt hr.2.1 (by norm_num)
      simpa [MAXL2] using this
    have ht : ¬ (((⌊x⌋ : Int) : α) = x ∧ truncInt x < 31) := fun h => hr.2.2 h.1
    have c1 : ¬ x < 1 := not_lt.mpr hr.1.le
    have c2 : ¬ x = 1 := ne_of_gt hr.1
    rw [zetac_falls_through E loopFuel depth x h0 h1 ht]
    simp only [zetacRest, c1, c2, hr.2.1, if_true, if_false]
  · rw [hp]
    have hx0 : 0 ≤ x := le_trans (by norm_num) hr.1.le
    have h0 : ¬ x < 0 := not_lt.mpr hx0
    have h1 : ¬ x ≥ MAXL2 := by
      have : x < 127 := lt_of_le_of_lt hr.2.1 (by norm_num)
      simpa [MAXL2] using this
    have ht : ¬ (((⌊x⌋ : Int) : α) = x ∧ truncInt x < 31) := fun h =>
      absurd ((table_test_iff x hx0).mp h).2 (not_le.mpr (hr.2.2 h.1))
    have c1 : ¬ x < 1 := not_lt.mpr (le_trans (by norm_num) hr.1.le)
    have c2 : ¬ x = 1 := ne_of_gt (lt_trans (by norm_num) hr.1)
    have c3 : ¬ x ≤ 10 := not_le.mpr hr.1
    rw [zetac_falls_through E loopFuel depth x h0 h1 ht]
    simp only [zetacRest, c1, c2, c3, hr.2.1, if_true, if_false]
  · rw [hp]
    have hx0 : 0 ≤ x := le_trans (by norm_num) hr.1.le
    have h0 : ¬ x < 0 := not_lt.mpr hx0
    have h1 : ¬ x ≥ MAXL2 := by simpa [MAXL2] using hr.2
    have ht : ¬ (((⌊x⌋ : Int) : α) = x ∧ truncInt x < 31) := fun h =>
      absurd ((table_test_iff x hx0).mp h).2 (not_le.mpr (lt_trans (by norm_num) hr.1))
    have c1 : ¬ x < 1 := not_lt.mpr (le_trans (by norm_num) hr.1.le)
    have c2 : ¬ x = 1 := ne_of_gt (lt_trans (by norm_num) hr.1)
    have c3 : ¬ x ≤ 10 := not_le.mpr (lt_trans (by norm_num) hr.1)
    have c4 : ¬ x ≤ 50 := not_le.mpr hr.1
    rw [zetac_falls_through E loopFuel depth x h0 h1 ht]
    simp only [zetacRest, c1, c2, c3, c4, if_false]

/-- C12: zeta regime selection is disjoint and exhaustive.  The branch taken on
x is: overflow exactly for x < -170.6243; reflection exactly for
-170.6243 <= x < 0; zero exactly for x >= 127; the table exactly for the integers
0..30; the R/S form exactly for 0 < x < 1; the P/Q form exactly for the
non-integers in (1, 10]; the exp(A/B) + 2^-x form exactly for the x in (10, 50]
that are not integers up to 30; direct summation exactly for 50 < x < 127; the
singular branch for no x.  The result of zetac is the one of that branch, and
the boundary values 0, 1, 10 are served by the table, 50 by the exp(A/B) form
and -170.6243 by reflection. -/
theorem zeta_regime_selection (E : Elem α) (loopFuel depth : Nat) (x : α) :
    (zetacRegime x = ZetaRegime.overflow ↔ x < -170.6243) ∧
    (zetacRegime x = ZetaRegime.reflection ↔ -170.6243 ≤ x ∧ x < 0) ∧
    (zetacRegime x = ZetaRegime.zero ↔ 127 ≤ x) ∧
    (zetacRegime x = ZetaRegime.table ↔ ((⌊x⌋ : Int) : α) = x ∧ 0 ≤ x ∧ x ≤ 30) ∧
    (zetacRegime x = ZetaRegime.rationalRS ↔ 0 < x ∧ x < 1) ∧
    (zetacRegime x = ZetaRegime.rationalPQ ↔ 1 < x ∧ x ≤ 10 ∧ ((⌊x⌋ : Int) : α) ≠ x) ∧
    (zetacRegime x = ZetaRegime.expAB ↔
      10 < x ∧ x ≤ 50 ∧ (((⌊x⌋ : Int) : α) = x → 30 < x)) ∧
    (zetacRegime x = ZetaRegime.directSum ↔ 50 < x ∧ x < 127) ∧
    zetacRegime x ≠ ZetaRegime.singular ∧
    torch_cephes_zetac E loopFuel (depth + 1) x
      = (match zetacRegime x with
          | ZetaRegime.overflow => .ok ⟨0, [MthCode.OVERFLOW]⟩
          | ZetaRegime.reflection =>
              (torch_cephes_zetac E loopFuel depth (1 - x)).map (fun r =>
                ⟨E.sin (0.5 * E.PI * x) * E.pow (2 * E.PI) x * E.gamma (1 - x)
                  * (1 + r.val) / E.PI - 1, r.errs⟩)
          | ZetaRegime.zero => .ok ⟨0, []⟩
          | ZetaRegime.table => (readTable azetac (truncInt x)).map (fun v => ⟨v, []⟩)
          | ZetaRegime.rationalRS => do
              let p ← torch_cephes_polevl x R 5
              let q ← torch_cephes_p1evl x S 5
              pure ⟨p / ((1 - x) * q), []⟩
          | ZetaRegime.singular => .ok ⟨E.MAXNUM, [MthCode.SING]⟩
          | ZetaRegime.rationalPQ => do
              let p ← torch_cephes_polevl (1 / x) P 8
              let q ← torch_cephes_p1evl (1 / x) Q 8
              pure ⟨(x * p) / (E.pow 2 x * (x - 1) * q), []⟩
          | ZetaRegime.expAB => do
              let p ← torch_cephes_polevl x A 10
              let q ← torch_cephes_p1evl x B 10
              pure ⟨E.exp (p / q) + E.pow 2 (-x), []⟩
          | ZetaRegime.directSum => do
              let s ← zetacSum E x loopFuel 1 0
              pure ⟨(s + E.pow 2 (-x)) / (1 - E.pow 2 (-x)), []⟩) ∧
    zetacRegime (0 : α) = ZetaRegime.table ∧
    zetacRegime (1 : α) = ZetaRegime.table ∧
    zetacRegime (10 : α) = ZetaRegime.table ∧
    zetacRegime (50 : α) = ZetaRegime.expAB ∧
    zetacRegime (-170.6243 : α) = ZetaRegime.reflection := by
  obtain ⟨f1, f2, f3, f4, f5, f6, f7, f8, f9⟩ := zetacRegime_range x
  obtain ⟨b1, b2, b3, b4, b5, b6, b7, b8⟩ := zetacRegime_of_range x
  refine ⟨⟨f1, b1⟩, ⟨f2, b2⟩, ⟨f3, b3⟩, ⟨f4, b4⟩, ⟨f5, b5⟩, ⟨f6, b6⟩, ⟨f7, b7⟩, ⟨f8, b8⟩, f9,
    ?_, ?_, ?_, ?_, ?_, ?_⟩
  · exact zetac_eq_by_regime E loopFuel depth x
  · exact (zetacRegime_of_range (0 : α)).2.2.2.1 ⟨by simp, le_refl _, by norm_num⟩
  · exact (zetacRegime_of_range (1 : α)).2.2.2.1 ⟨by simp, by norm_num, by norm_num⟩
  · exact (zetacRegime_of_range (10 : α)).2.2.2.1 ⟨by simp, by norm_num, by norm_num⟩
  · exact (zetacRegime_of_range (50 : α)).2.2.2.2.2.2.1
      ⟨by norm_num, le_refl _, fun _ => by norm_num⟩
  · exact (zetacRegime_of_range (-170.6243 : α)).2.1 ⟨le_refl _, by norm_num⟩

end ZetaRegimes

section ZetaClaims

variable {α : Type} [LinearOrderedField α] [FloorRing α]

/-- Witness for C12 on the rational instance: 2.5 is a non-integer in (1, 10]
and takes the P/Q branch. -/
theorem zeta_regime_selection_witness :
    ((1 : ℚ) < 2.5 ∧ (2.5 : ℚ) ≤ 10 ∧ ((⌊(2.5 : ℚ)⌋ : Int) : ℚ) ≠ 2.5) ∧
    zetacRegime (2.5 : ℚ) = ZetaRegime.rationalPQ := by
  have hf : ⌊(2.5 : ℚ)⌋ = 2 := by
    rw [Int.floor_eq_iff]
    constructor <;> norm_num
  have hr : (1 : ℚ) < 2.5 ∧ (2.5 : ℚ) ≤ 10 ∧ ((⌊(2.5 : ℚ)⌋ : Int) : ℚ) ≠ 2.5 := by
    refine ⟨by norm_num, by norm_num, ?_⟩
    rw [hf]
    norm_num
  exact ⟨hr, (zeta_regime_selection ratElem 0 0 (2.5 : ℚ)).2.2.2.2.2.1.mpr hr⟩

/-- No result of zetac carries a SING report. -/
theorem zetac_no_sing (E : Elem α) (loopFuel : Nat) :
    ∀ (depth : Nat) (x : α) (r : ZOut α),
      torch_cephes_zetac E loopFuel depth x = .ok r → MthCode.SING ∉ r.errs := by
  intro depth
  induction depth with
  | zero =>
    intro x r h
    simp [torch_cephes_zetac] at h
  | succ depth ih =>
    intro x r h
    rw [zetac_eq_by_regime E loopFuel depth x] at h
    rcases zetacRegime_cases x with ⟨hr, hp⟩ | ⟨hr, hp⟩ | ⟨hr, hp⟩ | ⟨hr, hp⟩ | ⟨hr, hp⟩ |
      ⟨hr, hp⟩ | ⟨hr, hp⟩ | ⟨hr, hp⟩
    · rw [hp] at h
      simp only [Except.ok.injEq] at h
      rw [← h]
      simp
    · rw [hp] at h
      simp only at h
      cases hrec : torch_cephes_zetac E loopFuel depth (1 - x) with
      | error e => simp [hrec, Except.map] at h
      | ok r1 =>
        simp only [hrec, Except.map, Except.ok.injEq] at h
        rw [← h]
        exact ih (1 - x) r1 hrec
    · rw [hp] at h
      simp only [Except.ok.injEq] at h
      rw [← h]
      simp
    · rw [hp] at h
      simp only at h
      cases ht : readTable (azetac : List α) (truncInt x) with
      | error e => simp [ht, Except.map] at h
      | ok v =>
        simp only [ht, Except.map, Except.ok.injEq] at h
        rw [← h]
        simp
    · rw [hp] at h
      simp only [polevl_ok _ R 5 (by simp [R]), p1evl_ok _ S 5 (by simp [S]),
        bind, Except.bind, pure, Except.pure, Except.ok.injEq] at h
      rw [← h]
      simp
    · rw [hp] at h
      simp only [polevl_ok _ P 8 (by simp [P]), p1evl_ok _ Q 8 (by simp [Q]),
        bind, Except.bind, pure, Except.pure, Except.ok.injEq] at h
      rw [← h]
      simp
    · rw [hp] at h
      simp only [polevl_ok _ A 10 (by simp [A]), p1evl_ok _ B 10 (by simp [B]),
        bind, Except.bind, pure, Except.pure, Except.ok.injEq] at h
      rw [← h]
      simp
    · rw [hp] at h
      simp only at h
      cases hs : zetacSum E x loopFuel 1 0 with
      | error e => simp [hs, bind, Except.bind] at h
      | ok s1 =>
        simp only [hs, bind, Except.bind, pure, Except.pure, Except.ok.injEq] at h
        rw [← h]
        simp

/-- C13: the input x = 1 is served by the integer table lookup, which returns
entry 1 of azetac (the constant marked infinity) with no report; the branch
that reports SING is taken for no x, and no result of zetac, at any depth and
for any fuel, carries a SING report. -/
theorem zetac_singularity_bypassed (E : Elem α) :
    (azetac : List α)[1]? = some (1.70141183460469231730E38 : α) ∧
    (∀ loopFuel depth, torch_cephes_zetac E loopFuel (depth + 1) (1 : α)
      = .ok ⟨1.70141183460469231730E38, []⟩) ∧
    zetacRegime (1 : α) = ZetaRegime.table ∧
    (∀ x : α, zetacRegime x ≠ ZetaRegime.singular) ∧
    (∀ (loopFuel depth : Nat) (x : α) (r : ZOut α),
      torch_cephes_zetac E loopFuel depth x = .ok r → MthCode.SING ∉ r.errs) := by
  refine ⟨by simp [azetac], ?_, ?_, fun x => (zetacRegime_range x).2.2.2.2.2.2.2.2,
    fun loopFuel depth x r h => zetac_no_sing E loopFuel depth x r h⟩
  · intro loopFuel depth
    have h := zetac_of_int E loopFuel depth 1 (by norm_num) (by norm_num)
      (1.70141183460469231730E38 : α) (by simp [azetac])
    simpa using h
  · exact (zetacRegime_of_range (1 : α)).2.2.2.1 ⟨by simp, by norm_num, by norm_num⟩

end ZetaClaims

section ZetaPQ

variable {α : Type} [LinearOrderedField α] [FloorRing α]

/-- Value of zetac on a non-integer x in (1, 10], spelled out. -/
theorem zetac_PQ_eq (E : Elem α) (loopFuel depth : Nat) (x : α)
    (h1 : 1 < x) (h10 : x ≤ 10) (hni : ((⌊x⌋ : Int) : α) ≠ x) :
    torch_cephes_zetac E loopFuel (depth + 1) x
      = .ok ⟨(x * (P.take (8 + 1)).foldl (fun acc c => acc * (1 / x) + c) 0)
              / (E.pow 2 x * (x - 1) * (Q.take 8).foldl (fun acc c => acc * (1 / x) + c) 1),
            []⟩ := by
  rw [zetac_eq_by_regime E loopFuel depth x,
    (zetacRegime_of_range x).2.2.2.2.2.1 ⟨h1, h10, hni⟩]
  simp only [polevl_ok _ P 8 (by simp [P]), p1evl_ok _ Q 8 (by simp [Q]),
    bind, Except.bind, pure, Except.pure]

/-- C18: for every non-integer x with 1 < x <= 10 and a power function with
2^x nonzero, the value s returned by zetac satisfies the relation documented
above the tables P and Q, 2^x * (1 - 1/x) * s = P(1/x)/Q(1/x), where P(w) is the
polynomial of degree 8 with the coefficients of table P (highest degree first)
and Q(w) the monic polynomial of degree 8 with the coefficients of table Q. -/
theorem zetac_PQ_relation (E : Elem α) (loopFuel depth : Nat) (x : α)
    (h1 : 1 < x) (h10 : x ≤ 10) (hni : ((⌊x⌋ : Int) : α) ≠ x) (hpow : E.pow 2 x ≠ 0) :
    ∃ p q : α,
      torch_cephes_polevl (1 / x) P 8 = .ok p ∧
      torch_cephes_p1evl (1 / x) Q 8 = .ok q ∧
      p = ∑ i in Finset.range 9, (P : List α).getD i 0 * (1 / x) ^ (8 - i) ∧
      q = (1 / x) ^ 8 + ∑ i in Finset.range 8, (Q : List α).getD i 0 * (1 / x) ^ (7 - i) ∧
      ∃ s : α, torch_cephes_zetac E loopFuel (depth + 1) x = .ok ⟨s, []⟩ ∧
        E.pow 2 x * (1 - 1 / x) * s = p / q := by
  have hx0 : x ≠ 0 := ne_of_gt (lt_trans zero_lt_one h1)
  have hx1 : x - 1 ≠ 0 := sub_ne_zero.mpr (ne_of_gt h1)
  refine ⟨_, _, polevl_ok _ P 8 (by simp [P]), p1evl_ok _ Q 8 (by simp [Q]), ?_, ?_,
    _, zetac_PQ_eq E loopFuel depth x h1 h10 hni, ?_⟩
  · simp only [P, List.take, List.foldl, Finset.sum_range_succ, Finset.sum_range_zero,
      List.getD_cons_zero, List.getD_cons_succ]
    ring
  · simp only [Q, List.take, List.foldl, Finset.sum_range_succ, Finset.sum_range_zero,
      List.getD_cons_zero, List.getD_cons_succ]
    ring
  · generalize (P.take (8 + 1)).foldl (fun acc c => acc * (1 / x) + c) 0 = p
    generalize (Q.take 8).foldl (fun acc c => acc * (1 / x) + c) 1 = q
    by_cases hq : q = 0
    · simp [hq]
    · field_simp
      ring

/-- Witness for C18 at x = 2.5 on the rational instance. -/
theorem zetac_PQ_relation_witness :
    (1 : ℚ) < 2.5 ∧ (2.5 : ℚ) ≤ 10 ∧ ((⌊(2.5 : ℚ)⌋ : Int) : ℚ) ≠ 2.5 ∧
    ratElem.pow 2 2.5 ≠ 0 ∧
    ∃ p q : ℚ,
      torch_cephes_polevl (1 / (2.5 : ℚ)) P 8 = .ok p ∧
      torch_cephes_p1evl (1 / (2.5 : ℚ)) Q 8 = .ok q ∧
      p = ∑ i in Finset.range 9, (P : List ℚ).getD i 0 * (1 / (2.5 : ℚ)) ^ (8 - i) ∧
      q = (1 / (2.5 : ℚ)) ^ 8
        + ∑ i in Finset.range 8, (Q : List ℚ).getD i 0 * (1 / (2.5 : ℚ)) ^ (7 - i) ∧
      ∃ s : ℚ, torch_cephes_zetac ratElem 0 1 (2.5 : ℚ) = .ok ⟨s, []⟩ ∧
        ratElem.pow 2 2.5 * (1 - 1 / (2.5 : ℚ)) * s = p / q := by
  have hf : ⌊(2.5 : ℚ)⌋ = 2 := by
    rw [Int.floor_eq_iff]
    constructor <;> norm_num
  have hni : ((⌊(2.5 : ℚ)⌋ : Int) : ℚ) ≠ 2.5 := by
    rw [hf]
    norm_num
  have hpow : ratElem.pow 2 2.5 ≠ 0 := by
    simp only [ratElem, hf]
    norm_num
  exact ⟨by norm_num, by norm_num, hni, hpow,
    zetac_PQ_relation ratElem 0 0 (2.5 : ℚ) (by norm_num) (by norm_num) hni hpow⟩

/-- C19 (as amended): for every non-integer x with 1 < x <= 10, the rational
function P(1/x)/Q(1/x) in the variable 1/x stands for 2^x*(1 - 1/x)*(zeta(x) - 1)
and is divided back out with the factor x: zetac(x) = x*(P(1/x)/Q(1/x)) /
(2^x*(x - 1)). -/
theorem zetac_PQ_value (E : Elem α) (loopFuel depth : Nat) (x : α)
    (h1 : 1 < x) (h10 : x ≤ 10) (hni : ((⌊x⌋ : Int) : α) ≠ x) :
    ∃ p q : α,
      torch_cephes_polevl (1 / x) P 8 = .ok p ∧
      torch_cephes_p1evl (1 / x) Q 8 = .ok q ∧
      torch_cephes_zetac E loopFuel (depth + 1) x
        = .ok ⟨x * (p / q) / (E.pow 2 x * (x - 1)), []⟩ := by
  refine ⟨_, _, polevl_ok _ P 8 (by simp [P]), p1evl_ok _ Q 8 (by simp [Q]), ?_⟩
  rw [zetac_PQ_eq E loopFuel depth x h1 h10 hni]
  congr 2
  generalize (P.take (8 + 1)).foldl (fun acc c => acc * (1 / x) + c) 0 = p
  generalize (Q.take 8).foldl (fun acc c => acc * (1 / x) + c) 1 = q
  rw [← mul_div_assoc, div_div, mul_comm q]

/-- Witness for C19 (as amended) at x = 2.5 on the rational instance. -/
theorem zetac_PQ_value_witness :
    (1 : ℚ) < 2.5 ∧ (2.5 : ℚ) ≤ 10 ∧ ((⌊(2.5 : ℚ)⌋ : Int) : ℚ) ≠ 2.5 ∧
    ∃ p q : ℚ,
      torch_cephes_polevl (1 / (2.5 : ℚ)) P 8 = .ok p ∧
      torch_cephes_p1evl (1 / (2.5 : ℚ)) Q 8 = .ok q ∧
      torch_cephes_zetac ratElem 0 1 (2.5 : ℚ)
        = .ok ⟨2.5 * (p / q) / (ratElem.pow 2 2.5 * (2.5 - 1)), []⟩ := by
  have hf : ⌊(2.5 : ℚ)⌋ = 2 := by
    rw [Int.floor_eq_iff]
    constructor <;> norm_num
  have hni : ((⌊(2.5 : ℚ)⌋ : Int) : ℚ) ≠ 2.5 := by
    rw [hf]
    norm_num
  exact ⟨by norm_num, by norm_num, hni,
    zetac_PQ_value ratElem 0 0 (2.5 : ℚ) (by norm_num) (by norm_num) hni⟩

/-- C19 (counterexample): at x = 2.5 with the real power function, the value
returned by zetac is 2.5 times (P(1/x)/Q(1/x)) / (2^x*(x - 1)), a positive
number, and so differs from it. -/
theorem zetac_PQ_value_differs :
    ((1 : ℝ) < 2.5 ∧ (2.5 : ℝ) ≤ 10 ∧ ((⌊(2.5 : ℝ)⌋ : Int) : ℝ) ≠ 2.5) ∧
    ∃ p q s : ℝ,
      torch_cephes_polevl (1 / (2.5 : ℝ)) P 8 = .ok p ∧
      torch_cephes_p1evl (1 / (2.5 : ℝ)) Q 8 = .ok q ∧
      torch_cephes_zetac (⟨Real.sin, Real.cos, Real.exp, Real.sqrt, fun a y => a ^ y,
        Real.Gamma, Real.pi, 2 ^ 1024 - 2 ^ 971, 1 / 2 ^ 53⟩ : Elem ℝ) 0 1 (2.5 : ℝ)
          = .ok ⟨s, []⟩ ∧
      s ≠ (p / q) / ((2 : ℝ) ^ (2.5 : ℝ) * (2.5 - 1)) := by
  have hf : ⌊(2.5 : ℝ)⌋ = 2 := by
    rw [Int.floor_eq_iff]
    constructor <;> norm_num
  have hni : ((⌊(2.5 : ℝ)⌋ : Int) : ℝ) ≠ 2.5 := by
    rw [hf]
    norm_num
  refine ⟨⟨by norm_num, by norm_num, hni⟩, _, _, _,
    @polevl_ok ℝ _ _ P 8 (by simp [P]), @p1evl_ok ℝ _ _ Q 8 (by simp [Q]),
    zetac_PQ_eq _ 0 0 (2.5 : ℝ) (by norm_num) (by norm_num) hni, ?_⟩
  have hp : 0 < (P.take (8 + 1)).foldl (fun acc c => acc * (1 / (2.5 : ℝ)) + c) 0 := by
    simp only [P, List.take, List.foldl]
    norm_num
  have hq : 0 < (Q.take 8).foldl (fun acc c => acc * (1 / (2.5 : ℝ)) + c) 1 := by
    simp only [Q, List.take, List.foldl]
    norm_num
  have h2 : 0 < (2 : ℝ) ^ (2.5 : ℝ) := Real.rpow_pos_of_pos (by norm_num) _
  dsimp only
  generalize (P.take (8 + 1)).foldl (fun acc c => acc * (1 / (2.5 : ℝ)) + c) 0 = p at hp ⊢
  generalize (Q.take 8).foldl (fun acc c => acc * (1 / (2.5 : ℝ)) + c) 1 = q at hq ⊢
  generalize (2 : ℝ) ^ (2.5 : ℝ) = b at h2 ⊢
  intro h
  have e1 : 2.5 * p / (b * (2.5 - 1) * q) = 2.5 * (p / q / (b * (2.5 - 1))) := by
    field_simp
    ring
  rw [e1] at h
  have hc : 0 < p / q / (b * (2.5 - 1)) := by positivity
  linarith

end ZetaPQ

section SeriesClosedForm

variable {α : Type} [LinearOrderedField α]

/-- The denominators of the terms of the first solution are positive. -/
theorem ufDenominator_pos (n : Nat) :
    (0 : α) < ∏ j in Finset.range n, ((3 * ((j : α) + 1) - 1) * (3 * ((j : α) + 1))) := by
  apply Finset.prod_pos
  intro j _
  have : (0 : α) ≤ j := Nat.cast_nonneg j
  exact mul_pos (by linarith) (by linarith)

/-- The denominators of the terms of the second solution are positive. -/
theorem ugDenominator_pos (n : Nat) :
    (0 : α) < ∏ j in Finset.range n, ((3 * ((j : α) + 1)) * (3 * ((j : α) + 1) + 1)) := by
  apply Finset.prod_pos
  intro j _
  have : (0 : α) ≤ j := Nat.cast_nonneg j
  exact mul_pos (by linarith) (by linarith)

/-- A loop that returns has executed its body some number of times, at most the
fuel, and returns the state reached. -/
theorem seriesLoop_eq_iterate (E : Elem α) (z : α) (fuel : Nat) :
    ∀ (s r : Series α), seriesLoop E z fuel s = .ok r →
      ∃ m, m ≤ fuel ∧ r = (seriesStep z)^[m] s := by
  induction fuel with
  | zero =>
    intro s r h
    simp only [seriesLoop] at h
    split_ifs at h
    exact ⟨0, le_refl _, (Except.ok.inj h).symm⟩
  | succ fuel ih =>
    intro s r h
    simp only [seriesLoop] at h
    split_ifs at h
    · obtain ⟨m, hm, hr⟩ := ih _ _ h
      exact ⟨m + 1, by omega, by rw [hr, Function.iterate_succ_apply]⟩
    · exact ⟨0, by omega, (Except.ok.inj h).symm⟩

/-- State of the first power-series loop after n passes, in closed form. -/
theorem seriesStep_iterate (x : α) (n : Nat) :
    ((seriesStep (x * x * x))^[n] ⟨1, x, 1, 1, x, 1⟩).k = 3 * (n : α) + 1 ∧
    ((seriesStep (x * x * x))^[n] ⟨1, x, 1, 1, x, 1⟩).uf
      = x ^ (3 * n)
        / ∏ j in Finset.range n, ((3 * ((j : α) + 1) - 1) * (3 * ((j : α) + 1))) ∧
    ((seriesStep (x * x * x))^[n] ⟨1, x, 1, 1, x, 1⟩).ug
      = x ^ (3 * n + 1)
        / ∏ j in Finset.range n, ((3 * ((j : α) + 1)) * (3 * ((j : α) + 1) + 1)) ∧
    ((seriesStep (x * x * x))^[n] ⟨1, x, 1, 1, x, 1⟩).f
      = ∑ i in Finset.range (n + 1), x ^ (3 * i)
        / ∏ j in Finset.range i, ((3 * ((j : α) + 1) - 1) * (3 * ((j : α) + 1))) ∧
    ((seriesStep (x * x * x))^[n] ⟨1, x, 1, 1, x, 1⟩).g
      = ∑ i in Finset.range (n + 1), x ^ (3 * i + 1)
        / ∏ j in Finset.range i, ((3 * ((j : α) + 1)) * (3 * ((j : α) + 1) + 1)) := by
  induction n with
  | zero => simp
  | succ n ih =>
    obtain ⟨hk, huf, hug, hf, hg⟩ := ih
    have hn : (0 : α) ≤ n := Nat.cast_nonneg n
    have hP := @ufDenominator_pos α _ n
    have hQ := @ugDenominator_pos α _ n
    have e1 : ((seriesStep (x * x * x))^[n + 1] ⟨1, x, 1, 1, x, 1⟩).uf
        = x ^ (3 * (n + 1))
          / ∏ j in Finset.range (n + 1),
              ((3 * ((j : α) + 1) - 1) * (3 * ((j : α) + 1))) := by
      rw [Function.iterate_succ_apply', Finset.prod_range_succ]
      show ((seriesStep (x * x * x))^[n] ⟨1, x, 1, 1, x, 1⟩).uf * (x * x * x)
          / (((seriesStep (x * x * x))^[n] ⟨1, x, 1, 1, x, 1⟩).k + 1)
          / (((seriesStep (x * x * x))^[n] ⟨1, x, 1, 1, x, 1⟩).k + 1 + 1) = _
      rw [huf, hk]
      have h1 : (3 * (n : α) + 1 + 1) ≠ 0 := by linarith
      have h2 : (3 * (n : α) + 1 + 1 + 1) ≠ 0 := by linarith
      have h3 : (3 * ((n : α) + 1) - 1) ≠ 0 := by linarith
      have h4 : (3 * ((n : α) + 1)) ≠ 0 := by linarith
      field_simp
      ring
    have e2 : ((seriesStep (x * x * x))^[n + 1] ⟨1, x, 1, 1, x, 1⟩).ug
        = x ^ (3 * (n + 1) + 1)
          / ∏ j in Finset.range (n + 1),
              ((3 * ((j : α) + 1)) * (3 * ((j : α) + 1) + 1)) := by
      rw [Function.iterate_succ_apply', Finset.prod_range_succ]
      show ((seriesStep (x * x * x))^[n] ⟨1, x, 1, 1, x, 1⟩).ug * (x * x * x)
          / (((seriesStep (x * x * x))^[n] ⟨1, x, 1, 1, x, 1⟩).k + 1 + 1)
          / (((seriesStep (x * x * x))^[n] ⟨1, x, 1, 1, x, 1⟩).k + 1 + 1 + 1) = _
      rw [hug, hk]
      have h2 : (3 * (n : α) + 1 + 1 + 1) ≠ 0 := by linarith
      have h3 : (3 * (n : α) + 1 + 1 + 1 + 1) ≠ 0 := by linarith
      have h4 : (3 * ((n : α) + 1)) ≠ 0 := by linarith
      have h5 : (3 * ((n : α) + 1) + 1) ≠ 0 := by linarith
      field_simp
      ring
    refine ⟨?_, e1, e2, ?_, ?_⟩
    · rw [Function.iterate_succ_apply']
      show ((seriesStep (x * x * x))^[n] ⟨1, x, 1, 1, x, 1⟩).k + 1 + 1 + 1 = _
      rw [hk]
      push_cast
      ring
    · rw [Finset.sum_range_succ, ← hf, ← e1, Function.iterate_succ_apply']
      rfl
    · rw [Finset.sum_range_succ, ← hg, ← e2, Function.iterate_succ_apply']
      rfl

/-- C23: in exact arithmetic, after n >= 0 passes of the first power-series loop
of airy the state is k = 3n + 1, uf = x^(3n) / prod_{j=1..n} (3j-1)(3j),
ug = x^(3n+1) / prod_{j=1..n} (3j)(3j+1), and f, g are the sums of these terms for
the indices 0..n; successive terms satisfy (3n)(3n-1)*uf_n = x^3*uf_{n-1} and
(3n+1)(3n)*ug_n = x^3*ug_{n-1}, written here with n + 1 for n.  Every state that
the loop returns is such a state, for a number of passes bounded by the fuel. -/
theorem series_loop_closed_form (E : Elem α) (x : α) (n : Nat) :
    ((seriesStep (x * x * x))^[n] ⟨1, x, 1, 1, x, 1⟩).k = 3 * (n : α) + 1 ∧
    ((seriesStep (x * x * x))^[n] ⟨1, x, 1, 1, x, 1⟩).uf
      = x ^ (3 * n)
        / ∏ j in Finset.range n, ((3 * ((j : α) + 1) - 1) * (3 * ((j : α) + 1))) ∧
    ((seriesStep (x * x * x))^[n] ⟨1, x, 1, 1, x, 1⟩).ug
      = x ^ (3 * n + 1)
        / ∏ j in Finset.range n, ((3 * ((j : α) + 1)) * (3 * ((j : α) + 1) + 1)) ∧
    ((seriesStep (x * x * x))^[n] ⟨1, x, 1, 1, x, 1⟩).f
      = ∑ i in Finset.range (n + 1), x ^ (3 * i)
        / ∏ j in Finset.range i, ((3 * ((j : α) + 1) - 1) * (3 * ((j : α) + 1))) ∧
    ((seriesStep (x * x * x))^[n] ⟨1, x, 1, 1, x, 1⟩).g
      = ∑ i in Finset.range (n + 1), x ^ (3 * i + 1)
        / ∏ j in Finset.range i, ((3 * ((j : α) + 1)) * (3 * ((j : α) + 1) + 1)) ∧
    (3 * ((n : α) + 1)) * (3 * ((n : α) + 1) - 1)
        * ((seriesStep (x * x * x))^[n + 1] ⟨1, x, 1, 1, x, 1⟩).uf
      = x ^ 3 * ((seriesStep (x * x * x))^[n] ⟨1, x, 1, 1, x, 1⟩).uf ∧
    (3 * ((n : α) + 1) + 1) * (3 * ((n : α) + 1))
        * ((seriesStep (x * x * x))^[n + 1] ⟨1, x, 1, 1, x, 1⟩).ug
      = x ^ 3 * ((seriesStep (x * x * x))^[n] ⟨1, x, 1, 1, x, 1⟩).ug ∧
    (∀ (fuel : Nat) (r : Series α),
      seriesLoop E (x * x * x) fuel ⟨1, x, 1, 1, x, 1⟩ = .ok r →
        ∃ m, m ≤ fuel ∧ r = (seriesStep (x * x * x))^[m] ⟨1, x, 1, 1, x, 1⟩) := by
  obtain ⟨hk, huf, hug, hf, hg⟩ := seriesStep_iterate x n
  have hn : (0 : α) ≤ n := Nat.cast_nonneg n
  refine ⟨hk, huf, hug, hf, hg, ?_, ?_, fun fuel r h => seriesLoop_eq_iterate E _ fuel _ r h⟩
  · rw [Function.iterate_succ_apply']
    show _ * (((seriesStep (x * x * x))^[n] ⟨1, x, 1, 1, x, 1⟩).uf * (x * x * x)
        / (((seriesStep (x * x * x))^[n] ⟨1, x, 1, 1, x, 1⟩).k + 1)
        / (((seriesStep (x * x * x))^[n] ⟨1, x, 1, 1, x, 1⟩).k + 1 + 1)) = _
    rw [hk]
    have h1 : (3 * (n : α) + 1 + 1) ≠ 0 := by linarith
    have h2 : (3 * (n : α) + 1 + 1 + 1) ≠ 0 := by linarith
    field_simp
    ring
  · rw [Function.iterate_succ_apply']
    show _ * (((seriesStep (x * x * x))^[n] ⟨1, x, 1, 1, x, 1⟩).ug * (x * x * x)
        / (((seriesStep (x * x * x))^[n] ⟨1, x, 1, 1, x, 1⟩).k + 1 + 1)
        / (((seriesStep (x * x * x))^[n] ⟨1, x, 1, 1, x, 1⟩).k + 1 + 1 + 1)) = _
    rw [hk]
    have h2 : (3 * (n : α) + 1 + 1 + 1) ≠ 0 := by linarith
    have h3 : (3 * (n : α) + 1 + 1 + 1 + 1) ≠ 0 := by linarith
    field_simp
    ring

/-- A loop that returns has executed its body some number of times, at most the
fuel, and returns the state reached. -/
theorem derivLoop_eq_iterate (E : Elem α) (z : α) (fuel : Nat) :
    ∀ (s r : Series α), derivLoop E z fuel s = .ok r →
      ∃ m, m ≤ fuel ∧ r = (derivStep z)^[m] s := by
  induction fuel with
  | zero =>
    intro s r h
    simp only [derivLoop] at h
    split_ifs at h
    exact ⟨0, le_refl _, (Except.ok.inj h).symm⟩
  | succ fuel ih =>
    intro s r h
    simp only [derivLoop] at h
    split_ifs at h
    · obtain ⟨m, hm, hr⟩ := ih _ _ h
      exact ⟨m + 1, by omega, by rw [hr, Function.iterate_succ_apply]⟩
    · exact ⟨0, by omega, (Except.ok.inj h).symm⟩

/-- State of the second power-series loop after m passes, in closed form. -/
theorem derivStep_iterate (x : α) (m : Nat) :
    ((derivStep (x * x * x))^[m]
        ⟨x * x / 2, 1 + x * x * x / 3, 1, x * x / 2 / 3, x * x * x / 3, 4⟩).k
      = 3 * (m : α) + 4 ∧
    ((derivStep (x * x * x))^[m]
        ⟨x * x / 2, 1 + x * x * x / 3, 1, x * x / 2 / 3, x * x * x / 3, 4⟩).uf
      = x ^ (3 * m + 2)
        / ∏ j in Finset.range (m + 1), ((3 * ((j : α) + 1) - 1) * (3 * ((j : α) + 1))) ∧
    ((derivStep (x * x * x))^[m]
        ⟨x * x / 2, 1 + x * x * x / 3, 1, x * x / 2 / 3, x * x * x / 3, 4⟩).ug
      = (3 * ((m : α) + 1) + 1) * x ^ (3 * (m + 1))
        / ∏ j in Finset.range (m + 1), ((3 * ((j : α) + 1)) * (3 * ((j : α) + 1) + 1)) ∧
    ((derivStep (x * x * x))^[m]
        ⟨x * x / 2, 1 + x * x * x / 3, 1, x * x / 2 / 3, x * x * x / 3, 4⟩).f
      = ∑ i in Finset.range (m + 1), (3 * ((i : α) + 1)) * x ^ (3 * i + 2)
        / ∏ j in Finset.range (i + 1), ((3 * ((j : α) + 1) - 1) * (3 * ((j : α) + 1))) ∧
    ((derivStep (x * x * x))^[m]
        ⟨x * x / 2, 1 + x * x * x / 3, 1, x * x / 2 / 3, x * x * x / 3, 4⟩).g
      = ∑ i in Finset.range (m + 2), (3 * (i : α) + 1) * x ^ (3 * i)
        / ∏ j in Finset.range i, ((3 * ((j : α) + 1)) * (3 * ((j : α) + 1) + 1)) := by
  induction m with
  | zero =>
    simp only [Function.iterate_zero, id_eq, Finset.sum_range_succ, Finset.prod_range_succ,
      Finset.sum_range_zero, Finset.prod_range_zero, Nat.cast_zero, Nat.cast_one]
    refine ⟨by norm_num, ?_, ?_, ?_, ?_⟩
    · norm_num
      ring
    · norm_num
      ring
    · norm_num
      ring
    · norm_num
      ring
  | succ m ih =>
    rw [Function.iterate_succ_apply']
    generalize (derivStep (x * x * x))^[m]
      ⟨x * x / 2, 1 + x * x * x / 3, 1, x * x / 2 / 3, x * x * x / 3, 4⟩ = st at ih ⊢
    obtain ⟨hk, huf, hug, hf, hg⟩ := ih
    have hm : (0 : α) ≤ m := Nat.cast_nonneg m
    have hP := @ufDenominator_pos α _ (m + 1)
    have hQ := @ugDenominator_pos α _ (m + 1)
    rw [Finset.sum_range_succ _ (m + 1), Finset.sum_range_succ _ (m + 2), ← hf, ← hg,
      Finset.prod_range_succ _ (m + 1), Finset.prod_range_succ _ (m + 1)]
    show st.k + 1 + 1 + 1 = _ ∧ st.uf * (x * x * x) / (st.k + 1) / (st.k + 1 + 1) = _ ∧
      st.ug / st.k * (x * x * x) / (st.k + 1 + 1) = _ ∧
      st.f + st.uf * (x * x * x) / (st.k + 1) = _ ∧
      st.g + st.ug / st.k * (x * x * x) / (st.k + 1 + 1) = _
    rw [hk, huf, hug]
    generalize (∏ j in Finset.range (m + 1),
      ((3 * ((j : α) + 1) - 1) * (3 * ((j : α) + 1)))) = p at hP ⊢
    generalize (∏ j in Finset.range (m + 1),
      ((3 * ((j : α) + 1)) * (3 * ((j : α) + 1) + 1))) = q at hQ ⊢
    push_cast
    have hp : p ≠ 0 := ne_of_gt hP
    have hq : q ≠ 0 := ne_of_gt hQ
    have h4 : (3 * (m : α) + 4) ≠ 0 := by linarith
    have h5 : (3 * (m : α) + 4 + 1) ≠ 0 := by linarith
    have h6 : (3 * (m : α) + 4 + 1 + 1) ≠ 0 := by linarith
    have g1 : (3 * ((m : α) + 1 + 1) - 1) ≠ 0 := by linarith
    have g2 : (3 * ((m : α) + 1 + 1)) ≠ 0 := by linarith
    have g3 : (3 * ((m : α) + 1 + 1) + 1) ≠ 0 := by linarith
    have g4 : (3 * ((m : α) + 1) + 1) ≠ 0 := by linarith
    refine ⟨by ring, ?_, ?_, ?_, ?_⟩
    · field_simp
      ring
    · field_simp
      ring
    · congr 1
      field_simp
      ring
    · congr 1
      field_simp
      ring

end SeriesClosedForm

/-- C24: the second (derivative) power-series loop of airy sums the term-by-term
x-derivatives of the series of the first loop.  In exact real arithmetic, after
m >= 0 passes from the state that airy enters the loop with,
f = sum_{n=1..m+1} 3n * x^(3n-1) / prod_{j=1..n} (3j-1)(3j) and
g = sum_{n=0..m+1} (3n+1) * x^(3n) / prod_{j=1..n} (3j)(3j+1); these are the
derivatives at x of the sums f and g that the first loop holds after m + 1 passes;
and every state that the loop returns is such a state. -/
theorem derivative_loop_closed_form (E : Elem ℝ) (x : ℝ) (m : Nat) :
    ((derivStep (x * x * x))^[m]
        ⟨x * x / 2, 1 + x * x * x / 3, 1, x * x / 2 / 3, x * x * x / 3, 4⟩).f
      = ∑ i in Finset.range (m + 1), (3 * ((i : ℝ) + 1)) * x ^ (3 * i + 2)
        / ∏ j in Finset.range (i + 1), ((3 * ((j : ℝ) + 1) - 1) * (3 * ((j : ℝ) + 1))) ∧
    ((derivStep (x * x * x))^[m]
        ⟨x * x / 2, 1 + x * x * x / 3, 1, x * x / 2 / 3, x * x * x / 3, 4⟩).g
      = ∑ i in Finset.range (m + 2), (3 * (i : ℝ) + 1) * x ^ (3 * i)
        / ∏ j in Finset.range i, ((3 * ((j : ℝ) + 1)) * (3 * ((j : ℝ) + 1) + 1)) ∧
    HasDerivAt (fun y : ℝ => ((seriesStep (y * y * y))^[m + 1] ⟨1, y, 1, 1, y, 1⟩).f)
      ((derivStep (x * x * x))^[m]
        ⟨x * x / 2, 1 + x * x * x / 3, 1, x * x / 2 / 3, x * x * x / 3, 4⟩).f x ∧
    HasDerivAt (fun y : ℝ => ((seriesStep (y * y * y))^[m + 1] ⟨1, y, 1, 1, y, 1⟩).g)
      ((derivStep (x * x * x))^[m]
        ⟨x * x / 2, 1 + x * x * x / 3, 1, x * x / 2 / 3, x * x * x / 3, 4⟩).g x ∧
    (∀ (fuel : Nat) (r : Series ℝ),
      derivLoop E (x * x * x) fuel
          ⟨x * x / 2, 1 + x * x * x / 3, 1, x * x / 2 / 3, x * x * x / 3, 4⟩ = .ok r →
        ∃ n, n ≤ fuel ∧ r = (derivStep (x * x * x))^[n]
          ⟨x * x / 2, 1 + x * x * x / 3, 1, x * x / 2 / 3, x * x * x / 3, 4⟩) := by
  obtain ⟨-, -, -, hf, hg⟩ := derivStep_iterate x m
  refine ⟨hf, hg, ?_, ?_, fun fuel r h => derivLoop_eq_iterate E _ fuel _ r h⟩
  · have e : (fun y : ℝ => ((seriesStep (y * y * y))^[m + 1] ⟨1, y, 1, 1, y, 1⟩).f)
        = fun y : ℝ => ∑ i in Finset.range (m + 1 + 1), y ^ (3 * i)
          / ∏ j in Finset.range i, ((3 * ((j : ℝ) + 1) - 1) * (3 * ((j : ℝ) + 1))) := by
      funext y
      exact (seriesStep_iterate y (m + 1)).2.2.2.1
    rw [e, hf]
    have hd : ∀ i ∈ Finset.range (m + 1 + 1),
        HasDerivAt (fun y : ℝ => y ^ (3 * i)
          / ∏ j in Finset.range i, ((3 * ((j : ℝ) + 1) - 1) * (3 * ((j : ℝ) + 1))))
          (((3 * i : Nat) : ℝ) * x ^ (3 * i - 1)
          / ∏ j in Finset.range i, ((3 * ((j : ℝ) + 1) - 1) * (3 * ((j : ℝ) + 1)))) x :=
      fun i _ => (hasDerivAt_pow (3 * i) x).div_const _
    have hs := HasDerivAt.sum hd
    rw [Finset.sum_range_succ'] at hs
    simp only [Nat.mul_zero, Nat.cast_zero, zero_mul, zero_div, add_zero] at hs
    refine hs.congr_deriv (Finset.sum_congr rfl fun i _ => ?_)
    have : 3 * (i + 1) - 1 = 3 * i + 2 := by omega
    rw [this]
    push_cast
    ring
  · have e : (fun y : ℝ => ((seriesStep (y * y * y))^[m + 1] ⟨1, y, 1, 1, y, 1⟩).g)
        = fun y : ℝ => ∑ i in Finset.range (m + 1 + 1), y ^ (3 * i + 1)
          / ∏ j in Finset.range i, ((3 * ((j : ℝ) + 1)) * (3 * ((j : ℝ) + 1) + 1)) := by
      funext y
      exact (seriesStep_iterate y (m + 1)).2.2.2.2
    rw [e, hg]
    have hd : ∀ i ∈ Finset.range (m + 1 + 1),
        HasDerivAt (fun y : ℝ => y ^ (3 * i + 1)
          / ∏ j in Finset.range i, ((3 * ((j : ℝ) + 1)) * (3 * ((j : ℝ) + 1) + 1)))
          (((3 * i + 1 : Nat) : ℝ) * x ^ (3 * i + 1 - 1)
          / ∏ j in Finset.range i, ((3 * ((j : ℝ) + 1)) * (3 * ((j : ℝ) + 1) + 1))) x :=
      fun i _ => (hasDerivAt_pow (3 * i + 1) x).div_const _
    have hs := HasDerivAt.sum hd
    refine hs.congr_deriv (Finset.sum_congr rfl fun i _ => ?_)
    have : 3 * i + 1 - 1 = 3 * i := by omega
    rw [this]
    push_cast
    ring

section DirectSum

/-- The guard value b / s of the summation loop is at most (a / 3)^(-x) once the
sum holds the first term 3^(-x). -/
theorem zetacSum_ratio_le (x a s : ℝ) (ha : 3 ≤ a) (hs : (3 : ℝ) ^ (-x) ≤ s) :
    a ^ (-x) / s ≤ (a / 3) ^ (-x) := by
  have h3 : 0 < (3 : ℝ) ^ (-x) := Real.rpow_pos_of_pos (by norm_num) _
  have hb : 0 < a ^ (-x) := Real.rpow_pos_of_pos (by linarith) _
  rw [Real.div_rpow (by linarith) (by norm_num)]
  exact div_le_div_of_nonneg_left hb.le h3 hs

/-- Beyond 50 the bound (7 / 3)^(-x) is below 2^(-53). -/
theorem seven_thirds_rpow_le (x : ℝ) (hx : 50 < x) : ((7 : ℝ) / 3) ^ (-x) ≤ 1 / 2 ^ 53 := by
  have h1 : ((7 : ℝ) / 3) ^ (-x) ≤ ((7 : ℝ) / 3) ^ (-(50 : ℝ)) :=
    Real.rpow_le_rpow_of_exponent_le (by norm_num) (by linarith)
  have h2 : ((7 : ℝ) / 3) ^ (-(50 : ℝ)) = (((7 : ℝ) / 3) ^ (50 : ℕ))⁻¹ := by
    rw [Real.rpow_neg (by norm_num), ← Real.rpow_natCast]
    norm_num
  rw [h2] at h1
  refine le_trans h1 ?_
  norm_num

/-- C25: the direct-summation loop of zetac terminates quickly.  With the real
power function and MACHEP = 2^(-53), for every real x > 50 (the loop is reached
for 50 < x < 127) the do-while loop exits in its second or third pass (a = 5 or a = 7), so three units of fuel
always suffice and one never does; the reason is that the guard value b / s is at
most (a / 3)^(-x), which at a = 7 is below 2^(-53).  The part of zetac after the
table lookup then returns the corrected sum. -/
theorem zetacSum_three_iterations (E : Elem ℝ)
    (hpow : ∀ a y : ℝ, 0 < a → E.pow a y = a ^ y) (hM : E.MACHEP = 1 / 2 ^ 53)
    (x : ℝ) (hx : 50 < x) :
    (∃ s : ℝ, (s = (3 : ℝ) ^ (-x) + 5 ^ (-x) ∨ s = (3 : ℝ) ^ (-x) + 5 ^ (-x) + 7 ^ (-x)) ∧
      (∀ fuel, 3 ≤ fuel → zetacSum E x fuel 1 0 = .ok s) ∧
      (∀ fuel, 3 ≤ fuel → zetacRest E fuel x
        = .ok ⟨(s + E.pow 2 (-x)) / (1 - E.pow 2 (-x)), []⟩)) ∧
    zetacSum E x 1 1 0 = .error .fuel ∧
    (∀ a s : ℝ, 3 ≤ a → (3 : ℝ) ^ (-x) ≤ s → a ^ (-x) / s ≤ (a / 3) ^ (-x)) ∧
    ((7 : ℝ) / 3) ^ (-x) ≤ E.MACHEP := by
  have h3 : 0 < (3 : ℝ) ^ (-x) := Real.rpow_pos_of_pos (by norm_num) _
  have h5 : 0 < (5 : ℝ) ^ (-x) := Real.rpow_pos_of_pos (by norm_num) _
  have h7 : 0 < (7 : ℝ) ^ (-x) := Real.rpow_pos_of_pos (by norm_num) _
  have e3 : E.pow (1 + 2) (-x) = (3 : ℝ) ^ (-x) := by
    rw [hpow _ _ (by norm_num)]
    norm_num
  have e5 : E.pow (1 + 2 + 2) (-x) = (5 : ℝ) ^ (-x) := by
    rw [hpow _ _ (by norm_num)]
    norm_num
  have e7 : E.pow (1 + 2 + 2 + 2) (-x) = (7 : ℝ) ^ (-x) := by
    rw [hpow _ _ (by norm_num)]
    norm_num
  have g3 : (3 : ℝ) ^ (-x) / (0 + (3 : ℝ) ^ (-x)) > E.MACHEP := by
    rw [zero_add, div_self h3.ne', hM]
    norm_num
  have g7 : ¬ (7 : ℝ) ^ (-x) / (0 + (3 : ℝ) ^ (-x) + 5 ^ (-x) + 7 ^ (-x)) > E.MACHEP := by
    rw [hM]
    refine not_lt.mpr (le_trans (zetacSum_ratio_le x 7 _ (by norm_num) (by linarith)) ?_)
    exact seven_thirds_rpow_le x hx
  have hsum : ∃ s : ℝ,
      (s = (3 : ℝ) ^ (-x) + 5 ^ (-x) ∨ s = (3 : ℝ) ^ (-x) + 5 ^ (-x) + 7 ^ (-x)) ∧
      ∀ fuel, 3 ≤ fuel → zetacSum E x fuel 1 0 = .ok s := by
    by_cases g5 : (5 : ℝ) ^ (-x) / (0 + (3 : ℝ) ^ (-x) + 5 ^ (-x)) > E.MACHEP
    · refine ⟨_, Or.inr rfl, fun fuel hf => ?_⟩
      obtain ⟨k, rfl⟩ : ∃ k, fuel = k + 3 := ⟨fuel - 3, by omega⟩
      simp only [zetacSum, e3, e5, e7, g3, g5, g7, if_true, if_false]
      rw [zero_add]
    · refine ⟨_, Or.inl rfl, fun fuel hf => ?_⟩
      obtain ⟨k, rfl⟩ : ∃ k, fuel = k + 2 := ⟨fuel - 2, by omega⟩
      simp only [zetacSum, e3, e5, g3, g5, if_true, if_false]
      rw [zero_add]
  obtain ⟨s, hs, hret⟩ := hsum
  refine ⟨⟨s, hs, hret, fun fuel hf => zetacRest_loop E fuel x s hx (hret fuel hf)⟩, ?_,
    fun a s ha hs => zetacSum_ratio_le x a s ha hs, ?_⟩
  · simp only [zetacSum, e3, g3, if_true]
  · rw [hM]
    exact seven_thirds_rpow_le x hx

/-- Witness for C25 at x = 60 with the real elementary functions. -/
theorem zetacSum_three_iterations_witness :
    (50 : ℝ) < 60 ∧
    ((∃ s : ℝ, (s = (3 : ℝ) ^ (-(60 : ℝ)) + 5 ^ (-(60 : ℝ))
          ∨ s = (3 : ℝ) ^ (-(60 : ℝ)) + 5 ^ (-(60 : ℝ)) + 7 ^ (-(60 : ℝ))) ∧
      (∀ fuel, 3 ≤ fuel → zetacSum (⟨Real.sin, Real.cos, Real.exp, Real.sqrt,
          fun a y => a ^ y, Real.Gamma, Real.pi, 2 ^ 1024 - 2 ^ 971, 1 / 2 ^ 53⟩ : Elem ℝ)
          60 fuel 1 0 = .ok s) ∧
      (∀ fuel, 3 ≤ fuel → zetacRest (⟨Real.sin, Real.cos, Real.exp, Real.sqrt,
          fun a y => a ^ y, Real.Gamma, Real.pi, 2 ^ 1024 - 2 ^ 971, 1 / 2 ^ 53⟩ : Elem ℝ)
          fuel 60
        = .ok ⟨(s + (2 : ℝ) ^ (-(60 : ℝ))) / (1 - (2 : ℝ) ^ (-(60 : ℝ))), []⟩)) ∧
    zetacSum (⟨Real.sin, Real.cos, Real.exp, Real.sqrt,
          fun a y => a ^ y, Real.Gamma, Real.pi, 2 ^ 1024 - 2 ^ 971, 1 / 2 ^ 53⟩ : Elem ℝ)
          60 1 1 0 = .error .fuel ∧
    (∀ a s : ℝ, 3 ≤ a → (3 : ℝ) ^ (-(60 : ℝ)) ≤ s → a ^ (-(60 : ℝ)) / s ≤ (a / 3) ^ (-(60 : ℝ))) ∧
    ((7 : ℝ) / 3) ^ (-(60 : ℝ)) ≤ 1 / 2 ^ 53) :=
  ⟨by norm_num,
    zetacSum_three_iterations (⟨Real.sin, Real.cos, Real.exp, Real.sqrt,
      fun a y => a ^ y, Real.Gamma, Real.pi, 2 ^ 1024 - 2 ^ 971, 1 / 2 ^ 53⟩ : Elem ℝ)
      (fun _ _ _ => rfl) rfl 60 (by norm_num)⟩

end DirectSum

section SeriesTermination

variable {α : Type} [LinearOrderedField α]

/-- Invariant of the first loop for z >= 0: after any number of passes the term
uf is non-negative, the sum f is at least 1 and the counter has grown by 3 per
pass. -/
theorem seriesStep_iterate_inv (z : α) (hz : 0 ≤ z) (s : Series α)
    (huf : 0 ≤ s.uf) (hf : 1 ≤ s.f) (hk : 1 ≤ s.k) (n : Nat) :
    0 ≤ ((seriesStep z)^[n] s).uf ∧ 1 ≤ ((seriesStep z)^[n] s).f ∧
    ((seriesStep z)^[n] s).k = s.k + 3 * (n : α) := by
  induction n with
  | zero => simp [huf, hf]
  | succ n ih =>
    obtain ⟨h1, h2, h3⟩ := ih
    have hn : (0 : α) ≤ n := Nat.cast_nonneg n
    obtain ⟨a, b, c, _, _⟩ := seriesStep_spec z hz _ h1 h2 (by rw [h3]; linarith)
    rw [Function.iterate_succ_apply']
    refine ⟨a, b, ?_⟩
    rw [c, h3]
    push_cast
    ring

/-- Invariant of the second loop for z >= 0: after any number of passes the term
ug is non-negative, the sum g is at least 1 and the counter has grown by 3 per
pass. -/
theorem derivStep_iterate_inv (z : α) (hz : 0 ≤ z) (s : Series α)
    (hug : 0 ≤ s.ug) (hg : 1 ≤ s.g) (hk : 1 ≤ s.k) (n : Nat) :
    0 ≤ ((derivStep z)^[n] s).ug ∧ 1 ≤ ((derivStep z)^[n] s).g ∧
    ((derivStep z)^[n] s).k = s.k + 3 * (n : α) := by
  induction n with
  | zero => simp [hug, hg]
  | succ n ih =>
    obtain ⟨h1, h2, h3⟩ := ih
    have hn : (0 : α) ≤ n := Nat.cast_nonneg n
    obtain ⟨a, b, c, _, _⟩ := derivStep_spec z hz _ h1 h2 (by rw [h3]; linarith)
    rw [Function.iterate_succ_apply']
    refine ⟨a, b, ?_⟩
    rw [c, h3]
    push_cast
    ring

variable [Archimedean α]

/-- The terms of the first loop tend to 0 for z >= 0. -/
theorem seriesStep_terms_small (z : α) (hz : 0 ≤ z) (s : Series α)
    (huf : 0 ≤ s.uf) (hf : 1 ≤ s.f) (hk : 1 ≤ s.k) (ε : α) (hε : 0 < ε) :
    ∃ N, ∀ n, N ≤ n → ((seriesStep z)^[n] s).uf ≤ ε := by
  obtain ⟨j, hj⟩ := exists_nat_ge (2 * z)
  have hhalf : ∀ m : Nat,
      ((seriesStep z)^[j + m] s).uf ≤ ((seriesStep z)^[j] s).uf / 2 ^ m := by
    intro m
    induction m with
    | zero => simp
    | succ m ih =>
      obtain ⟨h1, h2, h3⟩ := seriesStep_iterate_inv z hz s huf hf hk (j + m)
      have hjm : (0 : α) ≤ m := Nat.cast_nonneg m
      have hk2 : 2 * z ≤ ((seriesStep z)^[j + m] s).k := by
        rw [h3]
        push_cast
        linarith
      obtain ⟨_, _, _, _, e⟩ := seriesStep_spec z hz _ h1 h2 (by rw [h3]; push_cast; linarith)
      have := e hk2
      rw [← Nat.add_assoc, Function.iterate_succ_apply']
      calc (seriesStep z ((seriesStep z)^[j + m] s)).uf
          ≤ ((seriesStep z)^[j + m] s).uf / 2 := this
        _ ≤ ((seriesStep z)^[j] s).uf / 2 ^ m / 2 := div_le_div_of_nonneg_right ih (by norm_num)
        _ = ((seriesStep z)^[j] s).uf / 2 ^ (m + 1) := by rw [pow_succ, div_div]
  obtain ⟨h0, _, _⟩ := seriesStep_iterate_inv z hz s huf hf hk j
  obtain ⟨M, hM⟩ := pow_unbounded_of_one_lt (((seriesStep z)^[j] s).uf / ε)
    (one_lt_two : (1 : α) < 2)
  refine ⟨j + M, fun n hn => ?_⟩
  obtain ⟨m, rfl⟩ : ∃ m, n = j + m := ⟨n - j, by omega⟩
  have hmM : M ≤ m := by omega
  have hp : (2 : α) ^ M ≤ 2 ^ m := pow_le_pow_right₀ (by norm_num) hmM
  have hpos : (0 : α) < 2 ^ M := by positivity
  calc ((seriesStep z)^[j + m] s).uf ≤ ((seriesStep z)^[j] s).uf / 2 ^ m := hhalf m
    _ ≤ ((seriesStep z)^[j] s).uf / 2 ^ M := div_le_div_of_nonneg_left h0 hpos hp
    _ ≤ ε := by
      rw [div_le_iff₀ hpos]
      have := (div_lt_iff₀ hε).mp hM
      linarith

/-- The terms of the second loop tend to 0 for z >= 0. -/
theorem derivStep_terms_small (z : α) (hz : 0 ≤ z) (s : Series α)
    (hug : 0 ≤ s.ug) (hg : 1 ≤ s.g) (hk : 1 ≤ s.k) (ε : α) (hε : 0 < ε) :
    ∃ N, ∀ n, N ≤ n → ((derivStep z)^[n] s).ug ≤ ε := by
  obtain ⟨j, hj⟩ := exists_nat_ge (2 * z)
  have hhalf : ∀ m : Nat,
      ((derivStep z)^[j + m] s).ug ≤ ((derivStep z)^[j] s).ug / 2 ^ m := by
    intro m
    induction m with
    | zero => simp
    | succ m ih =>
      obtain ⟨h1, h2, h3⟩ := derivStep_iterate_inv z hz s hug hg hk (j + m)
      have hjm : (0 : α) ≤ m := Nat.cast_nonneg m
      have hk2 : 2 * z ≤ ((derivStep z)^[j + m] s).k := by
        rw [h3]
        push_cast
        linarith
      obtain ⟨_, _, _, _, e⟩ := derivStep_spec z hz _ h1 h2 (by rw [h3]; push_cast; linarith)
      have := e hk2
      rw [← Nat.add_assoc, Function.iterate_succ_apply']
      calc (derivStep z ((derivStep z)^[j + m] s)).ug
          ≤ ((derivStep z)^[j + m] s).ug / 2 := this
        _ ≤ ((derivStep z)^[j] s).ug / 2 ^ m / 2 := div_le_div_of_nonneg_right ih (by norm_num)
        _ = ((derivStep z)^[j] s).ug / 2 ^ (m + 1) := by rw [pow_succ, div_div]
  obtain ⟨h0, _, _⟩ := derivStep_iterate_inv z hz s hug hg hk j
  obtain ⟨M, hM⟩ := pow_unbounded_of_one_lt (((derivStep z)^[j] s).ug / ε)
    (one_lt_two : (1 : α) < 2)
  refine ⟨j + M, fun n hn => ?_⟩
  obtain ⟨m, rfl⟩ : ∃ m, n = j + m := ⟨n - j, by omega⟩
  have hmM : M ≤ m := by omega
  have hp : (2 : α) ^ M ≤ 2 ^ m := pow_le_pow_right₀ (by norm_num) hmM
  have hpos : (0 : α) < 2 ^ M := by positivity
  calc ((derivStep z)^[j + m] s).ug ≤ ((derivStep z)^[j] s).ug / 2 ^ m := hhalf m
    _ ≤ ((derivStep z)^[j] s).ug / 2 ^ M := div_le_div_of_nonneg_left h0 hpos hp
    _ ≤ ε := by
      rw [div_le_iff₀ hpos]
      have := (div_lt_iff₀ hε).mp hM
      linarith

/-- C26: for every x >= 0 (in particular 0 <= x <= 8.3203353) and every
MACHEP > 0 both power-series loops of airy terminate in exact arithmetic: with
enough fuel both return.  The partial sum in each guard (f in the first loop, g
in the second) is >= 1 after every pass and the terms uf, ug are non-negative and
tend to 0.  At x = 0 each loop runs exactly one pass for a machine epsilon, that
is for MACHEP < 1 (the loops are entered with t = 1): the loop needs one unit of
fuel and returns the state after one execution of its body. -/
theorem series_loops_terminate (E : Elem α) (hM : 0 < E.MACHEP) (x : α) (hx : 0 ≤ x) :
    (∃ n s d, ∀ fuel, n ≤ fuel →
      seriesLoop E (x * x * x) fuel ⟨1, x, 1, 1, x, 1⟩ = .ok s ∧
      derivLoop E (x * x * x) fuel
        ⟨x * x / 2, 1 + x * x * x / 3, 1, x * x / 2 / 3, x * x * x / 3, 4⟩ = .ok d) ∧
    (∀ n, 1 ≤ ((seriesStep (x * x * x))^[n] ⟨1, x, 1, 1, x, 1⟩).f) ∧
    (∀ n, 1 ≤ ((derivStep (x * x * x))^[n]
        ⟨x * x / 2, 1 + x * x * x / 3, 1, x * x / 2 / 3, x * x * x / 3, 4⟩).g) ∧
    (∀ ε, 0 < ε → ∃ N, ∀ n, N ≤ n →
      0 ≤ ((seriesStep (x * x * x))^[n] ⟨1, x, 1, 1, x, 1⟩).uf ∧
      ((seriesStep (x * x * x))^[n] ⟨1, x, 1, 1, x, 1⟩).uf ≤ ε) ∧
    (∀ ε, 0 < ε → ∃ N, ∀ n, N ≤ n →
      0 ≤ ((derivStep (x * x * x))^[n]
        ⟨x * x / 2, 1 + x * x * x / 3, 1, x * x / 2 / 3, x * x * x / 3, 4⟩).ug ∧
      ((derivStep (x * x * x))^[n]
        ⟨x * x / 2, 1 + x * x * x / 3, 1, x * x / 2 / 3, x * x * x / 3, 4⟩).ug ≤ ε) ∧
    (E.MACHEP < 1 →
      seriesLoop E (0 * 0 * 0) 0 ⟨1, 0, 1, 1, 0, 1⟩ = .error .fuel ∧
      (∀ fuel, seriesLoop E (0 * 0 * 0) (fuel + 1) ⟨1, 0, 1, 1, 0, 1⟩
        = .ok (seriesStep (0 * 0 * 0) ⟨1, 0, 1, 1, 0, 1⟩)) ∧
      derivLoop E (0 * 0 * 0) 0
        ⟨0 * 0 / 2, 1 + 0 * 0 * 0 / 3, 1, 0 * 0 / 2 / 3, 0 * 0 * 0 / 3, 4⟩ = .error .fuel ∧
      (∀ fuel, derivLoop E (0 * 0 * 0) (fuel + 1)
          ⟨0 * 0 / 2, 1 + 0 * 0 * 0 / 3, 1, 0 * 0 / 2 / 3, 0 * 0 * 0 / 3, 4⟩
        = .ok (derivStep (0 * 0 * 0)
          ⟨0 * 0 / 2, 1 + 0 * 0 * 0 / 3, 1, 0 * 0 / 2 / 3, 0 * 0 * 0 / 3, 4⟩))) := by
  have hz : 0 ≤ x * x * x := mul_nonneg (mul_nonneg hx hx) hx
  have hg0 : (1 : α) ≤ 1 + x * x * x / 3 := by
    have := div_nonneg hz (by norm_num : (0 : α) ≤ 3)
    linarith
  have hu0 : (0 : α) ≤ x * x * x / 3 := div_nonneg hz (by norm_num)
  refine ⟨seriesLoops_return E hM x hx, ?_, ?_, ?_, ?_, ?_⟩
  · intro n
    exact (seriesStep_iterate_inv (x * x * x) hz ⟨1, x, 1, 1, x, 1⟩ (by norm_num) (le_refl _)
      (le_refl _) n).2.1
  · intro n
    exact (derivStep_iterate_inv (x * x * x) hz
      ⟨x * x / 2, 1 + x * x * x / 3, 1, x * x / 2 / 3, x * x * x / 3, 4⟩ hu0 hg0
      (by norm_num) n).2.1
  · intro ε hε
    obtain ⟨N, hN⟩ := seriesStep_terms_small (x * x * x) hz ⟨1, x, 1, 1, x, 1⟩ (by norm_num)
      (le_refl _) (le_refl _) ε hε
    exact ⟨N, fun n hn => ⟨(seriesStep_iterate_inv (x * x * x) hz ⟨1, x, 1, 1, x, 1⟩
      (by norm_num) (le_refl _) (le_refl _) n).1, hN n hn⟩⟩
  · intro ε hε
    obtain ⟨N, hN⟩ := derivStep_terms_small (x * x * x) hz
      ⟨x * x / 2, 1 + x * x * x / 3, 1, x * x / 2 / 3, x * x * x / 3, 4⟩ hu0 hg0
      (by norm_num) ε hε
    exact ⟨N, fun n hn => ⟨(derivStep_iterate_inv (x * x * x) hz
      ⟨x * x / 2, 1 + x * x * x / 3, 1, x * x / 2 / 3, x * x * x / 3, 4⟩ hu0 hg0
      (by norm_num) n).1, hN n hn⟩⟩
  · intro h1
    have hgt : (1 : α) > E.MACHEP := h1
    have e1 : ¬ (seriesStep (0 * 0 * 0) (⟨1, 0, 1, 1, 0, 1⟩ : Series α)).t > E.MACHEP := by
      simp [seriesStep, hM.le]
    have e2 : ¬ (derivStep (0 * 0 * 0)
        (⟨0 * 0 / 2, 1 + 0 * 0 * 0 / 3, 1, 0 * 0 / 2 / 3, 0 * 0 * 0 / 3, 4⟩ : Series α)).t
          > E.MACHEP := by
      simp [derivStep, hM.le]
    refine ⟨?_, fun fuel => ?_, ?_, fun fuel => ?_⟩
    · simp only [seriesLoop, hgt, if_true]
    · simp only [seriesLoop, hgt, if_true]
      exact seriesLoop_exit E _ fuel _ e1
    · simp only [derivLoop, hgt, if_true]
    · simp only [derivLoop, hgt, if_true]
      exact derivLoop_exit E _ fuel _ e2

/-- Witness for C26 over the rationals with MACHEP = 2^(-53): the loops terminate
at x = 1, and at x = 0 each loop runs exactly one pass. -/
theorem series_loops_terminate_witness :
    (0 : ℚ) < ratElem.MACHEP ∧ (0 : ℚ) ≤ 1 ∧ ratElem.MACHEP < 1 ∧
    (∃ n s d, ∀ fuel, n ≤ fuel →
      seriesLoop ratElem ((1 : ℚ) * 1 * 1) fuel ⟨1, 1, 1, 1, 1, 1⟩ = .ok s ∧
      derivLoop ratElem ((1 : ℚ) * 1 * 1) fuel
        ⟨1 * 1 / 2, 1 + 1 * 1 * 1 / 3, 1, 1 * 1 / 2 / 3, 1 * 1 * 1 / 3, 4⟩ = .ok d) ∧
    (∀ n, 1 ≤ ((seriesStep ((1 : ℚ) * 1 * 1))^[n] ⟨1, 1, 1, 1, 1, 1⟩).f) ∧
    (∀ n, 1 ≤ ((derivStep ((1 : ℚ) * 1 * 1))^[n]
        ⟨1 * 1 / 2, 1 + 1 * 1 * 1 / 3, 1, 1 * 1 / 2 / 3, 1 * 1 * 1 / 3, 4⟩).g) ∧
    (∀ ε, 0 < ε → ∃ N, ∀ n, N ≤ n →
      0 ≤ ((seriesStep ((1 : ℚ) * 1 * 1))^[n] ⟨1, 1, 1, 1, 1, 1⟩).uf ∧
      ((seriesStep ((1 : ℚ) * 1 * 1))^[n] ⟨1, 1, 1, 1, 1, 1⟩).uf ≤ ε) ∧
    (∀ ε, 0 < ε → ∃ N, ∀ n, N ≤ n →
      0 ≤ ((derivStep ((1 : ℚ) * 1 * 1))^[n]
        ⟨1 * 1 / 2, 1 + 1 * 1 * 1 / 3, 1, 1 * 1 / 2 / 3, 1 * 1 * 1 / 3, 4⟩).ug ∧
      ((derivStep ((1 : ℚ) * 1 * 1))^[n]
        ⟨1 * 1 / 2, 1 + 1 * 1 * 1 / 3, 1, 1 * 1 / 2 / 3, 1 * 1 * 1 / 3, 4⟩).ug ≤ ε) ∧
    seriesLoop ratElem ((0 : ℚ) * 0 * 0) 0 ⟨1, 0, 1, 1, 0, 1⟩ = .error .fuel ∧
    (∀ fuel, seriesLoop ratElem ((0 : ℚ) * 0 * 0) (fuel + 1) ⟨1, 0, 1, 1, 0, 1⟩
      = .ok (seriesStep (0 * 0 * 0) ⟨1, 0, 1, 1, 0, 1⟩)) ∧
    derivLoop ratElem ((0 : ℚ) * 0 * 0) 0
      ⟨0 * 0 / 2, 1 + 0 * 0 * 0 / 3, 1, 0 * 0 / 2 / 3, 0 * 0 * 0 / 3, 4⟩ = .error .fuel ∧
    (∀ fuel, derivLoop ratElem ((0 : ℚ) * 0 * 0) (fuel + 1)
        ⟨0 * 0 / 2, 1 + 0 * 0 * 0 / 3, 1, 0 * 0 / 2 / 3, 0 * 0 * 0 / 3, 4⟩
      = .ok (derivStep (0 * 0 * 0)
        ⟨0 * 0 / 2, 1 + 0 * 0 * 0 / 3, 1, 0 * 0 / 2 / 3, 0 * 0 * 0 / 3, 4⟩)) := by
  have hM : (0 : ℚ) < ratElem.MACHEP := by norm_num [ratElem]
  have h1 : ratElem.MACHEP < 1 := by norm_num [ratElem]
  obtain ⟨a, b, c, d, e, f⟩ := series_loops_terminate ratElem hM 1 (by norm_num)
  exact ⟨hM, by norm_num, h1, a, b, c, d, e, f h1⟩

end SeriesTermination

section BiThreshold

/-- Beyond 8.3203353 the product x * sqrt x exceeds 24. -/
theorem mul_sqrt_gt_of_threshold (x : ℝ) (hx : 8.3203353 < x) : 24 < x * Real.sqrt x := by
  have hx0 : 0 < x := lt_trans (by norm_num) hx
  have hs : Real.sqrt x * Real.sqrt x = x := Real.mul_self_sqrt hx0.le
  have h3 : (576 : ℝ) < x ^ 3 := by
    have : (8.3203353 : ℝ) ^ 3 < x ^ 3 := pow_lt_pow_left₀ hx (by norm_num) (by norm_num)
    refine lt_trans ?_ this
    norm_num
  have hsq : (x * Real.sqrt x) ^ 2 = x ^ 3 := by
    calc (x * Real.sqrt x) ^ 2 = x ^ 2 * (Real.sqrt x * Real.sqrt x) := by ring
      _ = x ^ 3 := by rw [hs]; ring
  have hpos : 0 ≤ x * Real.sqrt x := mul_nonneg hx0.le (Real.sqrt_nonneg x)
  refine lt_of_pow_lt_pow_left₀ 2 hpos ?_
  rw [hsq]
  norm_num
  linarith

/-- C27: the threshold 8.3203353 is on the safe side of zeta = 16.  With the real
square root, for every real x > 8.3203353 the value zeta = 2*x*sqrt(x)/3 that airy
computes exceeds 16, so z = 1/zeta lies strictly between 0 and 1/16; the Bi/Bip
asymptotic sub-branch is taken exactly on 8.3203353 < x <= 25.77 and is evaluated
there at this z. -/
theorem airy_bi_threshold (E : Elem ℝ) (hsqrt : E.sqrt = Real.sqrt) (fuel : Nat)
    (o : AiryOut ℝ) (x : ℝ) (hx : 8.3203353 < x) :
    16 < 2 * x * E.sqrt x / 3 ∧
    0 < 1 / (2 * x * E.sqrt x / 3) ∧ 1 / (2 * x * E.sqrt x / 3) < 1 / 16 ∧
    (airyPath x = AiryPath.exponential ↔ x ≤ 25.77) ∧
    expBiValues E x
      = .ok (sqpii * E.exp (2 * x * E.sqrt x / 3)
              * (1 + 1 / (2 * x * E.sqrt x / 3)
                  * (BN16.take (4 + 1)).foldl
                      (fun acc c => acc * (1 / (2 * x * E.sqrt x / 3)) + c) 0
                  / (BD16.take 5).foldl
                      (fun acc c => acc * (1 / (2 * x * E.sqrt x / 3)) + c) 1)
              / E.sqrt (E.sqrt x),
            sqpii * E.exp (2 * x * E.sqrt x / 3) * E.sqrt (E.sqrt x)
              * (1 + 1 / (2 * x * E.sqrt x / 3)
                  * (BPPN.take (4 + 1)).foldl
                      (fun acc c => acc * (1 / (2 * x * E.sqrt x / 3)) + c) 0
                  / (BPPD.take 5).foldl
                      (fun acc c => acc * (1 / (2 * x * E.sqrt x / 3)) + c) 1)) ∧
    (x ≤ 25.77 → torch_cephes_airy E fuel o x
      = (do
          let a ← expAiValues E x
          let b ← expBiValues E x
          pure (0, ⟨a.1, a.2, b.1, b.2⟩))) := by
  have h24 := mul_sqrt_gt_of_threshold x hx
  have hz : 16 < 2 * x * E.sqrt x / 3 := by
    rw [hsqrt]
    linarith
  have hpos : 0 < 2 * x * E.sqrt x / 3 := lt_trans (by norm_num) hz
  refine ⟨hz, one_div_pos.mpr hpos, one_div_lt_one_div_of_lt (by norm_num) hz, ?_, ?_, ?_⟩
  · rcases airyPath_cases x with h | h | h | h | h
    · rw [h.2]
      constructor
      · intro h'
        cases h'
      · intro h'
        linarith [h.1]
    · linarith [h.1]
    · linarith [h.1.2]
    · linarith [h.1.2]
    · rw [h.2]
      exact ⟨fun _ => h.1.2, fun _ => rfl⟩
  · simp only [expBiValues, polevl_ok _ BN16 4 (by simp [BN16]),
      p1evl_ok _ BD16 5 (by simp [BD16]), polevl_ok _ BPPN 4 (by simp [BPPN]),
      p1evl_ok _ BPPD 5 (by simp [BPPD]), bind, Except.bind, pure, Except.pure]
  · intro hhi
    exact airy_exponential E fuel o x hx (by norm_num [MAXAIRY]; linarith)

/-- Witness for C27 at x = 9 with the real elementary functions. -/
theorem airy_bi_threshold_witness :
    (8.3203353 : ℝ) < 9 ∧
    16 < 2 * (9 : ℝ) * Real.sqrt 9 / 3 ∧
    0 < 1 / (2 * (9 : ℝ) * Real.sqrt 9 / 3) ∧ 1 / (2 * (9 : ℝ) * Real.sqrt 9 / 3) < 1 / 16 ∧
    (airyPath (9 : ℝ) = AiryPath.exponential ↔ (9 : ℝ) ≤ 25.77) :=
  ⟨by norm_num,
    (airy_bi_threshold (⟨Real.sin, Real.cos, Real.exp, Real.sqrt, fun a y => a ^ y,
      Real.Gamma, Real.pi, 2 ^ 1024 - 2 ^ 971, 1 / 2 ^ 53⟩ : Elem ℝ) rfl 0 ⟨0, 0, 0, 0⟩ 9
      (by norm_num)).1,
    (airy_bi_threshold (⟨Real.sin, Real.cos, Real.exp, Real.sqrt, fun a y => a ^ y,
      Real.Gamma, Real.pi, 2 ^ 1024 - 2 ^ 971, 1 / 2 ^ 53⟩ : Elem ℝ) rfl 0 ⟨0, 0, 0, 0⟩ 9
      (by norm_num)).2.1,
    (airy_bi_threshold (⟨Real.sin, Real.cos, Real.exp, Real.sqrt, fun a y => a ^ y,
      Real.Gamma, Real.pi, 2 ^ 1024 - 2 ^ 971, 1 / 2 ^ 53⟩ : Elem ℝ) rfl 0 ⟨0, 0, 0, 0⟩ 9
      (by norm_num)).2.2.1,
    (airy_bi_threshold (⟨Real.sin, Real.cos, Real.exp, Real.sqrt, fun a y => a ^ y,
      Real.Gamma, Real.pi, 2 ^ 1024 - 2 ^ 971, 1 / 2 ^ 53⟩ : Elem ℝ) rfl 0 ⟨0, 0, 0, 0⟩ 9
      (by norm_num)).2.2.2.1⟩

end BiThreshold

section TableBounds

variable {α : Type} [LinearOrderedField α]

/-- A run of airy never reads a table outside its bounds. -/
theorem airy_no_bounds_fault (E : Elem α) (fuel : Nat) (o : AiryOut α) (x : α) :
    torch_cephes_airy E fuel o x ≠ .error Fault.bounds := by
  by_cases h1 : x > MAXAIRY
  · rw [airy_overflow E fuel o x h1]
    exact fun h => by cases h
  · by_cases hout : x < -2.09 ∨ 8.3203353 < x
    · obtain ⟨r, hr⟩ := airy_asymptotic_status E fuel o x (not_lt.mp h1) hout
      rw [hr]
      exact fun h => by cases h
    · have h2 : ¬ x < -2.09 := fun h => hout (Or.inl h)
      have h4 : ¬ x > 8.3203353 := fun h => hout (Or.inr h)
      by_cases h3 : x ≥ 2.09
      · simp only [torch_cephes_airy, h1, h2, h3, h4, if_true, if_false,
          polevl_ok _ AN 7 (by simp [AN]), polevl_ok _ AD 7 (by simp [AD]),
          polevl_ok _ APN 7 (by simp [APN]), polevl_ok _ APD 7 (by simp [APD]),
          bind, Except.bind, pure, Except.pure]
        rcases airySeries_outcome E fuel 5 _ x with h | ⟨r, h⟩
        · rw [h]
          exact fun h => by cases h
        · rw [h]
          exact fun h => by cases h
      · simp only [torch_cephes_airy, h1, h2, h3, if_false]
        rcases airySeries_outcome E fuel 0 o x with h | ⟨r, h⟩
        · rw [h]
          exact fun h => by cases h
        · rw [h]
          exact fun h => by cases h

/-- The part of zetac after the table lookup never reads a table outside its
bounds. -/
theorem zetacRest_no_bounds_fault (E : Elem α) (loopFuel : Nat) (x : α) :
    zetacRest E loopFuel x ≠ .error Fault.bounds := by
  by_cases h50 : x ≤ 50
  · obtain ⟨r, hr⟩ := zetacRest_no_loop E x h50
    rw [hr loopFuel]
    exact fun h => by cases h
  · have h50 : 50 < x := not_le.mp h50
    cases hs : zetacSum E x loopFuel 1 0 with
    | error e =>
      have he := zetacSum_error E x loopFuel 1 0 e hs
      subst he
      have h1 : ¬ x < 1 := not_lt.mpr (by linarith)
      have h2 : ¬ x = 1 := by
        intro h
        rw [h] at h50
        norm_num at h50
      have h3 : ¬ x ≤ 10 := not_le.mpr (by linarith)
      have h4 : ¬ x ≤ 50 := not_le.mpr h50
      simp only [zetacRest, h1, h2, h3, h4, hs, if_false, bind, Except.bind]
      exact fun h => by cases h
    | ok s =>
      rw [zetacRest_loop E loopFuel x s h50 hs]
      exact fun h => by cases h

variable [FloorRing α]

/-- A run of zetac never reads a table outside its bounds. -/
theorem zetac_no_bounds_fault (E : Elem α) (loopFuel : Nat) (depth : Nat) :
    ∀ x : α, torch_cephes_zetac E loopFuel depth x ≠ .error Fault.bounds := by
  induction depth with
  | zero =>
    intro x
    simp only [torch_cephes_zetac]
    exact fun h => by cases h
  | succ depth ih =>
    intro x
    by_cases h0 : x < 0
    · by_cases hov : x < -170.6243
      · simp only [torch_cephes_zetac, h0, hov, if_true]
        exact fun h => by cases h
      · simp only [torch_cephes_zetac, h0, hov, if_true, if_false]
        cases hr : torch_cephes_zetac E loopFuel depth (1 - x) with
        | error e =>
          intro h
          have : e = Fault.bounds := by
            simpa using h
          rw [this] at hr
          exact ih _ hr
        | ok r =>
          exact fun h => by cases h
    · rcases zetac_nonneg_cases E x (not_lt.mp h0) with ⟨r, hr⟩ | hrest
      · rw [hr loopFuel depth]
        exact fun h => by cases h
      · rw [hrest loopFuel depth]
        exact zetacRest_no_bounds_fault E loopFuel x

/-- C28: the table lengths at the call sites of polevl and p1evl.  Every call
polevl(., T, N) of airy and zetac passes a table of N + 1 entries and every call
p1evl(., T, N) a table of N entries, with one exception: APGD is declared with 11
entries while p1evl(zz, APGD, 10) reads 10 of them (the eleventh, zero, is never
read, and the result is that of the 10-entry table).  No evaluation reads past
the end of its table: no run of airy or zetac ends in the bounds fault, and the
table lookup of zetac reads an index in 0..30 of the 31-entry table.  The call on
APGD is executed on the oscillatory path, for instance at x = -3. -/
theorem polynomial_table_lengths (E : Elem α) :
    ((AN : List α).length = 7 + 1 ∧ (AD : List α).length = 7 + 1 ∧
      (APN : List α).length = 7 + 1 ∧ (APD : List α).length = 7 + 1 ∧
      (BN16 : List α).length = 4 + 1 ∧ (BD16 : List α).length = 5 ∧
      (BPPN : List α).length = 4 + 1 ∧ (BPPD : List α).length = 5 ∧
      (AFN : List α).length = 8 + 1 ∧ (AFD : List α).length = 9 ∧
      (AGN : List α).length = 10 + 1 ∧ (AGD : List α).length = 10 ∧
      (APFN : List α).length = 8 + 1 ∧ (APFD : List α).length = 9 ∧
      (APGN : List α).length = 10 + 1) ∧
    ((R : List α).length = 5 + 1 ∧ (S : List α).length = 5 ∧
      (P : List α).length = 8 + 1 ∧ (Q : List α).length = 8 ∧
      (A : List α).length = 10 + 1 ∧ (B : List α).length = 10 ∧
      (azetac : List α).length = 31) ∧
    ((APGD : List α).length = 11 ∧ (APGD : List α).length ≠ 10 ∧
      (APGD : List α)[10]? = some 0 ∧
      (∀ z : α, torch_cephes_p1evl z APGD 10 = torch_cephes_p1evl z (APGD.take 10) 10) ∧
      airyPath (-3 : α) = AiryPath.oscillatory) ∧
    (∀ (fuel : Nat) (o : AiryOut α) (x : α),
      torch_cephes_airy E fuel o x ≠ .error Fault.bounds) ∧
    (∀ (loopFuel depth : Nat) (x : α),
      torch_cephes_zetac E loopFuel depth x ≠ .error Fault.bounds) ∧
    (∀ x : α, zetacRegime x = ZetaRegime.table →
      0 ≤ truncInt x ∧ truncInt x ≤ 30 ∧ ∃ v, readTable (azetac : List α) (truncInt x) = .ok v) := by
  refine ⟨?_, ?_, ?_, fun fuel o x => airy_no_bounds_fault E fuel o x,
    fun loopFuel depth x => zetac_no_bounds_fault E loopFuel depth x, ?_⟩
  · simp [AN, AD, APN, APD, BN16, BD16, BPPN, BPPD, AFN, AFD, AGN, AGD, APFN, APFD, APGN]
  · simp [R, S, P, Q, A, B, azetac]
  · refine ⟨by simp [APGD], by simp [APGD], by simp [APGD], fun z => ?_, ?_⟩
    · simp [torch_cephes_p1evl, APGD]
    · rcases airyPath_cases (-3 : α) with h | h | h | h | h
      · norm_num at h
      · exact h.2
      · norm_num at h
      · norm_num at h
      · norm_num at h
  · intro x hx
    have key : ((⌊x⌋ : Int) : α) = x ∧ 0 ≤ x ∧ x ≤ 30 := by
      rcases zetacRegime_cases x with h | h | h | h | h | h | h | h
      · rw [h.2] at hx
        cases hx
      · rw [h.2] at hx
        cases hx
      · rw [h.2] at hx
        cases hx
      · exact h.1
      · rw [h.2] at hx
        cases hx
      · rw [h.2] at hx
        cases hx
      · rw [h.2] at hx
        cases hx
      · rw [h.2] at hx
        cases hx
    obtain ⟨hw, h0, h30⟩ := key
    have hti : truncInt x = ⌊x⌋ := by simp [truncInt, h0]
    have hfl : 0 ≤ ⌊x⌋ := Int.floor_nonneg.mpr h0
    have hle : ⌊x⌋ ≤ 30 := by
      have : ((⌊x⌋ : Int) : α) ≤ ((30 : Int) : α) := by
        rw [hw]
        exact_mod_cast h30
      exact_mod_cast this
    have hlen : (⌊x⌋).toNat < (azetac : List α).length := by
      rw [azetac_length]
      omega
    rw [hti]
    refine ⟨hfl, hle, (azetac : List α)[(⌊x⌋).toNat], ?_⟩
    simp only [readTable, hfl, if_true, List.getElem?_eq_getElem hlen]

end TableBounds

section Positivity

variable {α : Type} [LinearOrderedField α]

/-- The Horner scheme started from a positive value, at x >= 0 and with positive
coefficients, gives a positive value. -/
theorem horner_pos (x : α) (hx : 0 ≤ x) (l : List α) (hl : ∀ c ∈ l, 0 < c) :
    ∀ a : α, 0 < a → 0 < l.foldl (fun acc c => acc * x + c) a := by
  induction l with
  | nil =>
    intro a ha
    simpa using ha
  | cons c l ih =>
    intro a ha
    simp only [List.foldl]
    apply ih (fun d hd => hl d (List.mem_cons_of_mem _ hd))
    have h1 : 0 ≤ a * x := mul_nonneg ha.le hx
    have h2 : 0 < c := hl c (List.mem_cons_self _ _)
    linarith

/-- The Horner scheme started from 0, at x >= 0 and with at least one coefficient,
all positive, gives a positive value. -/
theorem horner_pos_of_zero (x : α) (hx : 0 ≤ x) (l : List α) (hl : ∀ c ∈ l, 0 < c)
    (hne : l ≠ []) : 0 < l.foldl (fun acc c => acc * x + c) 0 := by
  cases l with
  | nil => exact absurd rfl hne
  | cons c l =>
    simp only [List.foldl]
    apply horner_pos x hx l (fun d hd => hl d (List.mem_cons_of_mem _ hd))
    have h2 : 0 < c := hl c (List.mem_cons_self _ _)
    linarith

/-- The entries of AN that are read are positive. -/
theorem AN_entries_pos : ∀ c ∈ (AN : List α).take (7 + 1), 0 < c := by
  simp only [AN, List.take, List.forall_mem_cons, List.not_mem_nil, false_imp_iff, forall_const,
    and_true]
  norm_num

/-- The entries of AD that are read are positive. -/
theorem AD_entries_pos : ∀ c ∈ (AD : List α).take (7 + 1), 0 < c := by
  simp only [AD, List.take, List.forall_mem_cons, List.not_mem_nil, false_imp_iff, forall_const,
    and_true]
  norm_num

/-- The entries of APN that are read are positive. -/
theorem APN_entries_pos : ∀ c ∈ (APN : List α).take (7 + 1), 0 < c := by
  simp only [APN, List.take, List.forall_mem_cons, List.not_mem_nil, false_imp_iff, forall_const,
    and_true]
  norm_num

/-- The entries of APD that are read are positive. -/
theorem APD_entries_pos : ∀ c ∈ (APD : List α).take (7 + 1), 0 < c := by
  simp only [APD, List.take, List.forall_mem_cons, List.not_mem_nil, false_imp_iff, forall_const,
    and_true]
  norm_num

/-- The entries of AFD that are read are positive. -/
theorem AFD_entries_pos : ∀ c ∈ (AFD : List α).take (9), 0 < c := by
  simp only [AFD, List.take, List.forall_mem_cons, List.not_mem_nil, false_imp_iff, forall_const,
    and_true]
  norm_num

/-- The entries of AGD that are read are positive. -/
theorem AGD_entries_pos : ∀ c ∈ (AGD : List α).take (10), 0 < c := by
  simp only [AGD, List.take, List.forall_mem_cons, List.not_mem_nil, false_imp_iff, forall_const,
    and_true]
  norm_num

/-- The entries of APFD that are read are positive. -/
theorem APFD_entries_pos : ∀ c ∈ (APFD : List α).take (9), 0 < c := by
  simp only [APFD, List.take, List.forall_mem_cons, List.not_mem_nil, false_imp_iff, forall_const,
    and_true]
  norm_num

/-- The entries of APGD that are read are positive. -/
theorem APGD_entries_pos : ∀ c ∈ (APGD : List α).take (10), 0 < c := by
  simp only [APGD, List.take, List.forall_mem_cons, List.not_mem_nil, false_imp_iff, forall_const,
    and_true]
  norm_num

/-- The entries of S that are read are positive. -/
theorem S_entries_pos : ∀ c ∈ (S : List α).take (5), 0 < c := by
  simp only [S, List.take, List.forall_mem_cons, List.not_mem_nil, false_imp_iff, forall_const,
    and_true]
  norm_num

/-- The entries of Q that are read are positive. -/
theorem Q_entries_pos : ∀ c ∈ (Q : List α).take (8), 0 < c := by
  simp only [Q, List.take, List.forall_mem_cons, List.not_mem_nil, false_imp_iff, forall_const,
    and_true]
  norm_num

/-- The entries of P that are read are positive. -/
theorem P_entries_pos : ∀ c ∈ (P : List α).take (8 + 1), 0 < c := by
  simp only [P, List.take, List.forall_mem_cons, List.not_mem_nil, false_imp_iff, forall_const,
    and_true]
  norm_num

/-- C29: no division by zero and no square root of a negative number in the
asymptotic branches of airy and the rational branches of zetac, provided the
collaborators behave as the real functions do (sqrt positive on positive
arguments, exp positive, 2^y positive).  For x < -2.09: -x > 0, zeta > 0,
sqrt(-x) > 0, sqrt(sqrt(-x)) > 0 and the four p1evl denominators at z^2 are > 0.
For 2.09 <= x <= 25.77: x > 0, zeta > 0, 2*t*g > 0 and polevl(z, AD, 7),
polevl(z, APD, 7) are > 0.  For 0 < x < 1: (1-x)*p1evl(x, S, 5) > 0.  For
1 < x <= 10: 2^x*(x-1)*p1evl(1/x, Q, 8) > 0. -/
theorem asymptotic_divisors_positive (E : Elem α)
    (hsqrt : ∀ y, 0 < y → 0 < E.sqrt y) (hexp : ∀ y, 0 < E.exp y)
    (hpow : ∀ y, 0 < E.pow 2 y) :
    (∀ x : α, x < -2.09 →
      let t := E.sqrt (-x)
      let zeta := -2 * x * t / 3
      let z := 1 / zeta
      let zz := z * z
      0 < -x ∧ 0 < t ∧ 0 < zeta ∧ 0 < E.sqrt t ∧
      (∃ d, torch_cephes_p1evl zz AFD 9 = .ok d ∧ 0 < d) ∧
      (∃ d, torch_cephes_p1evl zz AGD 10 = .ok d ∧ 0 < d) ∧
      (∃ d, torch_cephes_p1evl zz APFD 9 = .ok d ∧ 0 < d) ∧
      (∃ d, torch_cephes_p1evl zz APGD 10 = .ok d ∧ 0 < d)) ∧
    (∀ x : α, 2.09 ≤ x → x ≤ 25.77 →
      let t := E.sqrt x
      let zeta := 2 * x * t / 3
      let g := E.exp zeta
      let z := 1 / zeta
      0 < x ∧ 0 < t ∧ 0 < zeta ∧ 0 < g ∧ 0 < 2 * E.sqrt t * g ∧
      (∃ d, torch_cephes_polevl z AD 7 = .ok d ∧ 0 < d) ∧
      (∃ d, torch_cephes_polevl z APD 7 = .ok d ∧ 0 < d)) ∧
    (∀ x : α, 0 < x → x < 1 →
      ∃ q, torch_cephes_p1evl x S 5 = .ok q ∧ 0 < (1 - x) * q) ∧
    (∀ x : α, 1 < x → x ≤ 10 →
      ∃ q, torch_cephes_p1evl (1 / x) Q 8 = .ok q ∧ 0 < E.pow 2 x * (x - 1) * q) := by
  refine ⟨?_, ?_, ?_, ?_⟩
  · intro x hx
    have hx0 : 0 < -x := by linarith
    have ht : 0 < E.sqrt (-x) := hsqrt _ hx0
    have hzeta : 0 < -2 * x * E.sqrt (-x) / 3 := by
      have : 0 < -x * E.sqrt (-x) := mul_pos hx0 ht
      linarith
    have hzz : 0 ≤ 1 / (-2 * x * E.sqrt (-x) / 3) * (1 / (-2 * x * E.sqrt (-x) / 3)) :=
      mul_self_nonneg _
    refine ⟨hx0, ht, hzeta, hsqrt _ ht, ?_, ?_, ?_, ?_⟩
    · exact ⟨_, p1evl_ok _ AFD 9 (by simp [AFD]),
        horner_pos _ hzz _ AFD_entries_pos 1 one_pos⟩
    · exact ⟨_, p1evl_ok _ AGD 10 (by simp [AGD]),
        horner_pos _ hzz _ AGD_entries_pos 1 one_pos⟩
    · exact ⟨_, p1evl_ok _ APFD 9 (by simp [APFD]),
        horner_pos _ hzz _ APFD_entries_pos 1 one_pos⟩
    · exact ⟨_, p1evl_ok _ APGD 10 (by simp [APGD]),
        horner_pos _ hzz _ APGD_entries_pos 1 one_pos⟩
  · intro x hlo _
    have hx0 : 0 < x := lt_of_lt_of_le (by norm_num) hlo
    have ht : 0 < E.sqrt x := hsqrt _ hx0
    have hzeta : 0 < 2 * x * E.sqrt x / 3 := by
      have : 0 < x * E.sqrt x := mul_pos hx0 ht
      linarith
    have hz : 0 ≤ 1 / (2 * x * E.sqrt x / 3) := (one_div_pos.mpr hzeta).le
    refine ⟨hx0, ht, hzeta, hexp _, ?_, ?_, ?_⟩
    · exact mul_pos (mul_pos two_pos (hsqrt _ ht)) (hexp _)
    · exact ⟨_, polevl_ok _ AD 7 (by simp [AD]),
        horner_pos_of_zero _ hz _ AD_entries_pos (by simp [AD])⟩
    · exact ⟨_, polevl_ok _ APD 7 (by simp [APD]),
        horner_pos_of_zero _ hz _ APD_entries_pos (by simp [APD])⟩
  · intro x h0 h1
    exact ⟨_, p1evl_ok _ S 5 (by simp [S]),
      mul_pos (by linarith) (horner_pos _ h0.le _ S_entries_pos 1 one_pos)⟩
  · intro x h1 _
    have hx0 : 0 < x := lt_trans one_pos h1
    exact ⟨_, p1evl_ok _ Q 8 (by simp [Q]),
      mul_pos (mul_pos (hpow _) (by linarith))
        (horner_pos _ (one_div_pos.mpr hx0).le _ Q_entries_pos 1 one_pos)⟩

end Positivity

/-- Witness for C29 with the real elementary functions: the second square root
at x = -3 and the divisor of the rational branch of zetac at x = 2.5. -/
theorem asymptotic_divisors_positive_witness :
    0 < Real.sqrt (Real.sqrt (-(-3 : ℝ))) ∧
    (∃ q : ℝ, torch_cephes_p1evl (1 / (2.5 : ℝ)) Q 8 = .ok q ∧
      0 < (2 : ℝ) ^ (2.5 : ℝ) * (2.5 - 1) * q) :=
  ⟨((asymptotic_divisors_positive (⟨Real.sin, Real.cos, Real.exp, Real.sqrt,
      fun a y => a ^ y, Real.Gamma, Real.pi, 2 ^ 1024 - 2 ^ 971, 1 / 2 ^ 53⟩ : Elem ℝ)
      (fun _ hy => Real.sqrt_pos.mpr hy) Real.exp_pos
      (fun y => Real.rpow_pos_of_pos (by norm_num) y)).1 (-3) (by norm_num)).2.2.2.1,
    (asymptotic_divisors_positive (⟨Real.sin, Real.cos, Real.exp, Real.sqrt,
      fun a y => a ^ y, Real.Gamma, Real.pi, 2 ^ 1024 - 2 ^ 971, 1 / 2 ^ 53⟩ : Elem ℝ)
      (fun _ hy => Real.sqrt_pos.mpr hy) Real.exp_pos
      (fun y => Real.rpow_pos_of_pos (by norm_num) y)).2.2.2 2.5 (by norm_num) (by norm_num)⟩

section Signs

variable {α : Type} [LinearOrderedField α]

/-- On 2.09 <= x <= 25.77 every result of airy carries the pair (Ai, Aip) of the
exponential asymptotic form. -/
theorem airy_result_exp_pair (E : Elem α) (fuel : Nat) (o : AiryOut α) (x : α)
    (hlo : 2.09 ≤ x) (hhi : x ≤ 25.77) (a : α × α) (ha : expAiValues E x = .ok a)
    (status : Int) (r : AiryOut α) (hr : torch_cephes_airy E fuel o x = .ok (status, r)) :
    r.ai = a.1 ∧ r.aip = a.2 := by
  by_cases h8 : x > 8.3203353
  · obtain ⟨b, hb⟩ := expBiValues_ok E x
    rw [airy_exponential E fuel o x h8 (by simpa [MAXAIRY] using hhi), ha, hb] at hr
    simp only [bind, Except.bind, pure, Except.pure, Except.ok.injEq, Prod.mk.injEq] at hr
    rw [← hr.2]
    exact ⟨rfl, rfl⟩
  · rw [airy_mixed E fuel o x hlo (not_lt.mp h8), ha] at hr
    cases hv : seriesValues E fuel x with
    | error e => simp [hv, bind, Except.bind] at hr
    | ok v =>
      simp only [hv, bind, Except.bind, pure, Except.pure, Except.ok.injEq,
        Prod.mk.injEq] at hr
      rw [← hr.2]
      exact ⟨rfl, rfl⟩

variable [FloorRing α]

/-- C30: signs of the outputs.  With collaborators that behave as the real
functions do (sqrt positive on positive arguments, exp positive, 2^y positive),
for every x with 2.09 <= x <= 25.77 the pair (Ai, Aip) that airy computes
satisfies Ai > 0 and Aip < 0: every returned result carries it, and with
MACHEP > 0 the call returns for all sufficiently large fuel.  For every
non-integer x with 1 < x <= 10 zetac returns a value > 0. -/
theorem airy_ai_sign_zetac_positive (E : Elem α)
    (hsqrt : ∀ y, 0 < y → 0 < E.sqrt y) (hexp : ∀ y, 0 < E.exp y)
    (hpow : ∀ y, 0 < E.pow 2 y) :
    (∀ x : α, 2.09 ≤ x → x ≤ 25.77 →
      ∃ a : α × α, expAiValues E x = .ok a ∧ 0 < a.1 ∧ a.2 < 0 ∧
        (∀ (fuel : Nat) (o : AiryOut α) (status : Int) (r : AiryOut α),
          torch_cephes_airy E fuel o x = .ok (status, r) →
            r.ai = a.1 ∧ r.aip = a.2 ∧ 0 < r.ai ∧ r.aip < 0) ∧
        (0 < E.MACHEP → ∀ o : AiryOut α,
          ∃ n r, ∀ fuel, n ≤ fuel → torch_cephes_airy E fuel o x = .ok (0, r))) ∧
    (∀ x : α, 1 < x → x ≤ 10 → ((⌊x⌋ : Int) : α) ≠ x →
      ∃ s : α, 0 < s ∧
        ∀ loopFuel depth, torch_cephes_zetac E loopFuel (depth + 1) x = .ok ⟨s, []⟩) := by
  constructor
  · intro x hlo hhi
    have hx0 : 0 < x := lt_of_lt_of_le (by norm_num) hlo
    have ht : 0 < E.sqrt x := hsqrt _ hx0
    have hzeta : 0 < 2 * x * E.sqrt x / 3 := by
      have : 0 < x * E.sqrt x := mul_pos hx0 ht
      linarith
    have hz : 0 ≤ 1 / (2 * x * E.sqrt x / 3) := (one_div_pos.mpr hzeta).le
    have hAN := horner_pos_of_zero _ hz _ (@AN_entries_pos α _) (by simp [AN])
    have hAD := horner_pos_of_zero _ hz _ (@AD_entries_pos α _) (by simp [AD])
    have hAPN := horner_pos_of_zero _ hz _ (@APN_entries_pos α _) (by simp [APN])
    have hAPD := horner_pos_of_zero _ hz _ (@APD_entries_pos α _) (by simp [APD])
    have hq : (0 : α) < sqpii := by norm_num [sqpii]
    have h4 : 0 < E.sqrt (E.sqrt x) := hsqrt _ ht
    have hg : 0 < E.exp (2 * x * E.sqrt x / 3) := hexp _
    have hai : 0 < sqpii * ((AN.take (7 + 1)).foldl
        (fun acc c => acc * (1 / (2 * x * E.sqrt x / 3)) + c) 0
        / (AD.take (7 + 1)).foldl (fun acc c => acc * (1 / (2 * x * E.sqrt x / 3)) + c) 0)
        / (2 * E.sqrt (E.sqrt x) * E.exp (2 * x * E.sqrt x / 3)) :=
      div_pos (mul_pos hq (div_pos hAN hAD)) (mul_pos (mul_pos two_pos h4) hg)
    have haip : (APN.take (7 + 1)).foldl
        (fun acc c => acc * (1 / (2 * x * E.sqrt x / 3)) + c) 0
        / (APD.take (7 + 1)).foldl (fun acc c => acc * (1 / (2 * x * E.sqrt x / 3)) + c) 0
        * (-0.5 * sqpii * E.sqrt (E.sqrt x) / E.exp (2 * x * E.sqrt x / 3)) < 0 := by
      apply mul_neg_of_pos_of_neg (div_pos hAPN hAPD)
      apply div_neg_of_neg_of_pos _ hg
      have : 0 < sqpii * E.sqrt (E.sqrt x) := mul_pos hq h4
      linarith
    refine ⟨_, expAiValues_eq E x, hai, haip, ?_, ?_⟩
    · intro fuel o status r hr
      obtain ⟨e1, e2⟩ := airy_result_exp_pair E fuel o x hlo hhi _ (expAiValues_eq E x)
        status r hr
      refine ⟨e1, e2, ?_, ?_⟩
      · rw [e1]
        exact hai
      · rw [e2]
        exact haip
    · intro hM o
      obtain ⟨a, ha⟩ : ∃ a, expAiValues E x = .ok a := ⟨_, expAiValues_eq E x⟩
      obtain ⟨b, hb⟩ := expBiValues_ok E x
      by_cases h8 : x > 8.3203353
      · refine ⟨0, ⟨a.1, a.2, b.1, b.2⟩, fun fuel _ => ?_⟩
        rw [airy_exponential E fuel o x h8 (by simpa [MAXAIRY] using hhi), ha, hb]
        rfl
      · obtain ⟨n, v, hv⟩ := seriesValues_returns E hM x hx0.le
        refine ⟨n, ⟨a.1, a.2, v.bi, v.bip⟩, fun fuel hf => ?_⟩
        rw [airy_mixed E fuel o x hlo (not_lt.mp h8), ha, hv fuel hf]
        rfl
  · intro x h1 h10 hni
    have hx0 : 0 < x := lt_trans one_pos h1
    have hw : 0 ≤ 1 / x := (one_div_pos.mpr hx0).le
    have hP := horner_pos_of_zero _ hw _ (@P_entries_pos α _) (by simp [P])
    have hQ := horner_pos _ hw _ (@Q_entries_pos α _) 1 one_pos
    refine ⟨_, ?_, fun loopFuel depth => zetac_PQ_eq E loopFuel depth x h1 h10 hni⟩
    exact div_pos (mul_pos hx0 hP) (mul_pos (mul_pos (hpow _) (by linarith)) hQ)

end Signs

/-- Witness for C30 with the real elementary functions, at x = 3 for airy and at
x = 2.5 for zetac. -/
theorem airy_ai_sign_zetac_positive_witness :
    (∃ a : ℝ × ℝ, expAiValues (⟨Real.sin, Real.cos, Real.exp, Real.sqrt,
        fun a y => a ^ y, Real.Gamma, Real.pi, 2 ^ 1024 - 2 ^ 971, 1 / 2 ^ 53⟩ : Elem ℝ) 3
        = .ok a ∧ 0 < a.1 ∧ a.2 < 0) ∧
    (∃ s : ℝ, 0 < s ∧ torch_cephes_zetac (⟨Real.sin, Real.cos, Real.exp, Real.sqrt,
        fun a y => a ^ y, Real.Gamma, Real.pi, 2 ^ 1024 - 2 ^ 971, 1 / 2 ^ 53⟩ : Elem ℝ)
        0 1 (2.5 : ℝ) = .ok ⟨s, []⟩) := by
  have hf : ⌊(2.5 : ℝ)⌋ = 2 := by
    rw [Int.floor_eq_iff]
    constructor <;> norm_num
  have hni : ((⌊(2.5 : ℝ)⌋ : Int) : ℝ) ≠ 2.5 := by
    rw [hf]
    norm_num
  have h := airy_ai_sign_zetac_positive (⟨Real.sin, Real.cos, Real.exp, Real.sqrt,
    fun a y => a ^ y, Real.Gamma, Real.pi, 2 ^ 1024 - 2 ^ 971, 1 / 2 ^ 53⟩ : Elem ℝ)
    (fun _ hy => Real.sqrt_pos.mpr hy) Real.exp_pos
    (fun y => Real.rpow_pos_of_pos (by norm_num) y)
  obtain ⟨a, h1, h2, h3, _⟩ := h.1 3 (by norm_num) (by norm_num)
  obtain ⟨s, hs, hz⟩ := h.2 2.5 (by norm_num) (by norm_num) hni
  exact ⟨⟨a, h1, h2, h3⟩, s, hs, hz 0 0⟩

section SumCorrection

/-- The odd terms of the series of inverse powers: they are summable and sum to
(1 - 2^(-x)) times the full series. -/
theorem odd_inverse_powers (x : ℝ) (hx : 1 < x) :
    Summable (fun k : ℕ => ((2 * k + 1 : ℕ) : ℝ) ^ (-x)) ∧
    (tsum fun k : ℕ => ((2 * k + 1 : ℕ) : ℝ) ^ (-x))
      = (1 - (2 : ℝ) ^ (-x)) * tsum fun n : ℕ => (n : ℝ) ^ (-x) := by
  have hg : Summable (fun n : ℕ => (n : ℝ) ^ (-x)) := Real.summable_nat_rpow.mpr (by linarith)
  have hi2 : Function.Injective (fun k : ℕ => 2 * k) := fun a b h => by
    have h2 : 2 * a = 2 * b := h
    omega
  have hi3 : Function.Injective (fun k : ℕ => 2 * k + 1) := fun a b h => by
    have h2 : 2 * a + 1 = 2 * b + 1 := h
    omega
  have he2 : Summable ((fun n : ℕ => (n : ℝ) ^ (-x)) ∘ (fun k : ℕ => 2 * k)) :=
    Summable.comp_injective hg hi2
  have ho2 : Summable ((fun n : ℕ => (n : ℝ) ^ (-x)) ∘ (fun k : ℕ => 2 * k + 1)) :=
    Summable.comp_injective hg hi3
  have he : Summable (fun k : ℕ => ((2 * k : ℕ) : ℝ) ^ (-x)) := he2
  have ho : Summable (fun k : ℕ => ((2 * k + 1 : ℕ) : ℝ) ^ (-x)) := ho2
  have hsplit : (tsum fun k : ℕ => ((2 * k : ℕ) : ℝ) ^ (-x))
      + (tsum fun k : ℕ => ((2 * k + 1 : ℕ) : ℝ) ^ (-x))
      = tsum fun n : ℕ => (n : ℝ) ^ (-x) :=
    @tsum_even_add_odd ℝ _ _ _ _ (fun n : ℕ => (n : ℝ) ^ (-x)) he ho
  have fe : (fun k : ℕ => ((2 * k : ℕ) : ℝ) ^ (-x))
      = fun k : ℕ => (2 : ℝ) ^ (-x) * (k : ℝ) ^ (-x) := by
    funext k
    have h : ((2 * k : ℕ) : ℝ) = 2 * (k : ℝ) := by
      push_cast
      ring
    rw [h, Real.mul_rpow (by norm_num) (Nat.cast_nonneg k)]
  have heven : (tsum fun k : ℕ => ((2 * k : ℕ) : ℝ) ^ (-x))
      = (2 : ℝ) ^ (-x) * tsum fun n : ℕ => (n : ℝ) ^ (-x) := by
    rw [fe]
    exact hg.tsum_mul_left ((2 : ℝ) ^ (-x))
  refine ⟨ho, ?_⟩
  rw [heven] at hsplit
  linarith

/-- The odd terms from 3 on: they are summable and sum to the sum of all odd
terms less the first term 1. -/
theorem odd_inverse_powers_from_three (x : ℝ) (hx : 1 < x) :
    Summable (fun j : ℕ => (2 * (j : ℝ) + 3) ^ (-x)) ∧
    (tsum fun k : ℕ => ((2 * k + 1 : ℕ) : ℝ) ^ (-x))
      = 1 + tsum fun j : ℕ => (2 * (j : ℝ) + 3) ^ (-x) := by
  have ho := (odd_inverse_powers x hx).1
  have fo : (fun j : ℕ => ((2 * (j + 1) + 1 : ℕ) : ℝ) ^ (-x))
      = fun j : ℕ => (2 * (j : ℝ) + 3) ^ (-x) := by
    funext j
    have : ((2 * (j + 1) + 1 : ℕ) : ℝ) = 2 * (j : ℝ) + 3 := by
      push_cast
      ring
    rw [this]
  constructor
  · have h := (summable_nat_add_iff 1).mpr ho
    rw [← fo]
    exact h
  · have h : (tsum fun k : ℕ => ((2 * k + 1 : ℕ) : ℝ) ^ (-x))
        = ((2 * 0 + 1 : ℕ) : ℝ) ^ (-x)
          + tsum fun j : ℕ => ((2 * (j + 1) + 1 : ℕ) : ℝ) ^ (-x) := tsum_eq_zero_add ho
    rw [fo] at h
    rw [h]
    norm_num

/-- The terms from 2 on: they are summable and sum to the full series less the
first term 1. -/
theorem inverse_powers_from_two (x : ℝ) (hx : 1 < x) :
    Summable (fun n : ℕ => ((n : ℝ) + 1) ^ (-x)) ∧
    Summable (fun k : ℕ => ((k : ℝ) + 2) ^ (-x)) ∧
    (tsum fun n : ℕ => (n : ℝ) ^ (-x)) = (tsum fun n : ℕ => ((n : ℝ) + 1) ^ (-x)) ∧
    (tsum fun n : ℕ => ((n : ℝ) + 1) ^ (-x))
      = 1 + tsum fun k : ℕ => ((k : ℝ) + 2) ^ (-x) := by
  have hg : Summable (fun n : ℕ => (n : ℝ) ^ (-x)) := Real.summable_nat_rpow.mpr (by linarith)
  have f1 : (fun n : ℕ => ((n + 1 : ℕ) : ℝ) ^ (-x)) = fun n : ℕ => ((n : ℝ) + 1) ^ (-x) := by
    funext n
    rw [Nat.cast_add, Nat.cast_one]
  have h1 : Summable (fun n : ℕ => ((n : ℝ) + 1) ^ (-x)) := by
    have h := (summable_nat_add_iff 1).mpr hg
    rw [← f1]
    exact h
  have f3 : (fun n : ℕ => (((n + 1 : ℕ) : ℝ) + 1) ^ (-x))
      = fun n : ℕ => ((n : ℝ) + 2) ^ (-x) := by
    funext n
    have : ((n + 1 : ℕ) : ℝ) + 1 = (n : ℝ) + 2 := by
      push_cast
      ring
    rw [this]
  have h2 : Summable (fun k : ℕ => ((k : ℝ) + 2) ^ (-x)) := by
    have h := (summable_nat_add_iff 1).mpr h1
    rw [← f3]
    exact h
  refine ⟨h1, h2, ?_, ?_⟩
  · have h : (tsum fun n : ℕ => (n : ℝ) ^ (-x))
        = ((0 : ℕ) : ℝ) ^ (-x) + tsum fun n : ℕ => ((n + 1 : ℕ) : ℝ) ^ (-x) :=
      tsum_eq_zero_add hg
    rw [f1, Nat.cast_zero, Real.zero_rpow (by linarith), zero_add] at h
    exact h
  · have h : (tsum fun n : ℕ => ((n : ℝ) + 1) ^ (-x))
        = (((0 : ℕ) : ℝ) + 1) ^ (-x) + tsum fun n : ℕ => (((n + 1 : ℕ) : ℝ) + 1) ^ (-x) :=
      tsum_eq_zero_add h1
    rw [f3] at h
    rw [h]
    norm_num

/-- For x > 1 the real series of the inverse powers is the Riemann zeta function. -/
theorem riemannZeta_eq_real_series (x : ℝ) (hx : 1 < x) :
    riemannZeta (x : ℂ) = ((tsum fun n : ℕ => ((n : ℝ) + 1) ^ (-x) : ℝ) : ℂ) := by
  have fc : (fun n : ℕ => (((((n : ℝ) + 1) ^ (-x) : ℝ)) : ℂ))
      = fun n : ℕ => 1 / ((n : ℂ) + 1) ^ (x : ℂ) := by
    funext n
    have hn : (0 : ℝ) ≤ (n : ℝ) + 1 := by positivity
    rw [Complex.ofReal_cpow hn, Complex.ofReal_neg, Complex.cpow_neg, one_div]
    push_cast
    rfl
  rw [zeta_eq_tsum_one_div_nat_add_one_cpow (by simpa using hx), Complex.ofReal_tsum, fc]

/-- C22: the final correction of the direct-summation regime is an exact
identity.  With the real power function, for every real x > 1, if S is the sum
over all odd k >= 3 of k^(-x) (a convergent series), then the corrected value
(S + 2^(-x)) / (1 - 2^(-x)) that zetac forms equals the sum over all k >= 2 of
k^(-x), which is zeta(x) - 1.  The correction is the one that the code applies to
the sum s returned by its loop. -/
theorem direct_sum_correction (E : Elem ℝ) (hpow : ∀ a y : ℝ, 0 < a → E.pow a y = a ^ y)
    (x : ℝ) (hx : 1 < x) :
    Summable (fun j : ℕ => (2 * (j : ℝ) + 3) ^ (-x)) ∧
    Summable (fun k : ℕ => ((k : ℝ) + 2) ^ (-x)) ∧
    sumCorrection E x (tsum fun j : ℕ => (2 * (j : ℝ) + 3) ^ (-x))
      = (tsum fun k : ℕ => ((k : ℝ) + 2) ^ (-x)) ∧
    (((tsum fun k : ℕ => ((k : ℝ) + 2) ^ (-x) : ℝ) : ℂ)) = riemannZeta (x : ℂ) - 1 ∧
    (∀ (fuel : Nat) (s : ℝ), 50 < x → zetacSum E x fuel 1 0 = .ok s →
      zetacRest E fuel x = .ok ⟨sumCorrection E x s, []⟩) := by
  obtain ⟨-, hO⟩ := odd_inverse_powers x hx
  obtain ⟨hS, hO3⟩ := odd_inverse_powers_from_three x hx
  obtain ⟨-, hT, hZ1, hZ2⟩ := inverse_powers_from_two x hx
  have hb : (2 : ℝ) ^ (-x) < 1 :=
    Real.rpow_lt_one_of_one_lt_of_neg (by norm_num) (by linarith)
  have hb1 : (1 - (2 : ℝ) ^ (-x)) ≠ 0 := by linarith
  refine ⟨hS, hT, ?_, ?_, ?_⟩
  · show (_ + E.pow 2 (-x)) / (1 - E.pow 2 (-x)) = _
    rw [hpow 2 (-x) (by norm_num), div_eq_iff hb1]
    rw [hO3, hZ1, hZ2] at hO
    linarith
  · rw [riemannZeta_eq_real_series x hx, hZ2]
    push_cast
    ring
  · intro fuel s h50 hs
    exact zetacRest_loop E fuel x s h50 hs

/-- Witness for C22 at x = 2 with the real elementary functions. -/
theorem direct_sum_correction_witness :
    (1 : ℝ) < 2 ∧
    sumCorrection (⟨Real.sin, Real.cos, Real.exp, Real.sqrt, fun a y => a ^ y,
        Real.Gamma, Real.pi, 2 ^ 1024 - 2 ^ 971, 1 / 2 ^ 53⟩ : Elem ℝ) 2
        (tsum fun j : ℕ => (2 * (j : ℝ) + 3) ^ (-(2 : ℝ)))
      = (tsum fun k : ℕ => ((k : ℝ) + 2) ^ (-(2 : ℝ))) :=
  ⟨by norm_num,
    (direct_sum_correction (⟨Real.sin, Real.cos, Real.exp, Real.sqrt, fun a y => a ^ y,
      Real.Gamma, Real.pi, 2 ^ 1024 - 2 ^ 971, 1 / 2 ^ 53⟩ : Elem ℝ)
      (fun _ _ _ => rfl) 2 (by norm_num)).2.2.1⟩

end SumCorrection

section ReflectionExact

/-- The functional equation of the Riemann zeta function at a real x < 0, in the
form that zetac evaluates: zeta(x) = sin(pi*x/2) * (2*pi)^x * Gamma(1-x) *
zeta(1-x) / pi. -/
theorem riemannZeta_reflection_real (x : ℝ) (hx : x < 0) :
    riemannZeta (x : ℂ)
      = ((Real.sin (0.5 * Real.pi * x) * (2 * Real.pi) ^ x * Real.Gamma (1 - x) : ℝ) : ℂ)
        * riemannZeta (1 - (x : ℂ)) / (Real.pi : ℂ) := by
  have hs : ∀ n : ℕ, (1 - (x : ℂ)) ≠ -(n : ℂ) := by
    intro n h
    have hre := congrArg Complex.re h
    simp at hre
    have : (0 : ℝ) ≤ n := Nat.cast_nonneg n
    linarith
  have hs1 : (1 - (x : ℂ)) ≠ 1 := by
    intro h
    have hre := congrArg Complex.re h
    simp at hre
    linarith
  have h := riemannZeta_one_sub hs hs1
  have e1 : (1 : ℂ) - (1 - (x : ℂ)) = x := by ring
  rw [e1] at h
  rw [h]
  have hpi : (Real.pi : ℂ) ≠ 0 := by
    exact_mod_cast Real.pi_ne_zero
  have h2pi : (2 * (Real.pi : ℂ)) ≠ 0 := mul_ne_zero two_ne_zero hpi
  have e2 : (2 * (Real.pi : ℂ)) ^ (-(1 - (x : ℂ)))
      = (2 * (Real.pi : ℂ)) ^ (x : ℂ) / (2 * (Real.pi : ℂ)) := by
    have : -(1 - (x : ℂ)) = (x : ℂ) - 1 := by ring
    rw [this, Complex.cpow_sub _ _ h2pi, Complex.cpow_one]
  have e3 : Complex.cos ((Real.pi : ℂ) * (1 - (x : ℂ)) / 2)
      = Complex.sin (0.5 * (Real.pi : ℂ) * (x : ℂ)) := by
    have : (Real.pi : ℂ) * (1 - (x : ℂ)) / 2
        = (Real.pi : ℂ) / 2 - 0.5 * (Real.pi : ℂ) * (x : ℂ) := by
      norm_num
      ring
    rw [this, Complex.cos_pi_div_two_sub]
  have e4 : (((2 * Real.pi) ^ x : ℝ) : ℂ) = (2 * (Real.pi : ℂ)) ^ (x : ℂ) := by
    rw [Complex.ofReal_cpow (by positivity)]
    push_cast
    rfl
  have e5 : ((Real.Gamma (1 - x) : ℝ) : ℂ) = Complex.Gamma (1 - (x : ℂ)) := by
    rw [← Complex.Gamma_ofReal]
    push_cast
    rfl
  have e6 : ((Real.sin (0.5 * Real.pi * x) : ℝ) : ℂ)
      = Complex.sin (0.5 * (Real.pi : ℂ) * (x : ℂ)) := by
    push_cast
    rfl
  rw [Complex.ofReal_mul, Complex.ofReal_mul, e4, e5, e6, e2, e3]
  field_simp
  ring

/-- C21: the reflection branch computes the Riemann zeta function exactly when
its inputs are exact.  With sin, pow, Gamma the real functions and PI = pi, for
every real x < 0, if w = zeta(1 - x) - 1, then the value
sin(pi*x/2) * (2*pi)^x * Gamma(1-x) * (1 + w) / pi - 1 that zetac forms equals
zeta(x) - 1; this is the functional equation
zeta(x) = 2^x * pi^(x-1) * sin(pi*x/2) * Gamma(1-x) * zeta(1-x).  The value is the
one that the code returns from the result of its recursive call on 1 - x. -/
theorem zetac_reflection_exact (E : Elem ℝ) (hsin : ∀ y, E.sin y = Real.sin y)
    (hpow : ∀ a y : ℝ, 0 < a → E.pow a y = a ^ y) (hgamma : ∀ y, E.gamma y = Real.Gamma y)
    (hpi : E.PI = Real.pi) (x w : ℝ) (hx : x < 0)
    (hw : (w : ℂ) = riemannZeta (1 - (x : ℂ)) - 1) :
    ((reflectValue E x w : ℝ) : ℂ) = riemannZeta (x : ℂ) - 1 ∧
    riemannZeta (x : ℂ)
      = (((2 : ℝ) ^ x * Real.pi ^ (x - 1) * Real.sin (Real.pi * x / 2)
          * Real.Gamma (1 - x) : ℝ) : ℂ) * riemannZeta (1 - (x : ℂ)) ∧
    (∀ (loopFuel depth : Nat) (r : ZOut ℝ), -170.6243 ≤ x →
      torch_cephes_zetac E loopFuel depth (1 - x) = .ok r →
      torch_cephes_zetac E loopFuel (depth + 1) x
        = .ok ⟨reflectValue E x r.val, r.errs⟩) := by
  have hfe := riemannZeta_reflection_real x hx
  have hpi0 : (Real.pi : ℂ) ≠ 0 := by
    exact_mod_cast Real.pi_ne_zero
  have h1w : (((1 + w : ℝ)) : ℂ) = riemannZeta (1 - (x : ℂ)) := by
    rw [Complex.ofReal_add, hw]
    push_cast
    ring
  refine ⟨?_, ?_, ?_⟩
  · have hval : reflectValue E x w
        = Real.sin (0.5 * Real.pi * x) * (2 * Real.pi) ^ x * Real.Gamma (1 - x) * (1 + w)
          / Real.pi - 1 := by
      show E.sin (0.5 * E.PI * x) * E.pow (2 * E.PI) x * E.gamma (1 - x) * (1 + w) / E.PI - 1
        = _
      rw [hpi, hsin, hgamma, hpow _ _ (by positivity)]
    rw [hval, hfe, Complex.ofReal_sub, Complex.ofReal_div, Complex.ofReal_mul _ (1 + w), h1w]
    push_cast
    ring
  · rw [hfe]
    have e : (2 : ℝ) ^ x * Real.pi ^ (x - 1) * Real.sin (Real.pi * x / 2) * Real.Gamma (1 - x)
        = Real.sin (0.5 * Real.pi * x) * (2 * Real.pi) ^ x * Real.Gamma (1 - x) / Real.pi := by
      rw [Real.mul_rpow (by norm_num) Real.pi_pos.le, Real.rpow_sub_one Real.pi_ne_zero]
      have : Real.pi * x / 2 = 0.5 * Real.pi * x := by
        norm_num
        ring
      rw [this]
      ring
    rw [e]
    push_cast
    field_simp
  · intro loopFuel depth r hcut hr
    have h2 : ¬ x < -170.6243 := not_lt.mpr hcut
    simp only [torch_cephes_zetac, hx, h2, if_true, if_false, hr]
    rfl

/-- Witness for C21 at x = -1 with the real elementary functions, where
w = zeta(2) - 1 = pi^2/6 - 1. -/
theorem zetac_reflection_exact_witness :
    (-1 : ℝ) < 0 ∧
    (((Real.pi ^ 2 / 6 - 1 : ℝ)) : ℂ) = riemannZeta (1 - ((-1 : ℝ) : ℂ)) - 1 ∧
    ((reflectValue (⟨Real.sin, Real.cos, Real.exp, Real.sqrt, fun a y => a ^ y,
        Real.Gamma, Real.pi, 2 ^ 1024 - 2 ^ 971, 1 / 2 ^ 53⟩ : Elem ℝ) (-1)
        (Real.pi ^ 2 / 6 - 1) : ℝ) : ℂ) = riemannZeta ((-1 : ℝ) : ℂ) - 1 := by
  have hw : (((Real.pi ^ 2 / 6 - 1 : ℝ)) : ℂ) = riemannZeta (1 - ((-1 : ℝ) : ℂ)) - 1 := by
    have : (1 : ℂ) - ((-1 : ℝ) : ℂ) = 2 := by
      push_cast
      norm_num
    rw [this, riemannZeta_two]
    push_cast
    ring
  exact ⟨by norm_num, hw,
    (zetac_reflection_exact (⟨Real.sin, Real.cos, Real.exp, Real.sqrt, fun a y => a ^ y,
      Real.Gamma, Real.pi, 2 ^ 1024 - 2 ^ 971, 1 / 2 ^ 53⟩ : Elem ℝ)
      (fun _ => rfl) (fun _ _ _ => rfl) (fun _ => rfl) rfl (-1) (Real.pi ^ 2 / 6 - 1)
      (by norm_num) hw).1⟩

end ReflectionExact
